import Mathlib

/-! # JoystickController: calibration store and transform engine

A shallow embedding of `JoystickController.hpp` / `JoystickController.inl`.

The calibration store, its lookups and the control flow of the 2D helpers are embedded once.
The `float` arithmetic is embedded twice.

* Exact arithmetic (`calibrate`, `strengthOfPosition`, `directionIndexOfAngle`, ...):
  `float` values are rationals (`ℚ`), every float constant denotes its decimal literal and
  `+ - * /` are exact; a float division by zero ends the computation with
  `Fault.divisionByZero`.  It carries the results on the store, on the default calibration,
  on the symmetry of the transform and on the quantisers at the compass points.
* Binary32 arithmetic (`F32`, `calibrate32`, `strengthOfPosition32`,
  `directionIndexOfAngle32`, ...): IEEE 754 binary32 with one rounding to nearest, ties to
  even, per operation, gradual underflow, overflow to the infinities, signed zeros and NaN;
  comparisons with NaN are false.  It carries the results that depend on rounding: the
  range and the dead zones of the transform, the two rescales, monotonicity, the strength,
  the two index computations and the angle normalisation.

Modelling conventions.

* `std::size_t` values are natural numbers; none of the modelled operations can wrap.
* `m_calibrations[i]` with `i` past the end is reported as `Fault.outOfBounds`, a failed
  `assert` as `Fault.assertion`.
* The SFML backend (`sf::Joystick`) is a snapshot `Backend`; `std::sqrt` and `std::atan2`
  are the two fields of `Libm` in exact arithmetic, constrained in each theorem by the facts
  it needs, and `std::sqrt` is a function parameter in binary32.  `std::round` and the float
  to `std::size_t` conversion are defined exactly; in binary32 the conversion of a value
  that does not fit is undefined and modelled as `none`.
* In binary32 the arithmetic of `getAxisPosition` is `calibrate32 a raw`, on the
  `AxisCalibration` found for the axis and the raw reading; the direction index starts from
  the angle `direction + halfPiFloat`.  The two `while` loops are run with a bound on the
  number of tests (`none` when a loop has not ended by then), since in binary32 they need
  not end.
-/

set_option autoImplicit false

namespace joystickcontroller

/-! ## Data model (JoystickController.hpp) -/

/-- The `enum class AxisPair` of the header. -/
inductive AxisPair
  | XY
  | UV
  | PovXY
  deriving DecidableEq, Repr

/-- The `enum class Axis` of the header. -/
inductive Axis
  | X
  | Y
  | U
  | V
  | Z
  | R
  | PovX
  | PovY
  deriving DecidableEq, Repr

/-- The backend enumeration `sf::Joystick::Axis`. -/
inductive SfmlAxis
  | X
  | Y
  | Z
  | R
  | U
  | V
  | PovX
  | PovY
  deriving DecidableEq, Repr

/-- The private `enum class CalibrationField`. -/
inductive CalibrationField
  | Zero
  | MinPositive
  | MaxPositive
  | MinNegative
  | MaxNegative
  deriving DecidableEq, Repr

/-- The ways in which a modelled call can stop without a value. -/
inductive Fault
  | assertion
  | outOfBounds
  | divisionByZero
  deriving DecidableEq, Repr

/-- The `struct AxisCalibration` with its default member initialisers. -/
structure AxisCalibration where
  zero : ℚ := 0
  minPositive : ℚ := 0
  maxPositive : ℚ := 100
  minNegative : ℚ := 0
  maxNegative : ℚ := -100
  deriving DecidableEq, Repr

/-- The `struct Calibration` with its default member initialisers. -/
structure Calibration where
  joystickIndex : ℕ := 0
  x : AxisCalibration := {}
  y : AxisCalibration := {}
  u : AxisCalibration := {}
  v : AxisCalibration := {}
  z : AxisCalibration := {}
  r : AxisCalibration := {}
  povX : AxisCalibration := {}
  povY : AxisCalibration := {}
  deriving DecidableEq, Repr

/-- The data members of `class JoystickController`. -/
structure JoystickController where
  m_areJoysticksConnected : List Bool
  m_numberOfConnectedJoysticks : ℕ
  m_calibrations : List Calibration
  deriving DecidableEq, Repr

/-- A snapshot of what `sf::Joystick` answers after `sf::Joystick::update()`. -/
structure Backend where
  isConnected : ℕ → Bool
  getAxisPosition : ℕ → SfmlAxis → ℚ

/-- The two functions of the C math library whose values are not rational in general. -/
structure Libm where
  sqrt : ℚ → ℚ
  atan2 : ℚ → ℚ → ℚ

/-! ## Float helpers -/

/-- Float division: the quotient, or the fault standing for an infinite or NaN result. -/
def fdiv (a b : ℚ) : Except Fault ℚ :=
  if b = 0 then .error .divisionByZero else .ok (a / b)

/-- The final `if (n > 100.f) ... else if (n < -100.f) ...` of `getAxisPosition`. -/
def clampAxis (n : ℚ) : ℚ :=
  if n > 100 then 100 else if n < -100 then -100 else n

/-! ## Calibration store (private helpers) -/

/-- The `switch (axis)` that picks the member of a `Calibration` for an axis. -/
def Calibration.axisCalibration (c : Calibration) : Axis → AxisCalibration
  | .X => c.x
  | .Y => c.y
  | .U => c.u
  | .V => c.v
  | .Z => c.z
  | .R => c.r
  | .PovX => c.povX
  | .PovY => c.povY

/-- The function `priv_getSfmlJoystickAxis`. -/
def priv_getSfmlJoystickAxis : Axis → SfmlAxis
  | .X => .X
  | .Y => .Y
  | .U => .U
  | .V => .V
  | .Z => .Z
  | .PovX => .PovX
  | .PovY => .PovY
  | .R => .R

namespace JoystickController

/-- The function `priv_getCalibrationIndex`: position of the first record whose
`joystickIndex` matches, or the number of records when there is none. -/
def priv_getCalibrationIndex (jc : JoystickController) (joystickIndex : ℕ) : ℕ :=
  jc.m_calibrations.findIdx (fun c => c.joystickIndex == joystickIndex)

/-- The access `m_calibrations[priv_getCalibrationIndex(joystickIndex)]`. -/
def calibrationRecord (jc : JoystickController) (joystickIndex : ℕ) : Except Fault Calibration :=
  match jc.m_calibrations[jc.priv_getCalibrationIndex joystickIndex]? with
  | some c => .ok c
  | none => .error .outOfBounds

/-- The record access followed by the `switch (axis)` that sets the pointer `a`
in `getAxisPosition`. -/
def axisCalibration (jc : JoystickController) (joystickIndex : ℕ) (axis : Axis) :
    Except Fault AxisCalibration :=
  match jc.calibrationRecord joystickIndex with
  | .ok c => .ok (c.axisCalibration axis)
  | .error e => .error e

end JoystickController

/-! ## Single-axis calibrated transform -/

/-- Lines 208 to 238 of `getAxisPosition`: the arithmetic on the selected
`AxisCalibration` and the raw reading `origValue`. -/
def calibrate (a : AxisCalibration) (origValue : ℚ) : Except Fault ℚ :=
  let n := origValue - a.zero
  let maxPositive := a.maxPositive - a.zero
  let maxNegative := a.maxNegative + a.zero
  let minPositive := a.minPositive - a.zero
  let minNegative := a.minNegative + a.zero
  let scaled : Except Fault ℚ :=
    if n > 0 then
      if n < minPositive then .ok 0
      else
        match fdiv 100 (maxPositive - minPositive) with
        | .ok k => .ok ((n - minPositive) * k)
        | .error e => .error e
    else if n < 0 then
      if n > minNegative then .ok 0
      else
        match fdiv (-100) (maxNegative - minNegative) with
        | .ok k => .ok ((n - minNegative) * k)
        | .error e => .error e
    else .ok n
  match scaled with
  | .ok m => .ok (clampAxis m)
  | .error e => .error e

namespace JoystickController

/-- The function `getAxisPositionRaw`. -/
def getAxisPositionRaw (be : Backend) (joystickIndex : ℕ) (axis : Axis) : ℚ :=
  be.getAxisPosition joystickIndex (priv_getSfmlJoystickAxis axis)

/-- The function `getAxisPosition`: the calibrated position of one axis. -/
def getAxisPosition (jc : JoystickController) (be : Backend) (joystickIndex : ℕ) (axis : Axis) :
    Except Fault ℚ :=
  match jc.axisCalibration joystickIndex axis with
  | .ok a => calibrate a (be.getAxisPosition joystickIndex (priv_getSfmlJoystickAxis axis))
  | .error e => .error e

/-! ## Construction and connection queries -/

/-- The state before the constructor body runs: `m_areJoysticksConnected(8u)`,
`m_numberOfConnectedJoysticks{ 0u }` and an empty `m_calibrations`. -/
def initial : JoystickController :=
  ⟨List.replicate 8 false, 0, []⟩

/-- One iteration of the constructor's `for` loop, for slot `j`. -/
def constructStep (be : Backend) (jc : JoystickController) (j : ℕ) : JoystickController :=
  let connected := be.isConnected j
  let jc1 : JoystickController :=
    { jc with m_areJoysticksConnected := jc.m_areJoysticksConnected.set j connected }
  if connected then
    { jc1 with
      m_numberOfConnectedJoysticks := jc1.m_numberOfConnectedJoysticks + 1
      m_calibrations := jc1.m_calibrations ++ [{ joystickIndex := j }] }
  else jc1

/-- The constructor `JoystickController::JoystickController()`. -/
def construct (be : Backend) : JoystickController :=
  (List.range initial.m_areJoysticksConnected.length).foldl (constructStep be) initial

/-- The function `getConnectedCount`. -/
def getConnectedCount (jc : JoystickController) : ℕ :=
  jc.m_numberOfConnectedJoysticks

/-- The function `getConnectedIndices`. -/
def getConnectedIndices (jc : JoystickController) : List ℕ :=
  (List.range jc.m_areJoysticksConnected.length).filter
    (fun j => jc.m_areJoysticksConnected.getD j false)

end JoystickController

/-! ## Calibration getters and setters -/

/-- The function `priv_setCalibrationFieldValue`. -/
def priv_setCalibrationFieldValue (axisCalibration : AxisCalibration) :
    CalibrationField → ℚ → AxisCalibration
  | .Zero, newValue => { axisCalibration with zero := newValue }
  | .MinPositive, newValue => { axisCalibration with minPositive := newValue }
  | .MaxPositive, newValue => { axisCalibration with maxPositive := newValue }
  | .MinNegative, newValue => { axisCalibration with minNegative := newValue }
  | .MaxNegative, newValue => { axisCalibration with maxNegative := newValue }

/-- The function `priv_getCalibrationFieldValue`. -/
def priv_getCalibrationFieldValue (axisCalibration : AxisCalibration) : CalibrationField → ℚ
  | .Zero => axisCalibration.zero
  | .MinPositive => axisCalibration.minPositive
  | .MaxPositive => axisCalibration.maxPositive
  | .MinNegative => axisCalibration.minNegative
  | .MaxNegative => axisCalibration.maxNegative

/-- The `switch (axis)` of `priv_setCalibrationValue`: the member of the record that the
reference passed to `priv_setCalibrationFieldValue` designates is replaced. -/
def Calibration.setAxisCalibration (c : Calibration) (a : AxisCalibration) : Axis → Calibration
  | .X => { c with x := a }
  | .Y => { c with y := a }
  | .U => { c with u := a }
  | .V => { c with v := a }
  | .Z => { c with z := a }
  | .R => { c with r := a }
  | .PovX => { c with povX := a }
  | .PovY => { c with povY := a }

namespace JoystickController

/-- The function `priv_setCalibrationValue`. -/
def priv_setCalibrationValue (jc : JoystickController) (joystickIndex : ℕ) (axis : Axis)
    (calibrationField : CalibrationField) (newValue : ℚ) : Except Fault JoystickController :=
  let i := jc.priv_getCalibrationIndex joystickIndex
  match jc.m_calibrations[i]? with
  | some c =>
    .ok { jc with
      m_calibrations := jc.m_calibrations.set i
        (c.setAxisCalibration
          (priv_setCalibrationFieldValue (c.axisCalibration axis) calibrationField newValue) axis) }
  | none => .error .outOfBounds

/-- The function `priv_getCalibrationValue`. -/
def priv_getCalibrationValue (jc : JoystickController) (joystickIndex : ℕ) (axis : Axis)
    (calibrationField : CalibrationField) : Except Fault ℚ :=
  match jc.calibrationRecord joystickIndex with
  | .ok c => .ok (priv_getCalibrationFieldValue (c.axisCalibration axis) calibrationField)
  | .error e => .error e

/-- The function `setCalibrationAxisZero`. -/
def setCalibrationAxisZero (jc : JoystickController) (joystickIndex : ℕ) (axis : Axis)
    (zeroValue : ℚ) : Except Fault JoystickController :=
  jc.priv_setCalibrationValue joystickIndex axis .Zero zeroValue

/-- The function `setCalibrationAxisMinPositive`. -/
def setCalibrationAxisMinPositive (jc : JoystickController) (joystickIndex : ℕ) (axis : Axis)
    (minPositive : ℚ) : Except Fault JoystickController :=
  jc.priv_setCalibrationValue joystickIndex axis .MinPositive minPositive

/-- The function `setCalibrationAxisMaxPositive`. -/
def setCalibrationAxisMaxPositive (jc : JoystickController) (joystickIndex : ℕ) (axis : Axis)
    (maxPositive : ℚ) : Except Fault JoystickController :=
  jc.priv_setCalibrationValue joystickIndex axis .MaxPositive maxPositive

/-- The function `setCalibrationAxisMinNegative`. -/
def setCalibrationAxisMinNegative (jc : JoystickController) (joystickIndex : ℕ) (axis : Axis)
    (minNegative : ℚ) : Except Fault JoystickController :=
  jc.priv_setCalibrationValue joystickIndex axis .MinNegative minNegative

/-- The function `setCalibrationAxisMaxNegative`. -/
def setCalibrationAxisMaxNegative (jc : JoystickController) (joystickIndex : ℕ) (axis : Axis)
    (maxNegative : ℚ) : Except Fault JoystickController :=
  jc.priv_setCalibrationValue joystickIndex axis .MaxNegative maxNegative

/-- The function `getCalibrationAxisZero`. -/
def getCalibrationAxisZero (jc : JoystickController) (joystickIndex : ℕ) (axis : Axis) :
    Except Fault ℚ :=
  jc.priv_getCalibrationValue joystickIndex axis .Zero

/-- The function `getCalibrationAxisMinPositive`. -/
def getCalibrationAxisMinPositive (jc : JoystickController) (joystickIndex : ℕ) (axis : Axis) :
    Except Fault ℚ :=
  jc.priv_getCalibrationValue joystickIndex axis .MinPositive

/-- The function `getCalibrationAxisMaxPositive`. -/
def getCalibrationAxisMaxPositive (jc : JoystickController) (joystickIndex : ℕ) (axis : Axis) :
    Except Fault ℚ :=
  jc.priv_getCalibrationValue joystickIndex axis .MaxPositive

/-- The function `getCalibrationAxisMinNegative`. -/
def getCalibrationAxisMinNegative (jc : JoystickController) (joystickIndex : ℕ) (axis : Axis) :
    Except Fault ℚ :=
  jc.priv_getCalibrationValue joystickIndex axis .MinNegative

/-- The function `getCalibrationAxisMaxNegative`. -/
def getCalibrationAxisMaxNegative (jc : JoystickController) (joystickIndex : ℕ) (axis : Axis) :
    Except Fault ℚ :=
  jc.priv_getCalibrationValue joystickIndex axis .MaxNegative

end JoystickController

/-! ## Polar derivation -/

/-- The constant `piFloat{ 3.141592653f }`. -/
def piFloat : ℚ := 3141592653 / 1000000000

/-- The constant `halfPiFloat{ piFloat / 2.f }`. -/
def halfPiFloat : ℚ := piFloat / 2

/-- The constant `doublePiFloat{ piFloat * 2.f }`. -/
def doublePiFloat : ℚ := piFloat * 2

/-- The function `std::round`: nearest integer, halfway cases away from zero. -/
def roundf (x : ℚ) : ℚ :=
  if 0 ≤ x then (⌊x + 1 / 2⌋ : ℤ) else (⌈x - 1 / 2⌉ : ℤ)

/-- The conversion `static_cast<std::size_t>(float)`: truncation.  The code only converts
values that are at least one half. -/
def toSizeT (x : ℚ) : ℕ :=
  (⌊x⌋ : ℤ).toNat

/-- Lines 290 to 295 of `getAxis2dDirectionCustomAxisPair`, on the two calibrated positions
`px` and `py` read for `axisX` and `axisY`. -/
def directionOfPosition (m : Libm) (px py : ℚ) (invertX invertY : Bool) : ℚ :=
  let x := px
  let y := -py
  let x := if invertX then -x else x
  let y := if invertY then -y else y
  m.atan2 x y - halfPiFloat

/-- Lines 316 to 321 of `getAxis2dStrengthCustomAxisPair`, on the two calibrated positions. -/
def strengthOfPosition (m : Libm) (px py : ℚ) : ℚ :=
  let strength := m.sqrt (px * px + py * py) * (1 / 100)
  let strength := if strength < 0 then 0 else strength
  if strength > 1 then 1 else strength

/-- A bound on the number of iterations that `while (angle > doublePiFloat)` still runs. -/
def turnsAbove (angle : ℚ) : ℕ :=
  (⌈angle / doublePiFloat⌉ : ℤ).toNat

/-- A bound on the number of iterations that `while (angle < 0.f)` still runs. -/
def turnsBelow (angle : ℚ) : ℕ :=
  (⌈-angle / doublePiFloat⌉ : ℤ).toNat

/-- The loop `while (angle > doublePiFloat) angle -= doublePiFloat;`. -/
def subtractTurns (angle : ℚ) : ℚ :=
  if angle > doublePiFloat then subtractTurns (angle - doublePiFloat) else angle
termination_by turnsAbove angle
decreasing_by
  rename_i h
  have hp : 0 < doublePiFloat := by norm_num [doublePiFloat, piFloat]
  have h1 : (angle - doublePiFloat) / doublePiFloat = angle / doublePiFloat - 1 := by
    field_simp
  have h2 : 1 < angle / doublePiFloat := by
    rw [lt_div_iff₀ hp]; linarith
  have h3 : (1 : ℤ) < ⌈angle / doublePiFloat⌉ := by
    have h5 := Int.le_ceil (angle / doublePiFloat)
    have h4 : ((1 : ℤ) : ℚ) < ((⌈angle / doublePiFloat⌉ : ℤ) : ℚ) := by
      push_cast; linarith
    exact_mod_cast h4
  unfold turnsAbove
  rw [h1, Int.ceil_sub_one]
  omega

/-- The loop `while (angle < 0.f) angle += doublePiFloat;`. -/
def addTurns (angle : ℚ) : ℚ :=
  if angle < 0 then addTurns (angle + doublePiFloat) else angle
termination_by turnsBelow angle
decreasing_by
  rename_i h
  have hp : 0 < doublePiFloat := by norm_num [doublePiFloat, piFloat]
  have h1 : -(angle + doublePiFloat) / doublePiFloat = -angle / doublePiFloat - 1 := by
    field_simp; ring
  have h2 : 0 < -angle / doublePiFloat := by
    apply div_pos <;> linarith
  have h3 : (0 : ℤ) < ⌈-angle / doublePiFloat⌉ := Int.ceil_pos.mpr h2
  unfold turnsBelow
  rw [h1, Int.ceil_sub_one]
  omega

/-- Lines 344 to 354 of `getAxis2dDirectionIndexCustomAxisPair`, on the initial value of
`angle` (the direction plus a quarter turn). -/
def directionIndexOfAngle (angle : ℚ) (numberOfSegments : ℕ) : ℕ :=
  let angle := subtractTurns angle
  let angle := addTurns angle
  let recipricalOfFullCircle : ℚ := 1 / doublePiFloat
  let angle := angle * ((numberOfSegments : ℚ) * recipricalOfFullCircle)
  let directionIndex := toSizeT (roundf angle + 1 / 2)
  if directionIndex ≥ numberOfSegments then directionIndex - numberOfSegments
  else directionIndex

/-- The returned expression of `getAxis2dStrengthIndexCustomAxisPair`, on the strength. -/
def strengthIndexOfStrength (strength : ℚ) (numberOfSteps : ℕ) : ℕ :=
  toSizeT (roundf (strength * ((numberOfSteps - 1 : ℕ) : ℚ)) + 1 / 2)

namespace JoystickController

/-- The function `getAxis2dPositionCustomAxisPair`. -/
def getAxis2dPositionCustomAxisPair (jc : JoystickController) (be : Backend)
    (joystickIndex : ℕ) (axisX axisY : Axis) (invertX invertY : Bool) : Except Fault (ℚ × ℚ) :=
  match jc.getAxisPosition be joystickIndex axisX with
  | .error e => .error e
  | .ok px =>
    match jc.getAxisPosition be joystickIndex axisY with
    | .error e => .error e
    | .ok py => .ok (if invertX then -px else px, if invertY then -py else py)

/-- The function `getAxis2dDirectionCustomAxisPair`. -/
def getAxis2dDirectionCustomAxisPair (m : Libm) (jc : JoystickController) (be : Backend)
    (joystickIndex : ℕ) (axisX axisY : Axis) (invertX invertY : Bool) : Except Fault ℚ :=
  match jc.getAxisPosition be joystickIndex axisX with
  | .error e => .error e
  | .ok px =>
    match jc.getAxisPosition be joystickIndex axisY with
    | .error e => .error e
    | .ok py => .ok (directionOfPosition m px py invertX invertY)

/-- The function `getAxis2dStrengthCustomAxisPair`. -/
def getAxis2dStrengthCustomAxisPair (m : Libm) (jc : JoystickController) (be : Backend)
    (joystickIndex : ℕ) (axisX axisY : Axis) : Except Fault ℚ :=
  match jc.getAxisPosition be joystickIndex axisX with
  | .error e => .error e
  | .ok px =>
    match jc.getAxisPosition be joystickIndex axisY with
    | .error e => .error e
    | .ok py => .ok (strengthOfPosition m px py)

/-- The function `getAxis2dDirectionIndexCustomAxisPair`. -/
def getAxis2dDirectionIndexCustomAxisPair (m : Libm) (jc : JoystickController) (be : Backend)
    (joystickIndex : ℕ) (axisX axisY : Axis) (numberOfSegments : ℕ)
    (invertX invertY : Bool) : Except Fault ℕ :=
  if numberOfSegments > 1 then
    match jc.getAxis2dDirectionCustomAxisPair m be joystickIndex axisX axisY invertX invertY with
    | .error e => .error e
    | .ok direction => .ok (directionIndexOfAngle (direction + halfPiFloat) numberOfSegments)
  else .error .assertion

/-- The function `getAxis2dStrengthIndexCustomAxisPair`. -/
def getAxis2dStrengthIndexCustomAxisPair (m : Libm) (jc : JoystickController) (be : Backend)
    (joystickIndex : ℕ) (axisX axisY : Axis) (numberOfSteps : ℕ) : Except Fault ℕ :=
  if numberOfSteps > 1 then
    match jc.getAxis2dStrengthCustomAxisPair m be joystickIndex axisX axisY with
    | .error e => .error e
    | .ok strength => .ok (strengthIndexOfStrength strength numberOfSteps)
  else .error .assertion

/-- The function `getAxis2dAsPovHatCustomAxisPair`. -/
def getAxis2dAsPovHatCustomAxisPair (m : Libm) (jc : JoystickController) (be : Backend)
    (joystickIndex : ℕ) (axisX axisY : Axis) (invertX invertY : Bool) : Except Fault ℤ :=
  match jc.getAxis2dStrengthIndexCustomAxisPair m be joystickIndex axisX axisY 2 with
  | .error e => .error e
  | .ok strengthIndex =>
    if strengthIndex = 0 then .ok (-1)
    else
      match jc.getAxis2dDirectionIndexCustomAxisPair m be joystickIndex axisX axisY 8
          invertX invertY with
      | .error e => .error e
      | .ok directionIndex => .ok (directionIndex : ℤ)

end JoystickController

/-! ## Concrete instances used to exercise the results -/

/-- One Heron step from the integer square root: a rational approximation from above of
the square root, exact on squares of integers. -/
def heronSqrt (x : ℚ) : ℚ :=
  if x ≤ 0 then 0
  else
    let g : ℚ := max 1 ((Nat.sqrt (⌊x⌋ : ℤ).toNat : ℕ) : ℚ)
    (g + x / g) / 2

/-- The diamond-angle approximation of `atan2 y x`, scaled to the constant `piFloat`: exact
on the axes and on the diagonals. -/
def diamondAtan2 (y x : ℚ) : ℚ :=
  if x = 0 ∧ y = 0 then 0
  else
    let d := halfPiFloat * |y| / (|x| + |y|)
    if 0 ≤ x then (if 0 ≤ y then d else -d)
    else (if 0 ≤ y then piFloat - d else d - piFloat)

/-- A rational math library. -/
def sampleLibm : Libm :=
  ⟨heronSqrt, diamondAtan2⟩

/-- A backend with joysticks 0 and 3 connected: joystick 0 is pushed straight up on X/Y and
is centred elsewhere; joystick 3 reads X = 5, Y = 50, U = 100, V = 100. -/
def sampleBackend : Backend where
  isConnected := fun j => j == 0 || j == 3
  getAxisPosition := fun j a =>
    if j = 0 then
      (match a with
        | .Y => -100
        | _ => 0)
    else if j = 3 then
      (match a with
        | .X => 5
        | .Y => 50
        | .U => 100
        | .V => 100
        | _ => 0)
    else 0

/-- The controller constructed over `sampleBackend` after
`setCalibrationAxisMinPositive(3, Axis::X, 10.f)`. -/
def sampleController : JoystickController where
  m_areJoysticksConnected := [true, false, false, true, false, false, false, false]
  m_numberOfConnectedJoysticks := 2
  m_calibrations := [{ joystickIndex := 0 }, { joystickIndex := 3, x := { minPositive := 10 } }]

/-- A backend with joystick 0 alone connected, reading `vx` on X, `vy` on Y and 0 on the
other axes. -/
def readingBackend (vx vy : ℚ) : Backend where
  isConnected := fun j => j == 0
  getAxisPosition := fun j a =>
    if j = 0 then
      (match a with
        | .X => vx
        | .Y => vy
        | _ => 0)
    else 0

/-! ## Binary32 values and arithmetic

IEEE 754 binary32 with rounding to nearest, ties to even: the arithmetic in which the
`float` operations of the source are carried out, one rounding per operation. -/

/-- A binary32 value: NaN, an infinity with its sign, or a finite value given by its sign
and its magnitude (zero is signed). -/
inductive F32
  | nan
  | inf (negative : Bool)
  | fin (negative : Bool) (magnitude : ℚ)
  deriving DecidableEq, Repr

namespace F32

/-- The rational value of a finite binary32 value (0 for NaN and the infinities). -/
def toRat : F32 → ℚ
  | fin s m => if s then -m else m
  | _ => 0

/-- The position of a value on the extended line: the infinities sit at `±2^128`, one step
beyond the largest finite magnitude. -/
def ord : F32 → ℚ
  | fin s m => if s then -m else m
  | inf s => if s then -(2 ^ 128) else 2 ^ 128
  | nan => 0

/-- Spacing of the binary32 magnitudes around `q`: `2^(e-23)` with `e = ⌊log₂ q⌋`, and
`e = -126` in the subnormal range. -/
def ulp (q : ℚ) : ℚ :=
  (2 : ℚ) ^ (max (Int.log 2 q) (-126) - 23)

/-- Rounding to the nearest integer, ties to the even one. -/
def roundHalfEven (t : ℚ) : ℤ :=
  if t - (⌊t⌋ : ℤ) < 1 / 2 then ⌊t⌋
  else if 1 / 2 < t - (⌊t⌋ : ℤ) then ⌊t⌋ + 1
  else if ⌊t⌋ % 2 = 0 then ⌊t⌋
  else ⌊t⌋ + 1

/-- The magnitude `q ≥ 0` rounded to the binary32 grid, exponent range unbounded above. -/
def roundMagnitude (q : ℚ) : ℚ :=
  (roundHalfEven (q / ulp q) : ℚ) * ulp q

/-- The binary32 result of an operation whose exact result has sign `s` and magnitude `q`:
the rounded magnitude, or the infinity when that reaches `2^128`. -/
def round (s : Bool) (q : ℚ) : F32 :=
  if roundMagnitude q < 2 ^ 128 then fin s (roundMagnitude q) else inf s

/-- The binary32 value nearest to a rational. -/
def ofRat (q : ℚ) : F32 :=
  round (decide (q < 0)) |q|

/-- Conversion of a `std::size_t` to `float`. -/
def ofNat (n : ℕ) : F32 :=
  round false (n : ℚ)

/-- A magnitude is a binary32 magnitude when rounding leaves it unchanged and it is below
`2^128`. -/
def Representable (m : ℚ) : Prop :=
  0 ≤ m ∧ roundMagnitude m = m ∧ m < 2 ^ 128

/-- The value `x` is finite, its magnitude is a binary32 magnitude, and it denotes the
rational `q`. -/
def Denotes (x : F32) (q : ℚ) : Prop :=
  match x with
  | fin s m => Representable m ∧ (if s then -m else m) = q
  | _ => False

/-- The value is not NaN and, when finite, has a magnitude in `[0, 2^128)`: the shape of
every result of an addition or subtraction of finite values. -/
def Regular : F32 → Prop
  | nan => False
  | inf _ => True
  | fin _ m => 0 ≤ m ∧ m < 2 ^ 128

/-- Whether the value is neither NaN nor an infinity. -/
def isFinite : F32 → Bool
  | fin _ _ => true
  | _ => false

/-- Unary minus. -/
def neg : F32 → F32
  | nan => nan
  | inf s => inf (!s)
  | fin s m => fin (!s) m

/-- Binary32 addition. -/
def add : F32 → F32 → F32
  | nan, _ => nan
  | _, nan => nan
  | inf s, inf t => if s = t then inf s else nan
  | inf s, fin _ _ => inf s
  | fin _ _, inf t => inf t
  | fin s x, fin t y =>
    if toRat (fin s x) + toRat (fin t y) = 0 then fin (s && t) 0
    else ofRat (toRat (fin s x) + toRat (fin t y))

/-- Binary32 subtraction. -/
def sub (x y : F32) : F32 :=
  add x (neg y)

/-- Binary32 multiplication. -/
def mul : F32 → F32 → F32
  | nan, _ => nan
  | _, nan => nan
  | inf s, inf t => inf (xor s t)
  | inf s, fin t y => if y = 0 then nan else inf (xor s t)
  | fin s x, inf t => if x = 0 then nan else inf (xor s t)
  | fin s x, fin t y => round (xor s t) (x * y)

/-- Binary32 division. -/
def div : F32 → F32 → F32
  | nan, _ => nan
  | _, nan => nan
  | inf _, inf _ => nan
  | inf s, fin t _ => inf (xor s t)
  | fin s _, inf t => fin (xor s t) 0
  | fin s x, fin t y =>
    if y = 0 then (if x = 0 then nan else inf (xor s t))
    else round (xor s t) (x / y)

/-- The comparison `x < y`; false when an operand is NaN, and `-0 < +0` is false. -/
def lt : F32 → F32 → Bool
  | nan, _ => false
  | _, nan => false
  | inf s, inf t => s && !t
  | inf s, fin _ _ => s
  | fin _ _, inf t => !t
  | fin s x, fin t y => decide (toRat (fin s x) < toRat (fin t y))

/-- The function `std::round` on `float`: nearest integer, halfway cases away from zero. -/
def roundf : F32 → F32
  | fin s m => fin s ((⌊m + 1 / 2⌋ : ℤ) : ℚ)
  | x => x

/-- The conversion `static_cast<std::size_t>(float)`: truncation toward zero; undefined
(`none`) for NaN, the infinities, and values at or below -1 or at or above `2^64`. -/
def toSizeT : F32 → Option ℕ
  | fin false m => if m < 2 ^ 64 then some (⌊m⌋ : ℤ).toNat else none
  | fin true m => if m < 1 then some 0 else none
  | _ => none

end F32

/-- The literal `0.f`. -/
def zero32 : F32 := F32.fin false 0

/-- The literal `100.f`. -/
def hundred32 : F32 := F32.fin false 100

/-- The literal `1.f`. -/
def one32 : F32 := F32.fin false 1

/-- The literal `0.5f`. -/
def half32 : F32 := F32.fin false (1 / 2)

/-- The literal `0.01f`: the binary32 value `5368709 / 2^29`. -/
def hundredth32 : F32 := F32.fin false (5368709 / 536870912)

/-- The constant `piFloat{ 3.141592653f }` as a binary32 value: `13176795 / 2^22`. -/
def piFloat32 : F32 := F32.fin false (13176795 / 4194304)

/-- The constant `halfPiFloat{ piFloat / 2.f }`: the quotient is exact, `13176795 / 2^23`. -/
def halfPiFloat32 : F32 := F32.fin false (13176795 / 8388608)

/-- The constant `doublePiFloat{ piFloat * 2.f }`: the product is exact, `13176795 / 2^21`. -/
def doublePiFloat32 : F32 := F32.fin false (13176795 / 2097152)

/-- The constant `recipricalOfFullCircle{ 1.f / doublePiFloat }`: the quotient rounded to
binary32, `10680707 / 2^26`. -/
def recipricalOfFullCircle32 : F32 := F32.fin false (10680707 / 67108864)

/-- The `struct AxisCalibration` with binary32 members and its default initialisers. -/
structure AxisCalibration32 where
  zero : F32 := F32.fin false 0
  minPositive : F32 := F32.fin false 0
  maxPositive : F32 := F32.fin false 100
  minNegative : F32 := F32.fin false 0
  maxNegative : F32 := F32.fin true 100

/-- The final `if (n > 100.f) ... else if (n < -100.f) ...` of `getAxisPosition`. -/
def clampAxis32 (n : F32) : F32 :=
  if F32.lt hundred32 n then hundred32
  else if F32.lt n (F32.neg hundred32) then F32.neg hundred32
  else n

/-- Lines 208 to 238 of `getAxisPosition` in binary32: the arithmetic on the selected
`AxisCalibration` and the raw reading `origValue`. -/
def calibrate32 (a : AxisCalibration32) (origValue : F32) : F32 :=
  let n := F32.sub origValue a.zero
  let maxPositive := F32.sub a.maxPositive a.zero
  let maxNegative := F32.add a.maxNegative a.zero
  let minPositive := F32.sub a.minPositive a.zero
  let minNegative := F32.add a.minNegative a.zero
  let scaled : F32 :=
    if F32.lt zero32 n then
      if F32.lt n minPositive then zero32
      else F32.mul (F32.sub n minPositive) (F32.div hundred32 (F32.sub maxPositive minPositive))
    else if F32.lt n zero32 then
      if F32.lt minNegative n then zero32
      else
        F32.mul (F32.sub n minNegative)
          (F32.div (F32.neg hundred32) (F32.sub maxNegative minNegative))
    else n
  clampAxis32 scaled

/-- Lines 214 to 233 of `getAxisPosition` in binary32, as a function of the offset reading
`n`, the two computed thresholds and the two computed scale factors. -/
def rescale32 (minPositive minNegative factorPositive factorNegative n : F32) : F32 :=
  if F32.lt zero32 n then
    if F32.lt n minPositive then zero32
    else F32.mul (F32.sub n minPositive) factorPositive
  else if F32.lt n zero32 then
    if F32.lt minNegative n then zero32
    else F32.mul (F32.sub n minNegative) factorNegative
  else n

/-- Lines 316 to 321 of `getAxis2dStrengthCustomAxisPair` in binary32, on the two
calibrated positions; `sqrt` is the `std::sqrt` of the platform. -/
def strengthOfPosition32 (sqrt : F32 → F32) (px py : F32) : F32 :=
  let strength := F32.mul (sqrt (F32.add (F32.mul px px) (F32.mul py py))) hundredth32
  let strength := if F32.lt strength zero32 then zero32 else strength
  if F32.lt one32 strength then one32 else strength

/-- The returned expression of `getAxis2dStrengthIndexCustomAxisPair` in binary32, on the
strength; `none` when the conversion to `std::size_t` is undefined. -/
def strengthIndexOfStrength32 (strength : F32) (numberOfSteps : ℕ) : Option ℕ :=
  F32.toSizeT (F32.add (F32.roundf (F32.mul strength (F32.ofNat (numberOfSteps - 1)))) half32)

/-- The function `getAxis2dStrengthIndexCustomAxisPair` in binary32, on the two calibrated
positions; `none` when the assertion fails or the conversion is undefined. -/
def strengthIndexOfPosition32 (sqrt : F32 → F32) (px py : F32) (numberOfSteps : ℕ) :
    Option ℕ :=
  if numberOfSteps > 1 then
    strengthIndexOfStrength32 (strengthOfPosition32 sqrt px py) numberOfSteps
  else none

/-- The loop `while (angle > doublePiFloat) angle -= doublePiFloat;` in binary32, run for
at most `fuel` tests of the condition; `none` when it has not ended by then. -/
def subtractTurns32 : ℕ → F32 → Option F32
  | 0, _ => none
  | fuel + 1, angle =>
    if F32.lt doublePiFloat32 angle then subtractTurns32 fuel (F32.sub angle doublePiFloat32)
    else some angle

/-- The loop `while (angle < 0.f) angle += doublePiFloat;` in binary32, run for at most
`fuel` tests of the condition; `none` when it has not ended by then. -/
def addTurns32 : ℕ → F32 → Option F32
  | 0, _ => none
  | fuel + 1, angle =>
    if F32.lt angle zero32 then addTurns32 fuel (F32.add angle doublePiFloat32)
    else some angle

/-- The two loops of `getAxis2dDirectionIndexCustomAxisPair` in binary32, one after the
other. -/
def normaliseAngle32 (fuel : ℕ) (angle : F32) : Option F32 :=
  match subtractTurns32 fuel angle with
  | none => none
  | some a => addTurns32 fuel a

/-- Lines 349 to 354 of `getAxis2dDirectionIndexCustomAxisPair` in binary32, on the angle
left by the two loops. -/
def directionIndexOfNormalised32 (angle : F32) (numberOfSegments : ℕ) : Option ℕ :=
  let angle := F32.mul angle (F32.mul (F32.ofNat numberOfSegments) recipricalOfFullCircle32)
  match F32.toSizeT (F32.add (F32.roundf angle) half32) with
  | none => none
  | some directionIndex =>
    some (if directionIndex ≥ numberOfSegments then directionIndex - numberOfSegments
      else directionIndex)

/-- Lines 344 to 354 of `getAxis2dDirectionIndexCustomAxisPair` in binary32, on the initial
value of `angle`. -/
def directionIndexOfAngle32 (fuel : ℕ) (angle : F32) (numberOfSegments : ℕ) : Option ℕ :=
  match normaliseAngle32 fuel angle with
  | none => none
  | some a => directionIndexOfNormalised32 a numberOfSegments

/-! ## Index computations with a single rounding, in binary32

The specification's `single correct round-half-up` on a binary32 value, to be compared
with the `round(x) + 0.5f` of the source. -/

/-- Round half up of a non-negative binary32 value, as one operation: `⌊x + 1/2⌋`. -/
def roundHalfUp32 : F32 → Option ℕ
  | F32.fin false m => some (⌊m + 1 / 2⌋ : ℤ).toNat
  | F32.fin true m => if m = 0 then some 0 else none
  | _ => none

/-- The strength index computed by one `roundHalfUp32`. -/
def strengthIndexSingleRound32 (strength : F32) (numberOfSteps : ℕ) : Option ℕ :=
  roundHalfUp32 (F32.mul strength (F32.ofNat (numberOfSteps - 1)))

/-- The direction index of a normalised angle with the index computed by one
`roundHalfUp32`. -/
def directionIndexSingleRound32 (angle : F32) (numberOfSegments : ℕ) : Option ℕ :=
  match roundHalfUp32
      (F32.mul angle (F32.mul (F32.ofNat numberOfSegments) recipricalOfFullCircle32)) with
  | none => none
  | some directionIndex =>
    some (if directionIndex ≥ numberOfSegments then directionIndex - numberOfSegments
      else directionIndex)

/-! ## A square root used to exercise the binary32 results -/

/-- A `std::sqrt` on binary32 values built from `heronSqrt`: exact on the squares of
integers, with the IEEE special cases. -/
def sampleSqrt32 : F32 → F32
  | F32.fin s m => if m = 0 then F32.fin s 0 else if s then F32.nan else F32.ofRat (heronSqrt m)
  | F32.inf s => if s then F32.nan else F32.inf false
  | F32.nan => F32.nan

/-! ## Results: single-axis calibrated transform -/

theorem clampAxis_eq_max_min (n : ℚ) : clampAxis n = max (-100) (min n 100) := by
  unfold clampAxis
  split_ifs with h1 h2
  · rw [min_eq_right (le_of_lt h1)]; norm_num
  · rw [min_eq_left (by linarith), max_eq_left (le_of_lt h2)]
  · rw [min_eq_left (not_lt.mp h1), max_eq_right (not_lt.mp h2)]

theorem clampAxis_of_mem (n : ℚ) (h1 : -100 ≤ n) (h2 : n ≤ 100) : clampAxis n = n := by
  unfold clampAxis
  rw [if_neg (not_lt.mpr h2), if_neg (not_lt.mpr h1)]

theorem fdiv_of_ne (a b : ℚ) (h : b ≠ 0) : fdiv a b = .ok (a / b) := by
  simp [fdiv, h]

theorem JoystickController.getAxisPosition_eq_calibrate (jc : JoystickController) (be : Backend)
    (j : ℕ) (axis : Axis) (a : AxisCalibration) (ha : jc.axisCalibration j axis = .ok a) :
    jc.getAxisPosition be j axis = calibrate a (JoystickController.getAxisPositionRaw be j axis) := by
  simp [JoystickController.getAxisPosition, JoystickController.getAxisPositionRaw, ha]

theorem calibrate_default (raw : ℚ) : calibrate {} raw = .ok (clampAxis raw) := by
  unfold calibrate
  norm_num [fdiv]
  rcases lt_trichotomy raw 0 with h | h | h
  · rw [if_neg (by linarith), if_pos h, if_neg (by linarith)]
  · subst h; simp
  · rw [if_pos h, if_neg (by linarith)]

/-- C3: under the default calibration the calibrated transform returns the raw reading
clamped to the interval from -100 to 100, hence the raw reading itself when it lies in
that interval. -/
theorem getAxisPosition_default_identity (jc : JoystickController) (be : Backend) (j : ℕ)
    (axis : Axis)
    (ha : jc.axisCalibration j axis =
      .ok { zero := 0, minPositive := 0, maxPositive := 100, minNegative := 0,
            maxNegative := -100 }) :
    jc.getAxisPosition be j axis =
        .ok (max (-100) (min (JoystickController.getAxisPositionRaw be j axis) 100)) ∧
      (-100 ≤ JoystickController.getAxisPositionRaw be j axis →
        JoystickController.getAxisPositionRaw be j axis ≤ 100 →
        jc.getAxisPosition be j axis = .ok (JoystickController.getAxisPositionRaw be j axis)) := by
  rw [JoystickController.getAxisPosition_eq_calibrate jc be j axis _ ha, calibrate_default]
  refine ⟨by rw [clampAxis_eq_max_min], fun h1 h2 => ?_⟩
  rw [clampAxis_of_mem _ h1 h2]

theorem getAxisPosition_default_identity_witness :
    JoystickController.getAxisPositionRaw sampleBackend 3 .Y = 50 ∧
    sampleController.getAxisPosition sampleBackend 3 .Y = .ok 50 :=
  ⟨rfl, by
    have h := (getAxisPosition_default_identity sampleController sampleBackend 3 .Y rfl).2
    have hraw : JoystickController.getAxisPositionRaw sampleBackend 3 .Y = 50 := rfl
    rw [hraw] at h
    exact h (by norm_num) (by norm_num)⟩

/-! ## Results: calibration store -/

theorem findIdx_set_of_eq {α : Type} (q : α → Bool) (l : List α) (i : ℕ) (c c' : α)
    (hc : l[i]? = some c) (hq : q c' = q c) : (l.set i c').findIdx q = l.findIdx q := by
  induction l generalizing i with
  | nil => simp
  | cons b l ih =>
    cases i with
    | zero =>
      simp only [List.getElem?_cons_zero, Option.some.injEq] at hc
      subst hc
      simp [List.findIdx_cons, hq]
    | succ k =>
      simp only [List.getElem?_cons_succ] at hc
      simp [List.findIdx_cons, ih k hc]

theorem getElem?_findIdx_of_mem (l : List Calibration) (j : ℕ)
    (h : ∃ c ∈ l, c.joystickIndex = j) :
    ∃ c, l[l.findIdx (fun c => c.joystickIndex == j)]? = some c ∧ c.joystickIndex = j := by
  obtain ⟨c0, hmem, hkey⟩ := h
  have hlt : l.findIdx (fun c => c.joystickIndex == j) < l.length :=
    List.findIdx_lt_length_of_exists ⟨c0, hmem, by simp [hkey]⟩
  refine ⟨l[l.findIdx (fun c => c.joystickIndex == j)], List.getElem?_eq_getElem hlt, ?_⟩
  have hp := @List.findIdx_getElem _ (fun c : Calibration => c.joystickIndex == j) l hlt
  simpa using hp

theorem setAxisCalibration_joystickIndex (c : Calibration) (a : AxisCalibration) (axis : Axis) :
    (c.setAxisCalibration a axis).joystickIndex = c.joystickIndex := by
  cases axis <;> rfl

theorem axisCalibration_setAxisCalibration (c : Calibration) (a : AxisCalibration)
    (axis : Axis) : (c.setAxisCalibration a axis).axisCalibration axis = a := by
  cases axis <;> rfl

theorem getField_setField (a : AxisCalibration) (f : CalibrationField) (v : ℚ) :
    priv_getCalibrationFieldValue (priv_setCalibrationFieldValue a f v) f = v := by
  cases f <;> rfl

/-- The calibration that `getAxisPosition` applies to an axis is the one whose fields the
getters return. -/
theorem JoystickController.priv_getCalibrationValue_eq (jc : JoystickController) (j : ℕ)
    (axis : Axis) (f : CalibrationField) (a : AxisCalibration)
    (ha : jc.axisCalibration j axis = .ok a) :
    jc.priv_getCalibrationValue j axis f = .ok (priv_getCalibrationFieldValue a f) := by
  unfold JoystickController.axisCalibration at ha
  unfold JoystickController.priv_getCalibrationValue
  cases hrec : jc.calibrationRecord j with
  | error e => rw [hrec] at ha; exact Except.noConfusion ha
  | ok c =>
    rw [hrec] at ha
    simp only [] at ha ⊢
    rw [Except.ok.inj ha]

/-- Setting a field through `priv_setCalibrationValue` on a registered device succeeds, and
`priv_getCalibrationValue` then reads the value back. -/
theorem JoystickController.priv_set_get (jc : JoystickController) (j : ℕ) (axis : Axis)
    (f : CalibrationField) (v : ℚ) (hreg : ∃ c ∈ jc.m_calibrations, c.joystickIndex = j) :
    ∃ jc', jc.priv_setCalibrationValue j axis f v = .ok jc' ∧
      jc'.priv_getCalibrationValue j axis f = .ok v := by
  obtain ⟨c, hc, hkey⟩ := getElem?_findIdx_of_mem jc.m_calibrations j hreg
  have hlt : jc.m_calibrations.findIdx (fun c => c.joystickIndex == j) <
      jc.m_calibrations.length := by
    by_contra hge
    rw [List.getElem?_eq_none (not_lt.mp hge)] at hc
    exact Option.noConfusion hc
  refine ⟨{ jc with
    m_calibrations := jc.m_calibrations.set (jc.priv_getCalibrationIndex j)
      (c.setAxisCalibration (priv_setCalibrationFieldValue (c.axisCalibration axis) f v) axis) },
    by simp only [JoystickController.priv_setCalibrationValue,
      JoystickController.priv_getCalibrationIndex, hc], ?_⟩
  have hidx := findIdx_set_of_eq (fun c : Calibration => c.joystickIndex == j)
    jc.m_calibrations _ c
    (c.setAxisCalibration (priv_setCalibrationFieldValue (c.axisCalibration axis) f v) axis)
    hc (by simp [setAxisCalibration_joystickIndex])
  simp only [JoystickController.priv_getCalibrationValue, JoystickController.calibrationRecord,
    JoystickController.priv_getCalibrationIndex, hidx]
  rw [List.getElem?_set_self hlt]
  simp [axisCalibration_setAxisCalibration, getField_setField]

/-- C4: set/get round trip.  On a registered device, for every axis and value, each of the
five setters succeeds and the matching getter then returns exactly the value set. -/
theorem calibration_set_get_round_trip (jc : JoystickController) (j : ℕ) (axis : Axis) (v : ℚ)
    (hreg : ∃ c ∈ jc.m_calibrations, c.joystickIndex = j) :
    (∃ jc', jc.setCalibrationAxisZero j axis v = .ok jc' ∧
        jc'.getCalibrationAxisZero j axis = .ok v) ∧
    (∃ jc', jc.setCalibrationAxisMinPositive j axis v = .ok jc' ∧
        jc'.getCalibrationAxisMinPositive j axis = .ok v) ∧
    (∃ jc', jc.setCalibrationAxisMaxPositive j axis v = .ok jc' ∧
        jc'.getCalibrationAxisMaxPositive j axis = .ok v) ∧
    (∃ jc', jc.setCalibrationAxisMinNegative j axis v = .ok jc' ∧
        jc'.getCalibrationAxisMinNegative j axis = .ok v) ∧
    (∃ jc', jc.setCalibrationAxisMaxNegative j axis v = .ok jc' ∧
        jc'.getCalibrationAxisMaxNegative j axis = .ok v) :=
  ⟨jc.priv_set_get j axis .Zero v hreg, jc.priv_set_get j axis .MinPositive v hreg,
    jc.priv_set_get j axis .MaxPositive v hreg, jc.priv_set_get j axis .MinNegative v hreg,
    jc.priv_set_get j axis .MaxNegative v hreg⟩

theorem calibration_set_get_round_trip_witness :
    (∃ c ∈ sampleController.m_calibrations, c.joystickIndex = 3) ∧
    ∃ jc', sampleController.setCalibrationAxisMaxNegative 3 .PovY (-75 / 2) = .ok jc' ∧
      jc'.getCalibrationAxisMaxNegative 3 .PovY = .ok (-75 / 2) :=
  ⟨⟨{ joystickIndex := 3, x := { minPositive := 10 } }, by simp [sampleController], rfl⟩,
    (calibration_set_get_round_trip sampleController 3 .PovY (-75 / 2)
      ⟨{ joystickIndex := 3, x := { minPositive := 10 } }, by simp [sampleController], rfl⟩).2.2.2.2⟩

theorem foldl_constructStep_calibrations (be : Backend) (l : List ℕ) (s : JoystickController) :
    (l.foldl (JoystickController.constructStep be) s).m_calibrations =
      s.m_calibrations ++
        (l.filter be.isConnected).map (fun j => ({ joystickIndex := j } : Calibration)) := by
  induction l generalizing s with
  | nil => simp
  | cons k l ih =>
    rw [List.foldl_cons, ih]
    by_cases hk : be.isConnected k = true
    · simp [JoystickController.constructStep, hk]
    · simp [JoystickController.constructStep, hk]

theorem construct_calibrations (be : Backend) :
    (JoystickController.construct be).m_calibrations =
      ((List.range 8).filter be.isConnected).map
        (fun j => ({ joystickIndex := j } : Calibration)) := by
  unfold JoystickController.construct
  rw [foldl_constructStep_calibrations]
  simp [JoystickController.initial]

/-- After construction the record found for a connected slot is the default record
carrying that slot's index. -/
theorem calibrationRecord_construct (be : Backend) (j : ℕ) (hj : j < 8)
    (hc : be.isConnected j = true) :
    (JoystickController.construct be).calibrationRecord j = .ok { joystickIndex := j } := by
  have hmem : ∃ c ∈ (JoystickController.construct be).m_calibrations, c.joystickIndex = j := by
    refine ⟨{ joystickIndex := j }, ?_, rfl⟩
    rw [construct_calibrations]
    exact List.mem_map.mpr ⟨j, List.mem_filter.mpr ⟨List.mem_range.mpr hj, hc⟩, rfl⟩
  obtain ⟨c, hget, hkey⟩ := getElem?_findIdx_of_mem _ j hmem
  have hc_mem : c ∈ (JoystickController.construct be).m_calibrations :=
    List.getElem?_mem hget
  rw [construct_calibrations] at hc_mem
  obtain ⟨k, _, hk⟩ := List.mem_map.mp hc_mem
  have hkj : k = j := by rw [← hk] at hkey; exact hkey
  subst hkj
  simp only [JoystickController.calibrationRecord, JoystickController.priv_getCalibrationIndex,
    hget, hk]

/-- C5: immediately after construction, for every connected device slot and every axis,
the five calibration getters return the defaults 0, 0, 100, 0 and -100. -/
theorem construct_default_calibration (be : Backend) (j : ℕ) (axis : Axis) (hj : j < 8)
    (hc : be.isConnected j = true) :
    (JoystickController.construct be).getCalibrationAxisZero j axis = .ok 0 ∧
    (JoystickController.construct be).getCalibrationAxisMinPositive j axis = .ok 0 ∧
    (JoystickController.construct be).getCalibrationAxisMaxPositive j axis = .ok 100 ∧
    (JoystickController.construct be).getCalibrationAxisMinNegative j axis = .ok 0 ∧
    (JoystickController.construct be).getCalibrationAxisMaxNegative j axis = .ok (-100) := by
  simp only [JoystickController.getCalibrationAxisZero,
    JoystickController.getCalibrationAxisMinPositive,
    JoystickController.getCalibrationAxisMaxPositive,
    JoystickController.getCalibrationAxisMinNegative,
    JoystickController.getCalibrationAxisMaxNegative,
    JoystickController.priv_getCalibrationValue, calibrationRecord_construct be j hj hc]
  cases axis <;> exact ⟨rfl, rfl, rfl, rfl, rfl⟩

theorem construct_default_calibration_witness :
    sampleBackend.isConnected 3 = true ∧
    (JoystickController.construct sampleBackend).getCalibrationAxisMaxPositive 3 .R = .ok 100 :=
  ⟨rfl, (construct_default_calibration sampleBackend 3 .R (by decide) rfl).2.2.1⟩

/-! ## Results: polar derivation and quantisation -/

theorem doublePiFloat_pos : 0 < doublePiFloat := by
  norm_num [doublePiFloat, piFloat]

theorem roundf_of_nonneg (x : ℚ) (hx : 0 ≤ x) : roundf x = ((⌊x + 1 / 2⌋ : ℤ) : ℚ) := by
  simp [roundf, hx]

theorem floor_intCast_add_half (k : ℤ) : ⌊(k : ℚ) + 1 / 2⌋ = k := by
  rw [Int.floor_eq_iff]
  constructor <;> linarith

/-- On a non-negative value the conversion of `std::round(x) + 0.5f` to `std::size_t`
is the integer `⌊x + 1/2⌋`. -/
theorem toSizeT_roundf_add_half (x : ℚ) (hx : 0 ≤ x) :
    toSizeT (roundf x + 1 / 2) = (⌊x + 1 / 2⌋ : ℤ).toNat := by
  rw [roundf_of_nonneg x hx]
  unfold toSizeT
  rw [floor_intCast_add_half]

theorem JoystickController.getAxis2dStrengthCustomAxisPair_eq (m : Libm)
    (jc : JoystickController) (be : Backend) (j : ℕ) (axisX axisY : Axis) (vx vy : ℚ)
    (hx : jc.getAxisPosition be j axisX = .ok vx) (hy : jc.getAxisPosition be j axisY = .ok vy) :
    jc.getAxis2dStrengthCustomAxisPair m be j axisX axisY = .ok (strengthOfPosition m vx vy) := by
  simp [JoystickController.getAxis2dStrengthCustomAxisPair, hx, hy]

theorem JoystickController.getAxis2dDirectionCustomAxisPair_eq (m : Libm)
    (jc : JoystickController) (be : Backend) (j : ℕ) (axisX axisY : Axis) (vx vy : ℚ)
    (invertX invertY : Bool)
    (hx : jc.getAxisPosition be j axisX = .ok vx) (hy : jc.getAxisPosition be j axisY = .ok vy) :
    jc.getAxis2dDirectionCustomAxisPair m be j axisX axisY invertX invertY =
      .ok (directionOfPosition m vx vy invertX invertY) := by
  simp [JoystickController.getAxis2dDirectionCustomAxisPair, hx, hy]

theorem JoystickController.getAxis2dDirectionIndexCustomAxisPair_eq (m : Libm)
    (jc : JoystickController) (be : Backend) (j : ℕ) (axisX axisY : Axis) (vx vy : ℚ)
    (numberOfSegments : ℕ) (invertX invertY : Bool)
    (hx : jc.getAxisPosition be j axisX = .ok vx) (hy : jc.getAxisPosition be j axisY = .ok vy)
    (hS : 2 ≤ numberOfSegments) :
    jc.getAxis2dDirectionIndexCustomAxisPair m be j axisX axisY numberOfSegments invertX invertY =
      .ok (directionIndexOfAngle (directionOfPosition m vx vy invertX invertY + halfPiFloat)
        numberOfSegments) := by
  have h1 : numberOfSegments > 1 := hS
  simp [JoystickController.getAxis2dDirectionIndexCustomAxisPair, h1,
    JoystickController.getAxis2dDirectionCustomAxisPair_eq m jc be j axisX axisY vx vy
      invertX invertY hx hy]

theorem JoystickController.getAxis2dStrengthIndexCustomAxisPair_eq (m : Libm)
    (jc : JoystickController) (be : Backend) (j : ℕ) (axisX axisY : Axis) (vx vy : ℚ)
    (numberOfSteps : ℕ)
    (hx : jc.getAxisPosition be j axisX = .ok vx) (hy : jc.getAxisPosition be j axisY = .ok vy)
    (hN : 2 ≤ numberOfSteps) :
    jc.getAxis2dStrengthIndexCustomAxisPair m be j axisX axisY numberOfSteps =
      .ok (strengthIndexOfStrength (strengthOfPosition m vx vy) numberOfSteps) := by
  have h1 : numberOfSteps > 1 := hN
  simp [JoystickController.getAxis2dStrengthIndexCustomAxisPair, h1,
    JoystickController.getAxis2dStrengthCustomAxisPair_eq m jc be j axisX axisY vx vy hx hy]

/-! ### Facts about the concrete instances -/

theorem sampleController_eq :
    (JoystickController.construct sampleBackend).setCalibrationAxisMinPositive 3 .X 10 =
      .ok sampleController :=
  rfl

theorem sampleController_axisCalibration_zero (axis : Axis) :
    sampleController.axisCalibration 0 axis = .ok {} := by
  cases axis <;> rfl

theorem sampleController_position_X : sampleController.getAxisPosition sampleBackend 0 .X = .ok 0 := by
  rw [JoystickController.getAxisPosition_eq_calibrate _ _ _ _ _
    (sampleController_axisCalibration_zero .X), calibrate_default]
  norm_num [JoystickController.getAxisPositionRaw, sampleBackend, priv_getSfmlJoystickAxis,
    clampAxis]

theorem sampleController_position_Y :
    sampleController.getAxisPosition sampleBackend 0 .Y = .ok (-100) := by
  rw [JoystickController.getAxisPosition_eq_calibrate _ _ _ _ _
    (sampleController_axisCalibration_zero .Y), calibrate_default]
  norm_num [JoystickController.getAxisPositionRaw, sampleBackend, priv_getSfmlJoystickAxis,
    clampAxis]

theorem heronSqrt_guess_pos (x : ℚ) : (1 : ℚ) ≤ max 1 ((Nat.sqrt (⌊x⌋ : ℤ).toNat : ℕ) : ℚ) :=
  le_max_left _ _

theorem heronSqrt_ge_hundred (x : ℚ) (hx : 10000 ≤ x) : 100 ≤ heronSqrt x := by
  have hg := heronSqrt_guess_pos x
  unfold heronSqrt
  rw [if_neg (not_le.mpr (by linarith))]
  simp only []
  generalize max 1 ((Nat.sqrt (⌊x⌋ : ℤ).toNat : ℕ) : ℚ) = g at hg ⊢
  have hgpos : 0 < g := by linarith
  rw [le_div_iff₀ (by norm_num : (0 : ℚ) < 2)]
  have h1 : 100 * 2 - g ≤ x / g := by
    rw [le_div_iff₀ hgpos]
    nlinarith [sq_nonneg (g - 100)]
  linarith

theorem diamondAtan2_zero_pos (x : ℚ) (hx : 0 < x) : diamondAtan2 0 x = 0 := by
  unfold diamondAtan2
  rw [if_neg (by intro h; exact absurd h.1 (ne_of_gt hx))]
  simp [le_of_lt hx]

/-! ### Direction index -/

theorem halfPiFloat_pos : 0 < halfPiFloat := by
  norm_num [halfPiFloat, piFloat]

theorem directionOfPosition_up (m : Libm) (vy : ℚ) (hvy : vy < 0)
    (hatan : ∀ x, 0 < x → m.atan2 0 x = 0) :
    directionOfPosition m 0 vy false false = -halfPiFloat := by
  unfold directionOfPosition
  simp only [Bool.false_eq_true, if_false]
  rw [hatan (-vy) (by linarith)]
  ring

/-- C9, as the code has it: the pair (0, -100) with no inversion, whose second argument
`atan2` maps to 0, has a direction different from 0. -/
theorem direction_straight_up_counterexample :
    sampleController.getAxisPosition sampleBackend 0 .X = .ok 0 ∧
    sampleController.getAxisPosition sampleBackend 0 .Y = .ok (-100) ∧
    sampleLibm.atan2 0 100 = 0 ∧
    sampleController.getAxis2dDirectionCustomAxisPair sampleLibm sampleBackend 0 .X .Y
      false false = .ok (-(3141592653 / 2000000000)) ∧
    sampleController.getAxis2dDirectionCustomAxisPair sampleLibm sampleBackend 0 .X .Y
      false false ≠ .ok 0 := by
  have hd : sampleController.getAxis2dDirectionCustomAxisPair sampleLibm sampleBackend 0 .X .Y
      false false = .ok (-(3141592653 / 2000000000)) := by
    rw [JoystickController.getAxis2dDirectionCustomAxisPair_eq sampleLibm sampleController
      sampleBackend 0 .X .Y 0 (-100) false false sampleController_position_X
      sampleController_position_Y,
      directionOfPosition_up sampleLibm (-100) (by norm_num) diamondAtan2_zero_pos]
    norm_num [halfPiFloat, piFloat]
  refine ⟨sampleController_position_X, sampleController_position_Y,
    diamondAtan2_zero_pos 100 (by norm_num), hd, ?_⟩
  rw [hd]
  intro h
  have h1 := Except.ok.inj h
  norm_num at h1

/-- C9, amended: for `vx = 0` and any `vy < 0`, with no inversion, the direction is
`-halfPiFloat` (minus a quarter turn, not 0); adding `halfPiFloat` to it gives 0.  The only
fact used about `atan2` is that `atan2 0 x = 0` for `x > 0`. -/
theorem direction_straight_up (m : Libm) (jc : JoystickController) (be : Backend) (j : ℕ)
    (axisX axisY : Axis) (vy : ℚ)
    (hx : jc.getAxisPosition be j axisX = .ok 0) (hy : jc.getAxisPosition be j axisY = .ok vy)
    (hvy : vy < 0) (hatan : ∀ x, 0 < x → m.atan2 0 x = 0) :
    jc.getAxis2dDirectionCustomAxisPair m be j axisX axisY false false = .ok (-halfPiFloat) ∧
      -halfPiFloat ≠ 0 ∧ -halfPiFloat + halfPiFloat = 0 := by
  refine ⟨?_, by linarith [halfPiFloat_pos], by ring⟩
  rw [JoystickController.getAxis2dDirectionCustomAxisPair_eq m jc be j axisX axisY 0 vy
    false false hx hy, directionOfPosition_up m vy hvy hatan]

theorem direction_straight_up_witness :
    sampleController.getAxis2dDirectionCustomAxisPair sampleLibm sampleBackend 0 .X .Y
        false false = .ok (-halfPiFloat) ∧
      -halfPiFloat ≠ 0 ∧ -halfPiFloat + halfPiFloat = 0 :=
  direction_straight_up sampleLibm sampleController sampleBackend 0 .X .Y (-100)
    sampleController_position_X sampleController_position_Y (by norm_num) diamondAtan2_zero_pos

/-! ### Segment 0 is centred on straight up -/

theorem subtractTurns_zero : subtractTurns 0 = 0 := by
  rw [subtractTurns, if_neg (not_lt.mpr (le_of_lt doublePiFloat_pos))]

theorem addTurns_zero : addTurns 0 = 0 := by
  rw [addTurns, if_neg (lt_irrefl 0)]

theorem directionIndexOfAngle_zero (numberOfSegments : ℕ) :
    directionIndexOfAngle 0 numberOfSegments = 0 := by
  unfold directionIndexOfAngle
  simp only [subtractTurns_zero, addTurns_zero, zero_mul]
  rw [toSizeT_roundf_add_half 0 le_rfl]
  norm_num

/-- C10: for every number of segments `S ≥ 2` the calibrated pair (0, -100) with no
inversion has direction index 0.  The only fact used about `atan2` is `atan2 0 100 = 0`. -/
theorem directionIndex_straight_up (m : Libm) (jc : JoystickController) (be : Backend) (j : ℕ)
    (axisX axisY : Axis) (numberOfSegments : ℕ)
    (hx : jc.getAxisPosition be j axisX = .ok 0)
    (hy : jc.getAxisPosition be j axisY = .ok (-100))
    (hS : 2 ≤ numberOfSegments) (hatan : m.atan2 0 100 = 0) :
    jc.getAxis2dDirectionIndexCustomAxisPair m be j axisX axisY numberOfSegments false false =
      .ok 0 := by
  rw [JoystickController.getAxis2dDirectionIndexCustomAxisPair_eq m jc be j axisX axisY 0 (-100)
    numberOfSegments false false hx hy hS]
  have hd : directionOfPosition m 0 (-100) false false + halfPiFloat = 0 := by
    unfold directionOfPosition
    simp only [Bool.false_eq_true, if_false, neg_neg]
    rw [hatan]
    ring
  rw [hd, directionIndexOfAngle_zero numberOfSegments]

theorem directionIndex_straight_up_witness :
    sampleLibm.atan2 0 100 = 0 ∧
    sampleController.getAxis2dDirectionIndexCustomAxisPair sampleLibm sampleBackend 0 .X .Y 12
      false false = .ok 0 :=
  ⟨diamondAtan2_zero_pos 100 (by norm_num),
    directionIndex_straight_up sampleLibm sampleController sampleBackend 0 .X .Y 12
      sampleController_position_X sampleController_position_Y (by decide)
      (diamondAtan2_zero_pos 100 (by norm_num))⟩

/-! ### Strength index -/

theorem strengthIndexOfStrength_eq (strength : ℚ) (numberOfSteps : ℕ) (h0 : 0 ≤ strength) :
    strengthIndexOfStrength strength numberOfSteps =
      (⌊strength * ((numberOfSteps - 1 : ℕ) : ℚ) + 1 / 2⌋ : ℤ).toNat := by
  unfold strengthIndexOfStrength
  rw [toSizeT_roundf_add_half _ (by positivity)]

theorem strengthIndexOfStrength_one (numberOfSteps : ℕ) :
    strengthIndexOfStrength 1 numberOfSteps = numberOfSteps - 1 := by
  rw [strengthIndexOfStrength_eq 1 numberOfSteps zero_le_one, one_mul]
  generalize numberOfSteps - 1 = M
  have h : ⌊(M : ℚ) + 1 / 2⌋ = (M : ℤ) := by
    have h1 := floor_intCast_add_half (M : ℤ)
    push_cast at h1
    exact h1
  rw [h]
  simp

theorem calibrate_ne_assertion (a : AxisCalibration) (raw : ℚ) :
    calibrate a raw ≠ .error .assertion := by
  unfold calibrate fdiv
  simp only []
  split_ifs <;> simp

theorem JoystickController.getAxisPosition_ne_assertion (jc : JoystickController) (be : Backend)
    (j : ℕ) (axis : Axis) : jc.getAxisPosition be j axis ≠ .error .assertion := by
  unfold JoystickController.getAxisPosition JoystickController.axisCalibration
    JoystickController.calibrationRecord
  cases jc.m_calibrations[jc.priv_getCalibrationIndex j]? with
  | none => simp
  | some c => exact calibrate_ne_assertion _ _

theorem JoystickController.getAxis2dDirection_ne_assertion (m : Libm) (jc : JoystickController)
    (be : Backend) (j : ℕ) (axisX axisY : Axis) (invertX invertY : Bool) :
    jc.getAxis2dDirectionCustomAxisPair m be j axisX axisY invertX invertY ≠
      .error .assertion := by
  unfold JoystickController.getAxis2dDirectionCustomAxisPair
  have hx := jc.getAxisPosition_ne_assertion be j axisX
  have hy := jc.getAxisPosition_ne_assertion be j axisY
  cases h1 : jc.getAxisPosition be j axisX with
  | error e => rw [h1] at hx; simpa using hx
  | ok px =>
    cases h2 : jc.getAxisPosition be j axisY with
    | error e => rw [h2] at hy; simpa using hy
    | ok py => simp

theorem JoystickController.getAxis2dStrength_ne_assertion (m : Libm) (jc : JoystickController)
    (be : Backend) (j : ℕ) (axisX axisY : Axis) :
    jc.getAxis2dStrengthCustomAxisPair m be j axisX axisY ≠ .error .assertion := by
  unfold JoystickController.getAxis2dStrengthCustomAxisPair
  have hx := jc.getAxisPosition_ne_assertion be j axisX
  have hy := jc.getAxisPosition_ne_assertion be j axisY
  cases h1 : jc.getAxisPosition be j axisX with
  | error e => rw [h1] at hx; simpa using hx
  | ok px =>
    cases h2 : jc.getAxisPosition be j axisY with
    | error e => rw [h2] at hy; simpa using hy
    | ok py => simp

/-- C14: `getAxis2dDirectionIndexCustomAxisPair` fails its assertion if and only if the
number of segments is below 2, `getAxis2dStrengthIndexCustomAxisPair` fails its assertion
if and only if the number of steps is below 2, and for every count of at least 2 both
return a value for every calibrated pair. -/
theorem quantiser_assertions (m : Libm) (jc : JoystickController) (be : Backend) (j : ℕ)
    (axisX axisY : Axis) (count : ℕ) (invertX invertY : Bool) :
    (jc.getAxis2dDirectionIndexCustomAxisPair m be j axisX axisY count invertX invertY =
        .error .assertion ↔ count < 2) ∧
    (jc.getAxis2dStrengthIndexCustomAxisPair m be j axisX axisY count =
        .error .assertion ↔ count < 2) ∧
    (∀ vx vy : ℚ, jc.getAxisPosition be j axisX = .ok vx →
      jc.getAxisPosition be j axisY = .ok vy → 2 ≤ count →
      (∃ i, jc.getAxis2dDirectionIndexCustomAxisPair m be j axisX axisY count invertX invertY =
        .ok i) ∧
      ∃ i, jc.getAxis2dStrengthIndexCustomAxisPair m be j axisX axisY count = .ok i) := by
  refine ⟨?_, ?_, ?_⟩
  · unfold JoystickController.getAxis2dDirectionIndexCustomAxisPair
    have hd := jc.getAxis2dDirection_ne_assertion m be j axisX axisY invertX invertY
    by_cases hc : count > 1
    · rw [if_pos hc]
      cases h1 : jc.getAxis2dDirectionCustomAxisPair m be j axisX axisY invertX invertY with
      | error e =>
        rw [h1] at hd
        constructor
        · intro h; exact absurd h (by simpa using hd)
        · intro h; omega
      | ok d =>
        constructor
        · intro h; simp at h
        · intro h; omega
    · rw [if_neg hc]
      exact ⟨fun _ => by omega, fun _ => rfl⟩
  · unfold JoystickController.getAxis2dStrengthIndexCustomAxisPair
    have hd := jc.getAxis2dStrength_ne_assertion m be j axisX axisY
    by_cases hc : count > 1
    · rw [if_pos hc]
      cases h1 : jc.getAxis2dStrengthCustomAxisPair m be j axisX axisY with
      | error e =>
        rw [h1] at hd
        constructor
        · intro h; exact absurd h (by simpa using hd)
        · intro h; omega
      | ok d =>
        constructor
        · intro h; simp at h
        · intro h; omega
    · rw [if_neg hc]
      exact ⟨fun _ => by omega, fun _ => rfl⟩
  · intro vx vy hx hy hc
    exact ⟨⟨_, JoystickController.getAxis2dDirectionIndexCustomAxisPair_eq m jc be j axisX axisY
        vx vy count invertX invertY hx hy hc⟩,
      ⟨_, JoystickController.getAxis2dStrengthIndexCustomAxisPair_eq m jc be j axisX axisY
        vx vy count hx hy hc⟩⟩

theorem quantiser_assertions_witness :
    (sampleController.getAxis2dDirectionIndexCustomAxisPair sampleLibm sampleBackend 0 .X .Y 1
        false false = .error .assertion) ∧
    (sampleController.getAxis2dStrengthIndexCustomAxisPair sampleLibm sampleBackend 0 .X .Y 1 =
        .error .assertion) ∧
    (∃ i, sampleController.getAxis2dDirectionIndexCustomAxisPair sampleLibm sampleBackend 0
        .X .Y 2 false false = .ok i) ∧
    ∃ i, sampleController.getAxis2dStrengthIndexCustomAxisPair sampleLibm sampleBackend 0
        .X .Y 2 = .ok i :=
  ⟨(quantiser_assertions sampleLibm sampleController sampleBackend 0 .X .Y 1
      false false).1.mpr (by decide),
    (quantiser_assertions sampleLibm sampleController sampleBackend 0 .X .Y 1
      false false).2.1.mpr (by decide),
    (quantiser_assertions sampleLibm sampleController sampleBackend 0 .X .Y 2
      false false).2.2 0 (-100) sampleController_position_X sampleController_position_Y
      le_rfl⟩

/-! ## Results: symmetry of the calibrated transform -/

theorem clampAxis_neg (x : ℚ) : clampAxis (-x) = -clampAxis x := by
  unfold clampAxis
  split_ifs <;> linarith

/-- With both scaling ranges properly ordered the arithmetic of `getAxisPosition` is the
clamp of a piecewise linear function of the raw reading. -/
theorem calibrate_of_ordered (a : AxisCalibration) (raw : ℚ)
    (hp : a.minPositive < a.maxPositive) (hn : a.maxNegative < a.minNegative) :
    calibrate a raw = .ok (clampAxis
      (if raw - a.zero > 0 then
        (if raw - a.zero < a.minPositive - a.zero then 0
          else (raw - a.minPositive) * (100 / (a.maxPositive - a.minPositive)))
      else if raw - a.zero < 0 then
        (if raw - a.zero > a.minNegative + a.zero then 0
          else (raw - a.zero - (a.minNegative + a.zero)) *
            (100 / (a.minNegative - a.maxNegative)))
      else raw - a.zero)) := by
  have h1 : a.maxPositive - a.zero - (a.minPositive - a.zero) ≠ 0 := by
    intro h; linarith
  have h2 : a.maxNegative + a.zero - (a.minNegative + a.zero) ≠ 0 := by
    intro h; linarith
  have h3 : a.maxPositive - a.minPositive ≠ 0 := by intro h; linarith
  have h4 : a.minNegative - a.maxNegative ≠ 0 := by intro h; linarith
  have e1 : (raw - a.zero - (a.minPositive - a.zero)) *
      (100 / (a.maxPositive - a.zero - (a.minPositive - a.zero))) =
      (raw - a.minPositive) * (100 / (a.maxPositive - a.minPositive)) := by
    rw [show a.maxPositive - a.zero - (a.minPositive - a.zero) =
        a.maxPositive - a.minPositive by ring,
      show raw - a.zero - (a.minPositive - a.zero) = raw - a.minPositive by ring]
  have e2 : (raw - a.zero - (a.minNegative + a.zero)) *
      (-100 / (a.maxNegative + a.zero - (a.minNegative + a.zero))) =
      (raw - a.zero - (a.minNegative + a.zero)) * (100 / (a.minNegative - a.maxNegative)) := by
    rw [show a.maxNegative + a.zero - (a.minNegative + a.zero) =
        -(a.minNegative - a.maxNegative) by ring, neg_div_neg_eq]
  unfold calibrate
  simp only [fdiv_of_ne _ _ h1, fdiv_of_ne _ _ h2, e1, e2]
  split_ifs <;> rfl

theorem readingBackend_raw_X (vx vy : ℚ) :
    JoystickController.getAxisPositionRaw (readingBackend vx vy) 0 .X = vx :=
  rfl

theorem readingBackend_raw_Y (vx vy : ℚ) :
    JoystickController.getAxisPositionRaw (readingBackend vx vy) 0 .Y = vy :=
  rfl

/-- C18: odd symmetry when the zero offset is 0.  With `zero = 0`,
`minNegative = -minPositive`, `maxNegative = -maxPositive` and `minPositive < maxPositive`,
the calibrated value of the raw reading `-r` is the negation of the calibrated value of
the raw reading `r`. -/
theorem getAxisPosition_odd (jc : JoystickController) (be1 be2 : Backend) (j : ℕ)
    (axis : Axis) (a : AxisCalibration) (ha : jc.axisCalibration j axis = .ok a)
    (hz : a.zero = 0) (hmin : a.minNegative = -a.minPositive)
    (hmax : a.maxNegative = -a.maxPositive) (hlt : a.minPositive < a.maxPositive)
    (hraw : JoystickController.getAxisPositionRaw be2 j axis =
      -JoystickController.getAxisPositionRaw be1 j axis) :
    ∃ v, jc.getAxisPosition be1 j axis = .ok v ∧ jc.getAxisPosition be2 j axis = .ok (-v) := by
  rw [JoystickController.getAxisPosition_eq_calibrate jc be1 j axis a ha,
    JoystickController.getAxisPosition_eq_calibrate jc be2 j axis a ha, hraw]
  generalize JoystickController.getAxisPositionRaw be1 j axis = r
  have hn : a.maxNegative < a.minNegative := by rw [hmin, hmax]; linarith
  rw [calibrate_of_ordered a r hlt hn, calibrate_of_ordered a (-r) hlt hn]
  refine ⟨_, rfl, ?_⟩
  rw [← clampAxis_neg]
  congr 2
  rw [hz, hmin, hmax]
  simp only [sub_zero, add_zero, sub_neg_eq_add]
  have hk : (-a.minPositive + a.maxPositive) = a.maxPositive - a.minPositive := by ring
  rw [hk]
  split_ifs <;> first | ring1 | linarith

theorem getAxisPosition_odd_witness :
    JoystickController.getAxisPositionRaw (readingBackend 30 0) 0 .X = 30 ∧
    JoystickController.getAxisPositionRaw (readingBackend (-30) 0) 0 .X = -30 ∧
    ∃ v, sampleController.getAxisPosition (readingBackend 30 0) 0 .X = .ok v ∧
      sampleController.getAxisPosition (readingBackend (-30) 0) 0 .X = .ok (-v) :=
  ⟨rfl, rfl, getAxisPosition_odd sampleController (readingBackend 30 0) (readingBackend (-30) 0)
    0 .X {} (sampleController_axisCalibration_zero .X) rfl (by norm_num) (by norm_num)
    (by norm_num) rfl⟩

/-! ## Results: angle reduction and segment choice -/

theorem subtractTurns_of_le (angle : ℚ) (h : angle ≤ doublePiFloat) :
    subtractTurns angle = angle := by
  rw [subtractTurns, if_neg (not_lt.mpr h)]

theorem addTurns_of_nonneg (angle : ℚ) (h : 0 ≤ angle) : addTurns angle = angle := by
  rw [addTurns, if_neg (not_lt.mpr h)]

theorem subtractTurns_add_turns (θ : ℚ) (n : ℕ) (h0 : 0 ≤ θ) (h1 : θ < doublePiFloat) :
    subtractTurns (θ + (n : ℚ) * doublePiFloat) =
      if θ = 0 ∧ 0 < n then doublePiFloat else θ := by
  have hp := doublePiFloat_pos
  induction n with
  | zero =>
    simp only [Nat.cast_zero, zero_mul, add_zero, lt_irrefl, and_false, if_false]
    exact subtractTurns_of_le θ (le_of_lt h1)
  | succ k ih =>
    have hk : (0 : ℚ) ≤ (k : ℚ) := Nat.cast_nonneg k
    by_cases hc : θ = 0 ∧ k = 0
    · obtain ⟨hθ, hk0⟩ := hc
      subst hθ hk0
      simp only [zero_add, Nat.cast_one, one_mul, true_and, Nat.lt_one_iff, if_true,
        Nat.cast_zero]
      exact subtractTurns_of_le _ le_rfl
    · have hgt : θ + ((k + 1 : ℕ) : ℚ) * doublePiFloat > doublePiFloat := by
        push_cast
        rcases not_and_or.mp hc with h | h
        · have : 0 < θ := lt_of_le_of_ne h0 (Ne.symm h)
          nlinarith
        · have : (1 : ℚ) ≤ (k : ℚ) := by exact_mod_cast Nat.one_le_iff_ne_zero.mpr h
          nlinarith
      rw [subtractTurns, if_pos hgt]
      have he : θ + ((k + 1 : ℕ) : ℚ) * doublePiFloat - doublePiFloat =
          θ + (k : ℚ) * doublePiFloat := by
        push_cast; ring
      rw [he, ih]
      by_cases hθ : θ = 0
      · have hk0 : k ≠ 0 := fun h => hc ⟨hθ, h⟩
        simp [hθ, Nat.pos_of_ne_zero hk0]
      · simp [hθ]

theorem addTurns_sub_turns (θ : ℚ) (n : ℕ) (h0 : 0 ≤ θ) (h1 : θ < doublePiFloat) :
    addTurns (θ - (n : ℚ) * doublePiFloat) = θ := by
  have hp := doublePiFloat_pos
  induction n with
  | zero =>
    simp only [Nat.cast_zero, zero_mul, sub_zero]
    exact addTurns_of_nonneg θ h0
  | succ k ih =>
    have hk : (0 : ℚ) ≤ (k : ℚ) := Nat.cast_nonneg k
    have hlt : θ - ((k + 1 : ℕ) : ℚ) * doublePiFloat < 0 := by
      push_cast; nlinarith
    rw [addTurns, if_pos hlt]
    have he : θ - ((k + 1 : ℕ) : ℚ) * doublePiFloat + doublePiFloat =
        θ - (k : ℚ) * doublePiFloat := by
      push_cast; ring
    rw [he, ih]

/-- The two loops of the direction index bring `θ + n * doublePiFloat`, with
`0 ≤ θ < doublePiFloat`, to `θ`, except a positive whole number of turns, which they
leave at `doublePiFloat`. -/
theorem addTurns_subtractTurns_eq (θ : ℚ) (n : ℤ) (h0 : 0 ≤ θ) (h1 : θ < doublePiFloat) :
    addTurns (subtractTurns (θ + (n : ℚ) * doublePiFloat)) =
      if θ = 0 ∧ 0 < n then doublePiFloat else θ := by
  have hp := doublePiFloat_pos
  rcases Int.le_total 0 n with hn | hn
  · obtain ⟨k, rfl⟩ := Int.eq_ofNat_of_zero_le hn
    have h := subtractTurns_add_turns θ k h0 h1
    simp only [Int.cast_natCast, Int.natCast_pos]
    rw [h]
    split_ifs
    · exact addTurns_of_nonneg _ (le_of_lt hp)
    · exact addTurns_of_nonneg _ h0
  · obtain ⟨k, hk⟩ := Int.exists_eq_neg_ofNat hn
    subst hk
    have hk0 : (0 : ℚ) ≤ (k : ℚ) := Nat.cast_nonneg k
    have hle : θ + ((-(k : ℤ) : ℤ) : ℚ) * doublePiFloat ≤ doublePiFloat := by
      push_cast; nlinarith
    rw [subtractTurns_of_le _ hle]
    have he : θ + ((-(k : ℤ) : ℤ) : ℚ) * doublePiFloat = θ - (k : ℚ) * doublePiFloat := by
      push_cast; ring
    rw [he, addTurns_sub_turns θ k h0 h1]
    have hneg : ¬ (θ = 0 ∧ (0 : ℤ) < -(k : ℤ)) := by
      rintro ⟨_, h⟩; omega
    rw [if_neg hneg]

/-- The direction index of an angle that is `θ` modulo whole turns, `0 ≤ θ < doublePiFloat`,
is `⌊θ * S / doublePiFloat + 1/2⌋` reduced modulo `S`. -/
theorem directionIndexOfAngle_of_reduced (angle θ : ℚ) (n : ℤ) (numberOfSegments : ℕ)
    (hS : 0 < numberOfSegments) (h0 : 0 ≤ θ) (h1 : θ < doublePiFloat)
    (ha : angle = θ + (n : ℚ) * doublePiFloat) :
    directionIndexOfAngle angle numberOfSegments =
      (⌊θ * (numberOfSegments : ℚ) / doublePiFloat + 1 / 2⌋ : ℤ).toNat % numberOfSegments := by
  have hp := doublePiFloat_pos
  have hSq : (0 : ℚ) < (numberOfSegments : ℚ) := by exact_mod_cast hS
  unfold directionIndexOfAngle
  simp only []
  rw [ha, addTurns_subtractTurns_eq θ n h0 h1]
  by_cases hc : θ = 0 ∧ 0 < n
  · rw [if_pos hc]
    have hx : doublePiFloat * ((numberOfSegments : ℚ) * (1 / doublePiFloat)) =
        (numberOfSegments : ℚ) := by
      field_simp
    rw [hx, toSizeT_roundf_add_half _ (le_of_lt hSq)]
    have hf : ⌊(numberOfSegments : ℚ) + 1 / 2⌋ = (numberOfSegments : ℤ) := by
      have h2 := floor_intCast_add_half (numberOfSegments : ℤ)
      push_cast at h2
      exact h2
    have hz : ⌊(0 : ℚ) * (numberOfSegments : ℚ) / doublePiFloat + 1 / 2⌋ = 0 := by
      rw [Int.floor_eq_iff]; norm_num
    rw [hf, hc.1, hz]
    simp
  · rw [if_neg hc]
    have hx : θ * ((numberOfSegments : ℚ) * (1 / doublePiFloat)) =
        θ * (numberOfSegments : ℚ) / doublePiFloat := by
      field_simp
    have hx0 : 0 ≤ θ * (numberOfSegments : ℚ) / doublePiFloat := by positivity
    have hx1 : θ * (numberOfSegments : ℚ) / doublePiFloat < (numberOfSegments : ℚ) := by
      rw [div_lt_iff₀ hp]; nlinarith
    rw [hx, toSizeT_roundf_add_half _ hx0]
    have hk0 : (0 : ℤ) ≤ ⌊θ * (numberOfSegments : ℚ) / doublePiFloat + 1 / 2⌋ := by
      apply Int.floor_nonneg.mpr; linarith
    have hk1 : ⌊θ * (numberOfSegments : ℚ) / doublePiFloat + 1 / 2⌋ <
        (numberOfSegments : ℤ) + 1 := by
      rw [Int.floor_lt]; push_cast; linarith
    generalize ⌊θ * (numberOfSegments : ℚ) / doublePiFloat + 1 / 2⌋ = K at hk0 hk1 ⊢
    obtain ⟨K', rfl⟩ := Int.eq_ofNat_of_zero_le hk0
    simp only [Int.toNat_ofNat]
    have hK : K' ≤ numberOfSegments := by omega
    rcases Nat.lt_or_ge K' numberOfSegments with h | h
    · rw [if_neg (by omega), Nat.mod_eq_of_lt h]
    · have : K' = numberOfSegments := le_antisymm hK h
      subst this
      simp

theorem floor_scaled_eq (θ : ℚ) (numberOfSegments k : ℕ) (hS : 0 < numberOfSegments)
    (hlo : ((k : ℚ) - 1 / 2) * (doublePiFloat / (numberOfSegments : ℚ)) ≤ θ)
    (hhi : θ < ((k : ℚ) + 1 / 2) * (doublePiFloat / (numberOfSegments : ℚ))) :
    ⌊θ * (numberOfSegments : ℚ) / doublePiFloat + 1 / 2⌋ = (k : ℤ) := by
  have hp := doublePiFloat_pos
  have hSq : (0 : ℚ) < (numberOfSegments : ℚ) := by exact_mod_cast hS
  have hq : 0 < doublePiFloat / (numberOfSegments : ℚ) := div_pos hp hSq
  have hx : θ * (numberOfSegments : ℚ) / doublePiFloat =
      θ / (doublePiFloat / (numberOfSegments : ℚ)) := by
    field_simp
  rw [hx, Int.floor_eq_iff]
  push_cast
  constructor
  · have : (k : ℚ) - 1 / 2 ≤ θ / (doublePiFloat / (numberOfSegments : ℚ)) := by
      rw [le_div_iff₀ hq]; exact hlo
    linarith
  · have : θ / (doublePiFloat / (numberOfSegments : ℚ)) < (k : ℚ) + 1 / 2 := by
      rw [div_lt_iff₀ hq]; exact hhi
    linarith

/-- An angle within half a segment of `k * doublePiFloat / S`, up to whole turns, has
direction index `k`. -/
theorem directionIndexOfAngle_near (angle : ℚ) (numberOfSegments k : ℕ) (t : ℤ)
    (hk : k < numberOfSegments)
    (hnear : |angle - ((k : ℚ) * (doublePiFloat / (numberOfSegments : ℚ)) +
      (t : ℚ) * doublePiFloat)| < doublePiFloat / (numberOfSegments : ℚ) / 2) :
    directionIndexOfAngle angle numberOfSegments = k := by
  have hp := doublePiFloat_pos
  have hSpos : 0 < numberOfSegments := by omega
  have hSq : (0 : ℚ) < (numberOfSegments : ℚ) := by exact_mod_cast hSpos
  have hkS : (k : ℚ) + 1 ≤ (numberOfSegments : ℚ) := by exact_mod_cast hk
  have hk0 : (0 : ℚ) ≤ (k : ℚ) := Nat.cast_nonneg k
  have hq : (numberOfSegments : ℚ) * (doublePiFloat / (numberOfSegments : ℚ)) =
      doublePiFloat := by
    field_simp
  have hqpos : 0 < doublePiFloat / (numberOfSegments : ℚ) := div_pos hp hSq
  generalize doublePiFloat / (numberOfSegments : ℚ) = q at hnear hq hqpos
  obtain ⟨he1, he2⟩ := abs_lt.mp hnear
  by_cases hc : 1 ≤ k ∨ 0 ≤ angle - ((k : ℚ) * q + (t : ℚ) * doublePiFloat)
  · have hθ0 : 0 ≤ angle - (t : ℚ) * doublePiFloat := by
      rcases hc with h | h
      · have : (1 : ℚ) ≤ (k : ℚ) := by exact_mod_cast h
        nlinarith
      · nlinarith
    have hθ1 : angle - (t : ℚ) * doublePiFloat < doublePiFloat := by nlinarith
    rw [directionIndexOfAngle_of_reduced angle (angle - (t : ℚ) * doublePiFloat) t
      numberOfSegments hSpos hθ0 hθ1 (by ring)]
    have hf := floor_scaled_eq (angle - (t : ℚ) * doublePiFloat) numberOfSegments k hSpos
    have hqe : doublePiFloat / (numberOfSegments : ℚ) = q := by
      rw [← hq]; field_simp
    rw [hqe] at hf
    rw [hf (by linarith) (by linarith)]
    simp [Nat.mod_eq_of_lt hk]
  · obtain ⟨hk1, hneg⟩ := not_or.mp hc
    have hkz : k = 0 := by omega
    subst hkz
    simp only [Nat.cast_zero, zero_mul, zero_add] at he1 he2 hneg
    have hS1 : (1 : ℚ) ≤ (numberOfSegments : ℚ) := by exact_mod_cast hSpos
    have hθ0 : 0 ≤ angle - ((t - 1 : ℤ) : ℚ) * doublePiFloat := by
      push_cast; nlinarith
    have hθ1 : angle - ((t - 1 : ℤ) : ℚ) * doublePiFloat < doublePiFloat := by
      push_cast; linarith
    rw [directionIndexOfAngle_of_reduced angle (angle - ((t - 1 : ℤ) : ℚ) * doublePiFloat)
      (t - 1) numberOfSegments hSpos hθ0 hθ1 (by ring)]
    have hf := floor_scaled_eq (angle - ((t - 1 : ℤ) : ℚ) * doublePiFloat) numberOfSegments
      numberOfSegments hSpos
    have hqe : doublePiFloat / (numberOfSegments : ℚ) = q := by
      rw [← hq]; field_simp
    rw [hqe] at hf
    rw [hf (by push_cast; nlinarith) (by push_cast; nlinarith)]
    simp

/-! ## Results: POV hat codes of the eight compass pairs -/

theorem strengthOfPosition_saturated (m : Libm) (px py : ℚ)
    (hbig : 100 ≤ m.sqrt (px * px + py * py)) : strengthOfPosition m px py = 1 := by
  have h1 : ¬ m.sqrt (px * px + py * py) * (1 / 100) < 0 := by
    apply not_lt.mpr; linarith
  unfold strengthOfPosition
  simp only [if_neg h1]
  split_ifs with h
  · rfl
  · linarith

theorem axisCalibration_construct (be : Backend) (j : ℕ) (axis : Axis) (hj : j < 8)
    (hc : be.isConnected j = true) :
    (JoystickController.construct be).axisCalibration j axis = .ok {} := by
  unfold JoystickController.axisCalibration
  rw [calibrationRecord_construct be j hj hc]
  cases axis <;> rfl

theorem readingBackend_position_X (vx vy : ℚ) (h1 : -100 ≤ vx) (h2 : vx ≤ 100) :
    (JoystickController.construct (readingBackend vx vy)).getAxisPosition
      (readingBackend vx vy) 0 .X = .ok vx := by
  rw [JoystickController.getAxisPosition_eq_calibrate _ _ _ _ _
    (axisCalibration_construct (readingBackend vx vy) 0 .X (by decide) rfl),
    calibrate_default, readingBackend_raw_X, clampAxis_of_mem vx h1 h2]

theorem readingBackend_position_Y (vx vy : ℚ) (h1 : -100 ≤ vy) (h2 : vy ≤ 100) :
    (JoystickController.construct (readingBackend vx vy)).getAxisPosition
      (readingBackend vx vy) 0 .Y = .ok vy := by
  rw [JoystickController.getAxisPosition_eq_calibrate _ _ _ _ _
    (axisCalibration_construct (readingBackend vx vy) 0 .Y (by decide) rfl),
    calibrate_default, readingBackend_raw_Y, clampAxis_of_mem vy h1 h2]

/-- C11: the POV hat codes run clockwise from north.  With no inversion the pairs
(0,-100), (100,-100), (100,0), (100,100), (0,100), (-100,100), (-100,0), (-100,-100) have
the hat codes 0 to 7 in this order, for a square root that is at least 100 from 10000 on
and an `atan2` that returns the compass angle `k * piFloat / 4` of the pair up to whole
turns and an error of at most 1/100. -/
theorem povHat_compass (m : Libm) (jc : JoystickController) (be : Backend) (j : ℕ)
    (axisX axisY : Axis) (vx vy : ℚ) (k : ℕ)
    (hx : jc.getAxisPosition be j axisX = .ok vx) (hy : jc.getAxisPosition be j axisY = .ok vy)
    (hk : (vx, vy, k) ∈ ([(0, -100, 0), (100, -100, 1), (100, 0, 2), (100, 100, 3),
      (0, 100, 4), (-100, 100, 5), (-100, 0, 6), (-100, -100, 7)] : List (ℚ × ℚ × ℕ)))
    (hsqrt : ∀ x, 10000 ≤ x → 100 ≤ m.sqrt x)
    (hatan : ∃ t : ℤ, |m.atan2 vx (-vy) - ((k : ℚ) * (piFloat / 4) + (t : ℚ) * doublePiFloat)| ≤
      1 / 100) :
    jc.getAxis2dAsPovHatCustomAxisPair m be j axisX axisY false false = .ok (k : ℤ) := by
  have hfacts : k < 8 ∧ 10000 ≤ vx * vx + vy * vy := by
    simp only [List.mem_cons, Prod.mk.injEq, List.mem_singleton, List.not_mem_nil,
      or_false] at hk
    rcases hk with h | h | h | h | h | h | h | h <;>
      (obtain ⟨hvx, hvy, hkk⟩ := h; subst hvx hvy hkk; norm_num)
  obtain ⟨hk8, hmag⟩ := hfacts
  obtain ⟨t, ht⟩ := hatan
  have hs := JoystickController.getAxis2dStrengthIndexCustomAxisPair_eq m jc be j axisX axisY
    vx vy 2 hx hy le_rfl
  rw [strengthOfPosition_saturated m vx vy (hsqrt _ hmag), strengthIndexOfStrength_one] at hs
  have hd := JoystickController.getAxis2dDirectionIndexCustomAxisPair_eq m jc be j axisX axisY
    vx vy 8 false false hx hy (by decide)
  have hangle : directionOfPosition m vx vy false false + halfPiFloat = m.atan2 vx (-vy) := by
    unfold directionOfPosition
    simp only [Bool.false_eq_true, if_false]
    ring
  have hnear : |m.atan2 vx (-vy) - ((k : ℚ) * (doublePiFloat / ((8 : ℕ) : ℚ)) +
      (t : ℚ) * doublePiFloat)| < doublePiFloat / ((8 : ℕ) : ℚ) / 2 := by
    have e : doublePiFloat / ((8 : ℕ) : ℚ) = piFloat / 4 := by
      unfold doublePiFloat; push_cast; ring
    rw [e]
    refine lt_of_le_of_lt ht ?_
    norm_num [piFloat]
  rw [hangle, directionIndexOfAngle_near _ 8 k t hk8 hnear] at hd
  simp only [JoystickController.getAxis2dAsPovHatCustomAxisPair, hs, hd]
  simp

theorem povHat_compass_witness :
    (JoystickController.construct (readingBackend 0 (-100))).getAxis2dAsPovHatCustomAxisPair
      sampleLibm (readingBackend 0 (-100)) 0 .X .Y false false = .ok 0 ∧
    (JoystickController.construct (readingBackend 100 (-100))).getAxis2dAsPovHatCustomAxisPair
      sampleLibm (readingBackend 100 (-100)) 0 .X .Y false false = .ok 1 ∧
    (JoystickController.construct (readingBackend 100 0)).getAxis2dAsPovHatCustomAxisPair
      sampleLibm (readingBackend 100 0) 0 .X .Y false false = .ok 2 ∧
    (JoystickController.construct (readingBackend 100 100)).getAxis2dAsPovHatCustomAxisPair
      sampleLibm (readingBackend 100 100) 0 .X .Y false false = .ok 3 ∧
    (JoystickController.construct (readingBackend 0 100)).getAxis2dAsPovHatCustomAxisPair
      sampleLibm (readingBackend 0 100) 0 .X .Y false false = .ok 4 ∧
    (JoystickController.construct (readingBackend (-100) 100)).getAxis2dAsPovHatCustomAxisPair
      sampleLibm (readingBackend (-100) 100) 0 .X .Y false false = .ok 5 ∧
    (JoystickController.construct (readingBackend (-100) 0)).getAxis2dAsPovHatCustomAxisPair
      sampleLibm (readingBackend (-100) 0) 0 .X .Y false false = .ok 6 ∧
    (JoystickController.construct (readingBackend (-100) (-100))).getAxis2dAsPovHatCustomAxisPair
      sampleLibm (readingBackend (-100) (-100)) 0 .X .Y false false = .ok 7 :=
  ⟨povHat_compass sampleLibm _ _ 0 .X .Y 0 (-100) 0
      (readingBackend_position_X _ _ (by norm_num) (by norm_num))
      (readingBackend_position_Y _ _ (by norm_num) (by norm_num)) (by simp)
      heronSqrt_ge_hundred
      ⟨0, by norm_num [sampleLibm, diamondAtan2, halfPiFloat, piFloat, doublePiFloat]⟩,
    povHat_compass sampleLibm _ _ 0 .X .Y 100 (-100) 1
      (readingBackend_position_X _ _ (by norm_num) (by norm_num))
      (readingBackend_position_Y _ _ (by norm_num) (by norm_num)) (by simp)
      heronSqrt_ge_hundred
      ⟨0, by norm_num [sampleLibm, diamondAtan2, halfPiFloat, piFloat, doublePiFloat]⟩,
    povHat_compass sampleLibm _ _ 0 .X .Y 100 0 2
      (readingBackend_position_X _ _ (by norm_num) (by norm_num))
      (readingBackend_position_Y _ _ (by norm_num) (by norm_num)) (by simp)
      heronSqrt_ge_hundred
      ⟨0, by norm_num [sampleLibm, diamondAtan2, halfPiFloat, piFloat, doublePiFloat]⟩,
    povHat_compass sampleLibm _ _ 0 .X .Y 100 100 3
      (readingBackend_position_X _ _ (by norm_num) (by norm_num))
      (readingBackend_position_Y _ _ (by norm_num) (by norm_num)) (by simp)
      heronSqrt_ge_hundred
      ⟨0, by norm_num [sampleLibm, diamondAtan2, halfPiFloat, piFloat, doublePiFloat]⟩,
    povHat_compass sampleLibm _ _ 0 .X .Y 0 100 4
      (readingBackend_position_X _ _ (by norm_num) (by norm_num))
      (readingBackend_position_Y _ _ (by norm_num) (by norm_num)) (by simp)
      heronSqrt_ge_hundred
      ⟨0, by norm_num [sampleLibm, diamondAtan2, halfPiFloat, piFloat, doublePiFloat]⟩,
    povHat_compass sampleLibm _ _ 0 .X .Y (-100) 100 5
      (readingBackend_position_X _ _ (by norm_num) (by norm_num))
      (readingBackend_position_Y _ _ (by norm_num) (by norm_num)) (by simp)
      heronSqrt_ge_hundred
      ⟨-1, by norm_num [sampleLibm, diamondAtan2, halfPiFloat, piFloat, doublePiFloat]⟩,
    povHat_compass sampleLibm _ _ 0 .X .Y (-100) 0 6
      (readingBackend_position_X _ _ (by norm_num) (by norm_num))
      (readingBackend_position_Y _ _ (by norm_num) (by norm_num)) (by simp)
      heronSqrt_ge_hundred
      ⟨-1, by norm_num [sampleLibm, diamondAtan2, halfPiFloat, piFloat, doublePiFloat]⟩,
    povHat_compass sampleLibm _ _ 0 .X .Y (-100) (-100) 7
      (readingBackend_position_X _ _ (by norm_num) (by norm_num))
      (readingBackend_position_Y _ _ (by norm_num) (by norm_num)) (by simp)
      heronSqrt_ge_hundred
      ⟨-1, by norm_num [sampleLibm, diamondAtan2, halfPiFloat, piFloat, doublePiFloat]⟩⟩

/-! ## Results: frame of a calibration update -/

theorem map_set_of_eq {α β : Type} (g : α → β) (l : List α) (i : ℕ) (c c' : α)
    (hc : l[i]? = some c) (hg : g c' = g c) : (l.set i c').map g = l.map g := by
  induction l generalizing i with
  | nil => simp
  | cons b l ih =>
    cases i with
    | zero =>
      simp only [List.getElem?_cons_zero, Option.some.injEq] at hc
      subst hc
      simp [hg]
    | succ k =>
      simp only [List.getElem?_cons_succ] at hc
      simp [ih k hc]

theorem axisCalibration_setAxisCalibration_ne (c : Calibration) (x : AxisCalibration)
    (a a' : Axis) (h : a' ≠ a) :
    (c.setAxisCalibration x a).axisCalibration a' = c.axisCalibration a' := by
  cases a <;> cases a' <;> first | rfl | exact absurd rfl h

theorem getField_setField_ne (x : AxisCalibration) (f f' : CalibrationField) (v : ℚ)
    (h : f' ≠ f) :
    priv_getCalibrationFieldValue (priv_setCalibrationFieldValue x f v) f' =
      priv_getCalibrationFieldValue x f' := by
  cases f <;> cases f' <;> first | rfl | exact absurd rfl h

/-- The value read for `(a', f')` in a record is not changed by setting `(a, f)` in it,
when the two pairs differ. -/
theorem getField_setAxisCalibration_ne (c : Calibration) (a a' : Axis)
    (f f' : CalibrationField) (v : ℚ) (h : ¬ (a' = a ∧ f' = f)) :
    priv_getCalibrationFieldValue
        ((c.setAxisCalibration (priv_setCalibrationFieldValue (c.axisCalibration a) f v)
          a).axisCalibration a') f' =
      priv_getCalibrationFieldValue (c.axisCalibration a') f' := by
  by_cases ha : a' = a
  · subst ha
    have hf : f' ≠ f := fun hf => h ⟨rfl, hf⟩
    rw [axisCalibration_setAxisCalibration, getField_setField_ne _ _ _ _ hf]
  · rw [axisCalibration_setAxisCalibration_ne _ _ _ _ ha]

/-- C23: frame of a calibration update.  On a registered device `d` the setter of field `f`
of axis `a` succeeds, and afterwards the getter of every other triple `(d', a', f')`
returns what it returned before; the device indices of the records, in their order, and
the connection data are unchanged.  The five public setters and getters are
`priv_setCalibrationValue` and `priv_getCalibrationValue` at the five fields. -/
theorem calibration_set_frame (jc : JoystickController) (d : ℕ) (a : Axis)
    (f : CalibrationField) (v : ℚ) (hreg : ∃ c ∈ jc.m_calibrations, c.joystickIndex = d) :
    ∃ jc', jc.priv_setCalibrationValue d a f v = .ok jc' ∧
      (∀ (d' : ℕ) (a' : Axis) (f' : CalibrationField), (d', a', f') ≠ (d, a, f) →
        jc'.priv_getCalibrationValue d' a' f' = jc.priv_getCalibrationValue d' a' f') ∧
      jc'.m_calibrations.map (fun c => c.joystickIndex) =
        jc.m_calibrations.map (fun c => c.joystickIndex) ∧
      jc'.m_areJoysticksConnected = jc.m_areJoysticksConnected ∧
      jc'.m_numberOfConnectedJoysticks = jc.m_numberOfConnectedJoysticks := by
  obtain ⟨c, hc, hkey⟩ := getElem?_findIdx_of_mem jc.m_calibrations d hreg
  have hlt : jc.m_calibrations.findIdx (fun c => c.joystickIndex == d) <
      jc.m_calibrations.length := by
    by_contra hge
    rw [List.getElem?_eq_none (not_lt.mp hge)] at hc
    exact Option.noConfusion hc
  have hkey' : (c.setAxisCalibration
      (priv_setCalibrationFieldValue (c.axisCalibration a) f v) a).joystickIndex =
      c.joystickIndex := setAxisCalibration_joystickIndex _ _ _
  refine ⟨{ jc with
    m_calibrations := jc.m_calibrations.set (jc.priv_getCalibrationIndex d)
      (c.setAxisCalibration (priv_setCalibrationFieldValue (c.axisCalibration a) f v) a) },
    by simp only [JoystickController.priv_setCalibrationValue,
      JoystickController.priv_getCalibrationIndex, hc], ?_, ?_, rfl, rfl⟩
  · intro d' a' f' hne
    have hidx := findIdx_set_of_eq (fun c : Calibration => c.joystickIndex == d')
      jc.m_calibrations _ c
      (c.setAxisCalibration (priv_setCalibrationFieldValue (c.axisCalibration a) f v) a)
      hc (by simp [hkey'])
    simp only [JoystickController.priv_getCalibrationValue,
      JoystickController.calibrationRecord, JoystickController.priv_getCalibrationIndex, hidx]
    by_cases hi : jc.m_calibrations.findIdx (fun c => c.joystickIndex == d') =
        jc.m_calibrations.findIdx (fun c => c.joystickIndex == d)
    · rw [hi, List.getElem?_set_self hlt, hc]
      have hp := List.findIdx_of_getElem?_eq_some (hi ▸ hc)
      have hd : d' = d := by
        have h1 : c.joystickIndex = d' := by simpa using hp
        rw [← h1, hkey]
      have hpair : ¬ (a' = a ∧ f' = f) := by
        rintro ⟨rfl, rfl⟩
        exact hne (by rw [hd])
      simp only []
      rw [getField_setAxisCalibration_ne c a a' f f' v hpair]
    · rw [List.getElem?_set_ne (Ne.symm hi)]
  · exact map_set_of_eq (fun c : Calibration => c.joystickIndex) jc.m_calibrations _ c _ hc hkey'

theorem calibration_set_frame_witness :
    (∃ c ∈ sampleController.m_calibrations, c.joystickIndex = 3) ∧
    ∃ jc', sampleController.setCalibrationAxisMaxNegative 3 .X (-75) = .ok jc' ∧
      jc'.getCalibrationAxisMinPositive 3 .X =
        sampleController.getCalibrationAxisMinPositive 3 .X ∧
      jc'.getCalibrationAxisMaxNegative 0 .X =
        sampleController.getCalibrationAxisMaxNegative 0 .X ∧
      jc'.m_calibrations.map (fun c => c.joystickIndex) =
        sampleController.m_calibrations.map (fun c => c.joystickIndex) := by
  have hreg : ∃ c ∈ sampleController.m_calibrations, c.joystickIndex = 3 :=
    ⟨{ joystickIndex := 3, x := { minPositive := 10 } }, by simp [sampleController], rfl⟩
  obtain ⟨jc', hset, hframe, hmap, _, _⟩ :=
    calibration_set_frame sampleController 3 .X .MaxNegative (-75) hreg
  exact ⟨hreg, jc', hset, hframe 3 .X .MinPositive (by decide), hframe 0 .X .MaxNegative (by decide),
    hmap⟩

/-! ## Results: device-to-record resolution -/

theorem constructStep_areJoysticksConnected (be : Backend) (jc : JoystickController) (j : ℕ) :
    (JoystickController.constructStep be jc j).m_areJoysticksConnected =
      jc.m_areJoysticksConnected.set j (be.isConnected j) := by
  unfold JoystickController.constructStep
  simp only []
  split_ifs <;> rfl

theorem constructStep_count (be : Backend) (jc : JoystickController) (j : ℕ) :
    (JoystickController.constructStep be jc j).m_numberOfConnectedJoysticks =
      jc.m_numberOfConnectedJoysticks + (if be.isConnected j = true then 1 else 0) := by
  unfold JoystickController.constructStep
  simp only []
  split_ifs <;> rfl

theorem foldl_constructStep_count (be : Backend) (l : List ℕ) (s : JoystickController) :
    (l.foldl (JoystickController.constructStep be) s).m_numberOfConnectedJoysticks =
      s.m_numberOfConnectedJoysticks + (l.filter be.isConnected).length := by
  induction l generalizing s with
  | nil => simp
  | cons k l ih =>
    rw [List.foldl_cons, ih, constructStep_count]
    by_cases hk : be.isConnected k = true
    · simp [hk]; omega
    · simp [hk]

theorem foldl_constructStep_areJoysticksConnected (be : Backend) (l : List ℕ)
    (s : JoystickController) :
    (l.foldl (JoystickController.constructStep be) s).m_areJoysticksConnected =
      l.foldl (fun acc j => acc.set j (be.isConnected j)) s.m_areJoysticksConnected := by
  induction l generalizing s with
  | nil => rfl
  | cons k l ih =>
    rw [List.foldl_cons, ih, constructStep_areJoysticksConnected, List.foldl_cons]

theorem construct_areJoysticksConnected (be : Backend) :
    (JoystickController.construct be).m_areJoysticksConnected =
      (List.range 8).map be.isConnected := by
  unfold JoystickController.construct
  rw [foldl_constructStep_areJoysticksConnected]
  rfl

theorem construct_count (be : Backend) :
    (JoystickController.construct be).getConnectedCount =
      ((List.range 8).filter be.isConnected).length := by
  unfold JoystickController.getConnectedCount JoystickController.construct
  rw [foldl_constructStep_count]
  simp [JoystickController.initial]

theorem construct_getConnectedIndices (be : Backend) :
    (JoystickController.construct be).getConnectedIndices =
      (List.range 8).filter be.isConnected := by
  unfold JoystickController.getConnectedIndices
  rw [construct_areJoysticksConnected]
  simp only [List.length_map, List.length_range]
  apply List.filter_congr
  intro j hj
  have hj8 : j < 8 := List.mem_range.mp hj
  simp [List.getD_eq_getElem?_getD, List.getElem?_map, List.getElem?_range hj8]

theorem mem_construct_calibrations (be : Backend) (c : Calibration) :
    c ∈ (JoystickController.construct be).m_calibrations ↔
      ∃ k, k < 8 ∧ be.isConnected k = true ∧ c = { joystickIndex := k } := by
  rw [construct_calibrations, List.mem_map]
  constructor
  · rintro ⟨k, hk, rfl⟩
    obtain ⟨h1, h2⟩ := List.mem_filter.mp hk
    exact ⟨k, List.mem_range.mp h1, h2, rfl⟩
  · rintro ⟨k, h1, h2, rfl⟩
    exact ⟨k, List.mem_filter.mpr ⟨List.mem_range.mpr h1, h2⟩, rfl⟩

/-- C24: device-to-record resolution.  After construction the number of calibration
records is `getConnectedCount()` and the length of `getConnectedIndices()`, and the records
carry the connected slots' indices, one each and in order.  For a slot `j` below 8,
`priv_getCalibrationIndex j` is a valid position whose record has `joystickIndex = j` if and
only if the backend reported slot `j` connected; for a `j` that was not registered it is
the number of records, and the access to the record is out of bounds. -/
theorem construct_resolution (be : Backend) :
    (JoystickController.construct be).m_calibrations.length =
      (JoystickController.construct be).getConnectedCount ∧
    (JoystickController.construct be).getConnectedCount =
      (JoystickController.construct be).getConnectedIndices.length ∧
    (JoystickController.construct be).m_calibrations.map (fun c => c.joystickIndex) =
      (JoystickController.construct be).getConnectedIndices ∧
    (∀ j, j < 8 →
      (((JoystickController.construct be).priv_getCalibrationIndex j <
          (JoystickController.construct be).m_calibrations.length ∧
        ∃ c, (JoystickController.construct be).m_calibrations[
            (JoystickController.construct be).priv_getCalibrationIndex j]? = some c ∧
          c.joystickIndex = j) ↔ be.isConnected j = true)) ∧
    (∀ j, ¬ (j < 8 ∧ be.isConnected j = true) →
      (JoystickController.construct be).priv_getCalibrationIndex j =
          (JoystickController.construct be).m_calibrations.length ∧
        (JoystickController.construct be).calibrationRecord j = .error .outOfBounds) := by
  refine ⟨?_, ?_, ?_, ?_, ?_⟩
  · rw [construct_count, construct_calibrations, List.length_map]
  · rw [construct_count, construct_getConnectedIndices]
  · rw [construct_getConnectedIndices, construct_calibrations, List.map_map]
    exact List.map_id _
  · intro j hj
    constructor
    · rintro ⟨_, c, hget, hkey⟩
      obtain ⟨k, _, hk, rfl⟩ := (mem_construct_calibrations be c).mp (List.getElem?_mem hget)
      have hkj : k = j := hkey
      rw [← hkj]; exact hk
    · intro hc
      have hmem : ∃ c ∈ (JoystickController.construct be).m_calibrations,
          c.joystickIndex = j :=
        ⟨{ joystickIndex := j }, (mem_construct_calibrations be _).mpr ⟨j, hj, hc, rfl⟩, rfl⟩
      obtain ⟨c, hget, hkey⟩ := getElem?_findIdx_of_mem _ j hmem
      refine ⟨?_, c, hget, hkey⟩
      by_contra hge
      unfold JoystickController.priv_getCalibrationIndex at hge
      rw [List.getElem?_eq_none (not_lt.mp hge)] at hget
      exact Option.noConfusion hget
  · intro j hno
    have hidx : (JoystickController.construct be).priv_getCalibrationIndex j =
        (JoystickController.construct be).m_calibrations.length := by
      unfold JoystickController.priv_getCalibrationIndex
      rw [List.findIdx_eq_length]
      intro c hc
      obtain ⟨k, hk8, hk, rfl⟩ := (mem_construct_calibrations be c).mp hc
      have hne : k ≠ j := fun h => hno (h ▸ ⟨hk8, hk⟩)
      simpa using hne
    refine ⟨hidx, ?_⟩
    unfold JoystickController.calibrationRecord
    rw [hidx, List.getElem?_eq_none le_rfl]

theorem construct_resolution_witness :
    sampleBackend.isConnected 3 = true ∧ sampleBackend.isConnected 1 = false ∧
    (JoystickController.construct sampleBackend).m_calibrations.length =
      (JoystickController.construct sampleBackend).getConnectedCount ∧
    ((JoystickController.construct sampleBackend).priv_getCalibrationIndex 3 <
        (JoystickController.construct sampleBackend).m_calibrations.length ∧
      ∃ c, (JoystickController.construct sampleBackend).m_calibrations[
          (JoystickController.construct sampleBackend).priv_getCalibrationIndex 3]? = some c ∧
        c.joystickIndex = 3) ∧
    ((JoystickController.construct sampleBackend).priv_getCalibrationIndex 1 =
        (JoystickController.construct sampleBackend).m_calibrations.length ∧
      (JoystickController.construct sampleBackend).calibrationRecord 1 = .error .outOfBounds) :=
  ⟨rfl, rfl, (construct_resolution sampleBackend).1,
    ((construct_resolution sampleBackend).2.2.2.1 3 (by decide)).mpr rfl,
    (construct_resolution sampleBackend).2.2.2.2 1 (by
      rintro ⟨_, h⟩
      exact Bool.noConfusion h)⟩

/-! ## Binary32 rounding: basic facts -/

namespace F32

theorem roundHalfEven_ge_floor (t : ℚ) : ⌊t⌋ ≤ roundHalfEven t := by
  unfold roundHalfEven
  split_ifs <;> omega

theorem roundHalfEven_le_floor_add_one (t : ℚ) : roundHalfEven t ≤ ⌊t⌋ + 1 := by
  unfold roundHalfEven
  split_ifs <;> omega

theorem roundHalfEven_intCast (k : ℤ) : roundHalfEven (k : ℚ) = k := by
  unfold roundHalfEven
  simp

theorem roundHalfEven_of_abs_lt (t : ℚ) (k : ℤ) (h : |t - (k : ℚ)| < 1 / 2) :
    roundHalfEven t = k := by
  obtain ⟨h1, h2⟩ := abs_lt.mp h
  unfold roundHalfEven
  by_cases hk : (k : ℚ) ≤ t
  · have hf : ⌊t⌋ = k := by
      rw [Int.floor_eq_iff]; constructor <;> linarith
    rw [hf, if_pos (by linarith)]
  · have hf : ⌊t⌋ = k - 1 := by
      rw [Int.floor_eq_iff]; push_cast; constructor <;> linarith
    rw [hf]
    push_cast
    rw [if_neg (by linarith), if_pos (by linarith)]
    ring

theorem roundHalfEven_tie_up (t : ℚ) (k : ℤ) (h : t = (k : ℚ) - 1 / 2) (hk : k % 2 = 0) :
    roundHalfEven t = k := by
  have hf : ⌊t⌋ = k - 1 := by
    rw [Int.floor_eq_iff]; push_cast; constructor <;> linarith
  unfold roundHalfEven
  rw [hf]
  push_cast
  rw [if_neg (by linarith), if_neg (by linarith), if_neg (by omega)]
  ring

theorem roundHalfEven_tie_down (t : ℚ) (k : ℤ) (h : t = (k : ℚ) + 1 / 2) (hk : k % 2 = 0) :
    roundHalfEven t = k := by
  have hf : ⌊t⌋ = k := by
    rw [Int.floor_eq_iff]; constructor <;> linarith
  unfold roundHalfEven
  rw [hf, if_neg (by linarith), if_neg (by linarith), if_pos hk]

theorem roundHalfEven_mono (t1 t2 : ℚ) (h : t1 ≤ t2) : roundHalfEven t1 ≤ roundHalfEven t2 := by
  have hfl : ⌊t1⌋ ≤ ⌊t2⌋ := Int.floor_le_floor h
  rcases lt_or_eq_of_le hfl with hlt | heq
  · calc roundHalfEven t1 ≤ ⌊t1⌋ + 1 := roundHalfEven_le_floor_add_one t1
      _ ≤ ⌊t2⌋ := hlt
      _ ≤ roundHalfEven t2 := roundHalfEven_ge_floor t2
  · unfold roundHalfEven
    rw [heq]
    split_ifs <;> first | omega | (exfalso; linarith)

theorem roundHalfEven_abs_sub_le (t : ℚ) : |(roundHalfEven t : ℚ) - t| ≤ 1 / 2 := by
  have h1 := Int.floor_le t
  have h2 := Int.lt_floor_add_one t
  unfold roundHalfEven
  rw [abs_le]
  split_ifs <;> push_cast <;> constructor <;> linarith

theorem roundHalfEven_nonneg (t : ℚ) (h : 0 ≤ t) : 0 ≤ roundHalfEven t :=
  le_trans (Int.floor_nonneg.mpr h) (roundHalfEven_ge_floor t)

theorem two_zpow_pos (e : ℤ) : (0 : ℚ) < (2 : ℚ) ^ e :=
  zpow_pos (by norm_num) e

theorem ulp_pos (q : ℚ) : 0 < ulp q :=
  two_zpow_pos _

theorem log_two_eq (q : ℚ) (e : ℤ) (h1 : (2 : ℚ) ^ e ≤ q) (h2 : q < (2 : ℚ) ^ (e + 1)) :
    Int.log 2 q = e := by
  have hq : 0 < q := lt_of_lt_of_le (two_zpow_pos e) h1
  have hb : 1 < 2 := by norm_num
  apply le_antisymm
  · have := (Int.lt_zpow_iff_log_lt (b := 2) hb hq).mp (by push_cast; exact h2)
    omega
  · exact (Int.zpow_le_iff_le_log (b := 2) hb hq).mp (by push_cast; exact h1)

theorem zpow_log_le (q : ℚ) (hq : 0 < q) : (2 : ℚ) ^ Int.log 2 q ≤ q := by
  have := Int.zpow_log_le_self (b := 2) (by norm_num) hq
  push_cast at this
  exact this

theorem lt_zpow_log_succ (q : ℚ) : q < (2 : ℚ) ^ (Int.log 2 q + 1) := by
  have := Int.lt_zpow_succ_log_self (b := 2) (by norm_num) q
  push_cast at this
  exact this

/-- Above the subnormal range the spacing is `2^(e-23)` in the binade `[2^e, 2^(e+1))`. -/
theorem ulp_eq (q : ℚ) (e : ℤ) (he : -126 ≤ e) (h1 : (2 : ℚ) ^ e ≤ q)
    (h2 : q < (2 : ℚ) ^ (e + 1)) : ulp q = (2 : ℚ) ^ (e - 23) := by
  unfold ulp
  rw [log_two_eq q e h1 h2, max_eq_left he]

/-- In the subnormal range the spacing is `2^(-149)`. -/
theorem ulp_eq_subnormal (q : ℚ) (hq : 0 < q) (h : q < (2 : ℚ) ^ (-126 : ℤ)) :
    ulp q = (2 : ℚ) ^ (-149 : ℤ) := by
  unfold ulp
  have hlog : Int.log 2 q ≤ -126 := by
    have := (Int.lt_zpow_iff_log_lt (b := 2) (by norm_num) hq).mp (by push_cast; exact h)
    omega
  rw [max_eq_right hlog]
  norm_num

theorem roundMagnitude_zero : roundMagnitude 0 = 0 := by
  unfold roundMagnitude
  simp [roundHalfEven]

theorem roundMagnitude_nonneg (q : ℚ) (hq : 0 ≤ q) : 0 ≤ roundMagnitude q := by
  unfold roundMagnitude
  have hu := ulp_pos q
  have : 0 ≤ roundHalfEven (q / ulp q) := roundHalfEven_nonneg _ (div_nonneg hq (le_of_lt hu))
  have h2 : (0 : ℚ) ≤ (roundHalfEven (q / ulp q) : ℚ) := by exact_mod_cast this
  positivity

/-- Evaluation of the rounding in a normal binade. -/
theorem roundMagnitude_eq (q : ℚ) (e k : ℤ) (he : -126 ≤ e) (h1 : (2 : ℚ) ^ e ≤ q)
    (h2 : q < (2 : ℚ) ^ (e + 1)) (hk : roundHalfEven (q / (2 : ℚ) ^ (e - 23)) = k) :
    roundMagnitude q = (k : ℚ) * (2 : ℚ) ^ (e - 23) := by
  unfold roundMagnitude
  rw [ulp_eq q e he h1 h2, hk]

end F32

namespace F32

/-- The exponent used for the spacing of `q`. -/
theorem ulp_def (q : ℚ) : ulp q = (2 : ℚ) ^ (max (Int.log 2 q) (-126) - 23) := rfl

theorem lt_ulp_mul (q : ℚ) : q < (2 : ℚ) ^ (24 : ℤ) * ulp q := by
  rw [ulp_def, ← zpow_add₀ (by norm_num : (2 : ℚ) ≠ 0)]
  refine lt_of_lt_of_le (lt_zpow_log_succ q) ?_
  apply zpow_le_zpow_right₀ (by norm_num)
  have := le_max_left (Int.log 2 q) (-126)
  omega

theorem ulp_mul_le (q : ℚ) (hq : 0 < q) (h : -126 ≤ Int.log 2 q) :
    (2 : ℚ) ^ (23 : ℤ) * ulp q ≤ q := by
  rw [ulp_def, max_eq_left h, ← zpow_add₀ (by norm_num : (2 : ℚ) ≠ 0)]
  have : (23 : ℤ) + (Int.log 2 q - 23) = Int.log 2 q := by ring
  rw [this]
  exact zpow_log_le q hq

/-- The rounded magnitude never exceeds the top of the binade. -/
theorem roundMagnitude_le_top (q : ℚ) : roundMagnitude q ≤ (2 : ℚ) ^ (24 : ℤ) * ulp q := by
  unfold roundMagnitude
  have hu := ulp_pos q
  have h1 : q / ulp q ≤ (((2 : ℤ) ^ 24 : ℤ) : ℚ) := by
    rw [div_le_iff₀ hu]
    have := lt_ulp_mul q
    norm_num at this ⊢
    linarith
  have h2 := roundHalfEven_mono _ _ h1
  rw [roundHalfEven_intCast] at h2
  have h3 : (roundHalfEven (q / ulp q) : ℚ) ≤ (((2 : ℤ) ^ 24 : ℤ) : ℚ) := by exact_mod_cast h2
  have h4 : (roundHalfEven (q / ulp q) : ℚ) * ulp q ≤ (((2 : ℤ) ^ 24 : ℤ) : ℚ) * ulp q :=
    mul_le_mul_of_nonneg_right h3 (le_of_lt hu)
  norm_num at h4 ⊢
  linarith

/-- In a normal binade the rounded magnitude does not drop below the bottom of the binade. -/
theorem roundMagnitude_ge_bottom (q : ℚ) (hq : 0 < q) (h : -126 ≤ Int.log 2 q) :
    (2 : ℚ) ^ (23 : ℤ) * ulp q ≤ roundMagnitude q := by
  unfold roundMagnitude
  have hu := ulp_pos q
  have h1 : (((2 : ℤ) ^ 23 : ℤ) : ℚ) ≤ q / ulp q := by
    rw [le_div_iff₀ hu]
    have := ulp_mul_le q hq h
    norm_num at this ⊢
    linarith
  have h2 := roundHalfEven_mono _ _ h1
  rw [roundHalfEven_intCast] at h2
  have h3 : (((2 : ℤ) ^ 23 : ℤ) : ℚ) ≤ (roundHalfEven (q / ulp q) : ℚ) := by exact_mod_cast h2
  have h4 : (((2 : ℤ) ^ 23 : ℤ) : ℚ) * ulp q ≤ (roundHalfEven (q / ulp q) : ℚ) * ulp q :=
    mul_le_mul_of_nonneg_right h3 (le_of_lt hu)
  norm_num at h4 ⊢
  linarith

/-- Rounding to nearest is monotone on the non-negative rationals. -/
theorem roundMagnitude_mono (q1 q2 : ℚ) (h0 : 0 ≤ q1) (h : q1 ≤ q2) :
    roundMagnitude q1 ≤ roundMagnitude q2 := by
  rcases eq_or_lt_of_le h0 with hz | hpos
  · rw [← hz, roundMagnitude_zero]
    exact roundMagnitude_nonneg q2 (le_trans h0 h)
  have hpos2 : 0 < q2 := lt_of_lt_of_le hpos h
  have hlog : Int.log 2 q1 ≤ Int.log 2 q2 := Int.log_mono_right hpos h
  have hmax : max (Int.log 2 q1) (-126) ≤ max (Int.log 2 q2) (-126) :=
    max_le_max hlog (le_refl _)
  rcases eq_or_lt_of_le hmax with heq | hlt
  · have hu : ulp q1 = ulp q2 := by rw [ulp_def, ulp_def, heq]
    unfold roundMagnitude
    rw [hu]
    have hu2 := ulp_pos q2
    have h1 : q1 / ulp q2 ≤ q2 / ulp q2 := div_le_div_of_nonneg_right h (le_of_lt hu2)
    have h2 := roundHalfEven_mono _ _ h1
    have h3 : (roundHalfEven (q1 / ulp q2) : ℚ) ≤ (roundHalfEven (q2 / ulp q2) : ℚ) := by
      exact_mod_cast h2
    exact mul_le_mul_of_nonneg_right h3 (le_of_lt hu2)
  · have hl2 : -126 ≤ Int.log 2 q2 := by
      rcases le_total (Int.log 2 q2) (-126) with hc | hc
      · rw [max_eq_right hc] at hlt
        have := le_max_right (Int.log 2 q1) (-126)
        omega
      · exact hc
    have ha := roundMagnitude_le_top q1
    have hb := roundMagnitude_ge_bottom q2 hpos2 hl2
    have hc : (2 : ℚ) ^ (24 : ℤ) * ulp q1 ≤ (2 : ℚ) ^ (23 : ℤ) * ulp q2 := by
      rw [ulp_def, ulp_def, ← zpow_add₀ (by norm_num : (2 : ℚ) ≠ 0),
        ← zpow_add₀ (by norm_num : (2 : ℚ) ≠ 0)]
      apply zpow_le_zpow_right₀ (by norm_num)
      omega
    linarith

/-- Every `k * 2^j` with `k < 2^24` and `j ≥ -149` is a fixed point of the rounding. -/
theorem roundMagnitude_grid (k : ℕ) (j : ℤ) (hk : k < 2 ^ 24) (hj : -149 ≤ j) :
    roundMagnitude ((k : ℚ) * (2 : ℚ) ^ j) = (k : ℚ) * (2 : ℚ) ^ j := by
  rcases Nat.eq_zero_or_pos k with hz | hkpos
  · subst hz
    simp [roundMagnitude_zero]
  set q : ℚ := (k : ℚ) * (2 : ℚ) ^ j with hq
  have h2j := two_zpow_pos j
  have hqpos : 0 < q := by
    have : (0 : ℚ) < (k : ℚ) := by exact_mod_cast hkpos
    positivity
  set i : ℤ := max (Int.log 2 q) (-126) - 23 with hi
  have hij : i ≤ j := by
    by_contra hcon
    push_neg at hcon
    have hl : -126 ≤ Int.log 2 q := by
      rcases le_total (Int.log 2 q) (-126) with hc | hc
      · rw [max_eq_right hc] at hi
        omega
      · exact hc
    have hie : i = Int.log 2 q - 23 := by rw [hi, max_eq_left hl]
    have h1 : (2 : ℚ) ^ Int.log 2 q ≤ q := zpow_log_le q hqpos
    have h2 : q < (2 : ℚ) ^ (24 + j) := by
      rw [zpow_add₀ (by norm_num : (2 : ℚ) ≠ 0)]
      have : (k : ℚ) < (2 : ℚ) ^ (24 : ℤ) := by
        have : (k : ℚ) < ((2 ^ 24 : ℕ) : ℚ) := by exact_mod_cast hk
        norm_num at this ⊢
        exact this
      exact mul_lt_mul_of_pos_right this h2j
    have h3 : (2 : ℚ) ^ Int.log 2 q < (2 : ℚ) ^ (24 + j) := lt_of_le_of_lt h1 h2
    have h4 := (zpow_lt_zpow_iff_right₀ (by norm_num : (1 : ℚ) < 2)).mp h3
    omega
  have hu : ulp q = (2 : ℚ) ^ i := rfl
  obtain ⟨d, hd⟩ : ∃ d : ℕ, j = i + (d : ℤ) := ⟨(j - i).toNat, by omega⟩
  have hquot : q / ulp q = (((k : ℤ) * 2 ^ d : ℤ) : ℚ) := by
    rw [hu, hq, hd, zpow_add₀ (by norm_num : (2 : ℚ) ≠ 0)]
    have := two_zpow_pos i
    field_simp
    ring
  unfold roundMagnitude
  rw [hquot, roundHalfEven_intCast, hu]
  rw [hq, hd, zpow_add₀ (by norm_num : (2 : ℚ) ≠ 0)]
  push_cast
  rw [zpow_natCast]
  ring

/-- A value at or below a grid point rounds to at most that grid point. -/
theorem roundMagnitude_le_of_le (q y : ℚ) (h0 : 0 ≤ q) (h : q ≤ y)
    (hy : roundMagnitude y = y) : roundMagnitude q ≤ y := by
  have := roundMagnitude_mono q y h0 h
  rw [hy] at this
  exact this

/-- A value at or above a grid point rounds to at least that grid point. -/
theorem le_roundMagnitude_of_le (q y : ℚ) (h0 : 0 ≤ y) (h : y ≤ q)
    (hy : roundMagnitude y = y) : y ≤ roundMagnitude q := by
  have := roundMagnitude_mono y q h0 h
  rw [hy] at this
  exact this

theorem representable_grid (k : ℕ) (j : ℤ) (hk : k < 2 ^ 24) (hj : -149 ≤ j)
    (hj2 : j ≤ 104) : Representable ((k : ℚ) * (2 : ℚ) ^ j) := by
  refine ⟨by positivity, roundMagnitude_grid k j hk hj, ?_⟩
  have h1 : (k : ℚ) < (2 : ℚ) ^ (24 : ℤ) := by
    have : (k : ℚ) < ((2 ^ 24 : ℕ) : ℚ) := by exact_mod_cast hk
    norm_num at this ⊢
    exact this
  have h2 : (2 : ℚ) ^ j ≤ (2 : ℚ) ^ (104 : ℤ) := zpow_le_zpow_right₀ (by norm_num) hj2
  have h3 : (k : ℚ) * (2 : ℚ) ^ j < (2 : ℚ) ^ (24 : ℤ) * (2 : ℚ) ^ (104 : ℤ) := by
    have := two_zpow_pos j
    have hk0 : (0 : ℚ) ≤ (k : ℚ) := by positivity
    calc (k : ℚ) * (2 : ℚ) ^ j ≤ (k : ℚ) * (2 : ℚ) ^ (104 : ℤ) :=
          mul_le_mul_of_nonneg_left h2 hk0
      _ < (2 : ℚ) ^ (24 : ℤ) * (2 : ℚ) ^ (104 : ℤ) :=
          mul_lt_mul_of_pos_right h1 (two_zpow_pos 104)
  norm_num at h3 ⊢
  linarith

end F32

namespace F32

/-- Evaluation of the rounding in a normal binade from the nearest multiple of the spacing. -/
theorem roundMagnitude_of_near (q : ℚ) (e k : ℤ) (he : -126 ≤ e) (h1 : (2 : ℚ) ^ e ≤ q)
    (h2 : q < (2 : ℚ) ^ (e + 1)) (hk : |q / (2 : ℚ) ^ (e - 23) - (k : ℚ)| < 1 / 2) :
    roundMagnitude q = (k : ℚ) * (2 : ℚ) ^ (e - 23) :=
  roundMagnitude_eq q e k he h1 h2 (roundHalfEven_of_abs_lt _ k hk)

theorem round_eq (s : Bool) (q v : ℚ) (h : roundMagnitude q = v) (hv : v < 2 ^ 128) :
    round s q = fin s v := by
  unfold round
  rw [h, if_pos hv]

theorem round_eq_inf (s : Bool) (q : ℚ) (h : (2 : ℚ) ^ 128 ≤ roundMagnitude q) :
    round s q = inf s := by
  unfold round
  rw [if_neg (not_lt.mpr h)]

theorem round_of_representable (s : Bool) (q : ℚ) (h : Representable q) :
    round s q = fin s q :=
  round_eq s q q h.2.1 h.2.2

theorem ofRat_of_nonneg (q : ℚ) (h : 0 ≤ q) : ofRat q = round false q := by
  unfold ofRat
  rw [abs_of_nonneg h, decide_eq_false (not_lt.mpr h)]

theorem ofRat_of_neg (q : ℚ) (h : q < 0) : ofRat q = round true (-q) := by
  unfold ofRat
  rw [abs_of_neg h, decide_eq_true h]

theorem representable_zero : Representable 0 :=
  ⟨le_refl _, roundMagnitude_zero, by norm_num⟩

/-- Natural numbers below `2^24` are binary32 values. -/
theorem representable_natCast (k : ℕ) (hk : k < 2 ^ 24) : Representable (k : ℚ) := by
  have := representable_grid k 0 hk (by norm_num) (by norm_num)
  simpa using this

theorem ofNat_of_lt (k : ℕ) (hk : k < 2 ^ 24) : ofNat k = fin false (k : ℚ) :=
  round_of_representable false _ (representable_natCast k hk)

theorem representable_of_eq (q : ℚ) (k : ℕ) (j : ℤ) (h : q = (k : ℚ) * (2 : ℚ) ^ j)
    (hk : k < 2 ^ 24) (hj : -149 ≤ j) (hj2 : j ≤ 104) : Representable q := by
  rw [h]
  exact representable_grid k j hk hj hj2

theorem toRat_fin_false (m : ℚ) : toRat (fin false m) = m := by
  simp [toRat]

theorem toRat_fin_true (m : ℚ) : toRat (fin true m) = -m := by
  simp [toRat]

theorem toRat_neg (x : F32) : toRat (neg x) = -toRat x := by
  cases x with
  | nan => simp [neg, toRat]
  | inf s => simp [neg, toRat]
  | fin s m => cases s <;> simp [neg, toRat]

theorem add_fin_fin (s t : Bool) (x y : ℚ) :
    add (fin s x) (fin t y) =
      if toRat (fin s x) + toRat (fin t y) = 0 then fin (s && t) 0
      else ofRat (toRat (fin s x) + toRat (fin t y)) :=
  rfl

theorem mul_fin_fin (s t : Bool) (x y : ℚ) :
    mul (fin s x) (fin t y) = round (xor s t) (x * y) :=
  rfl

theorem div_fin_fin (s t : Bool) (x y : ℚ) :
    div (fin s x) (fin t y) =
      if y = 0 then (if x = 0 then nan else inf (xor s t)) else round (xor s t) (x / y) :=
  rfl

/-- A finite sum that is not zero is the rounded exact sum. -/
theorem add_eq_round (s t u : Bool) (x y q v : ℚ)
    (hsum : toRat (fin s x) + toRat (fin t y) = toRat (fin u q)) (hq : 0 < q)
    (hr : roundMagnitude q = v) (hv : v < 2 ^ 128) :
    add (fin s x) (fin t y) = fin u v := by
  have hne : toRat (fin s x) + toRat (fin t y) ≠ 0 := by
    rw [hsum]
    cases u
    · rw [toRat_fin_false]; exact ne_of_gt hq
    · rw [toRat_fin_true]; linarith [hq]
  rw [add_fin_fin, if_neg hne, hsum]
  cases u
  · rw [toRat_fin_false, ofRat_of_nonneg q (le_of_lt hq)]
    exact round_eq false q v hr hv
  · rw [toRat_fin_true, ofRat_of_neg (-q) (by linarith), neg_neg]
    exact round_eq true q v hr hv

/-- A finite sum that is exactly zero. -/
theorem add_eq_zero (s t : Bool) (x y : ℚ)
    (hsum : toRat (fin s x) + toRat (fin t y) = 0) :
    add (fin s x) (fin t y) = fin (s && t) 0 := by
  rw [add_fin_fin, if_pos hsum]

theorem sub_fin (s t : Bool) (x y : ℚ) : sub (fin s x) (fin t y) = add (fin s x) (fin (!t) y) :=
  rfl

/-- A finite difference that is not zero is the rounded exact difference. -/
theorem sub_eq_round (s t u : Bool) (x y q v : ℚ)
    (hdiff : toRat (fin s x) - toRat (fin t y) = toRat (fin u q)) (hq : 0 < q)
    (hr : roundMagnitude q = v) (hv : v < 2 ^ 128) :
    sub (fin s x) (fin t y) = fin u v := by
  rw [sub_fin]
  apply add_eq_round s (!t) u x y q v _ hq hr hv
  have : toRat (fin (!t) y) = -toRat (fin t y) := toRat_neg (fin t y)
  rw [this, ← hdiff]
  ring

/-- A finite difference that is exactly zero: the result is `+0` unless it is `-0 - +0`. -/
theorem sub_eq_zero (s t : Bool) (x y : ℚ)
    (hdiff : toRat (fin s x) - toRat (fin t y) = 0) :
    sub (fin s x) (fin t y) = fin (s && !t) 0 := by
  rw [sub_fin]
  apply add_eq_zero
  have : toRat (fin (!t) y) = -toRat (fin t y) := toRat_neg (fin t y)
  rw [this, ← hdiff]
  ring

theorem mul_eq_round (s t : Bool) (x y v : ℚ) (hr : roundMagnitude (x * y) = v)
    (hv : v < 2 ^ 128) : mul (fin s x) (fin t y) = fin (xor s t) v := by
  rw [mul_fin_fin]
  exact round_eq _ _ v hr hv

theorem div_eq_round (s t : Bool) (x y v : ℚ) (hy : y ≠ 0) (hr : roundMagnitude (x / y) = v)
    (hv : v < 2 ^ 128) : div (fin s x) (fin t y) = fin (xor s t) v := by
  rw [div_fin_fin, if_neg hy]
  exact round_eq _ _ v hr hv

theorem div_eq_inf (s t : Bool) (x y : ℚ) (hy : y ≠ 0)
    (hr : (2 : ℚ) ^ 128 ≤ roundMagnitude (x / y)) : div (fin s x) (fin t y) = inf (xor s t) := by
  rw [div_fin_fin, if_neg hy]
  exact round_eq_inf _ _ hr

theorem lt_fin (s t : Bool) (x y : ℚ) :
    lt (fin s x) (fin t y) = decide (toRat (fin s x) < toRat (fin t y)) :=
  rfl

end F32

theorem F32.xor_false_right (s : Bool) : xor s false = s := by
  cases s <;> rfl

theorem F32.lt_zero32_fin (s : Bool) (m : ℚ) :
    F32.lt (F32.fin s m) zero32 = decide (F32.toRat (F32.fin s m) < 0) := by
  show F32.lt (F32.fin s m) (F32.fin false 0) = _
  rw [F32.lt_fin, F32.toRat_fin_false]

theorem F32.lt_one32_fin (s : Bool) (m : ℚ) :
    F32.lt one32 (F32.fin s m) = decide (1 < F32.toRat (F32.fin s m)) := by
  show F32.lt (F32.fin false 1) (F32.fin s m) = _
  rw [F32.lt_fin, F32.toRat_fin_false]

/-! ### Rounding error -/

/-- The rounding error is at most half the spacing. -/
theorem F32.abs_roundMagnitude_sub_le (q : ℚ) : |F32.roundMagnitude q - q| ≤ F32.ulp q / 2 := by
  have hu := F32.ulp_pos q
  have h := F32.roundHalfEven_abs_sub_le (q / F32.ulp q)
  have e : F32.roundMagnitude q - q
      = ((F32.roundHalfEven (q / F32.ulp q) : ℚ) - q / F32.ulp q) * F32.ulp q := by
    unfold F32.roundMagnitude
    field_simp
  rw [e, abs_mul, abs_of_pos hu]
  calc |(F32.roundHalfEven (q / F32.ulp q) : ℚ) - q / F32.ulp q| * F32.ulp q
      ≤ 1 / 2 * F32.ulp q := mul_le_mul_of_nonneg_right h (le_of_lt hu)
    _ = F32.ulp q / 2 := by ring

/-- Half the spacing is at most `q / 2^24`, or `2^-150` in the subnormal range. -/
theorem F32.half_ulp_le (q : ℚ) (hq : 0 < q) :
    F32.ulp q / 2 ≤ q / 2 ^ 24 + 1 / 2 ^ 150 := by
  by_cases h : -126 ≤ Int.log 2 q
  · have := F32.ulp_mul_le q hq h
    norm_num at this ⊢
    linarith
  · have hlt : q < (2 : ℚ) ^ (-126 : ℤ) := by
      have h1 := F32.lt_zpow_log_succ q
      have h2 : (2 : ℚ) ^ (Int.log 2 q + 1) ≤ (2 : ℚ) ^ (-126 : ℤ) :=
        zpow_le_zpow_right₀ (by norm_num) (by omega)
      linarith
    rw [F32.ulp_eq_subnormal q hq hlt]
    have : (0 : ℚ) ≤ q / 2 ^ 24 := by positivity
    norm_num at this ⊢
    linarith

theorem F32.roundMagnitude_le_add (q : ℚ) (hq : 0 ≤ q) :
    F32.roundMagnitude q ≤ q + q / 2 ^ 24 + 1 / 2 ^ 150 := by
  rcases eq_or_lt_of_le hq with h0 | hpos
  · rw [← h0, F32.roundMagnitude_zero]
    norm_num
  · have h1 := F32.abs_roundMagnitude_sub_le q
    have h2 := F32.half_ulp_le q hpos
    have h3 := (abs_le.mp h1).2
    linarith

theorem F32.sub_le_roundMagnitude (q : ℚ) (hq : 0 ≤ q) :
    q - q / 2 ^ 24 - 1 / 2 ^ 150 ≤ F32.roundMagnitude q := by
  rcases eq_or_lt_of_le hq with h0 | hpos
  · rw [← h0, F32.roundMagnitude_zero]
    norm_num
  · have h1 := F32.abs_roundMagnitude_sub_le q
    have h2 := F32.half_ulp_le q hpos
    have h3 := (abs_le.mp h1).1
    linarith

/-! ### Rounding error of a rescale

The magnitude computed by either side of the transform is
`fl(fl(D) * fl(100 / fl(W)))` for the exact difference `D` and the exact width `W`. -/

/-- The rounded width, for an exact width between `2^-100` and `2^100`. -/
theorem F32.rescale_width (W : ℚ) (hW1 : 1 / 2 ^ 100 ≤ W) (hW2 : W ≤ 2 ^ 100) :
    0 < F32.roundMagnitude W ∧ F32.roundMagnitude W ≤ 2 ^ 100 ∧
      W * (1 - 1 / 2 ^ 23) ≤ F32.roundMagnitude W ∧
      F32.roundMagnitude W ≤ W * (1 + 1 / 2 ^ 23) := by
  have hWpos : 0 < W := lt_of_lt_of_le (by norm_num) hW1
  have hwU := F32.roundMagnitude_le_add W (le_of_lt hWpos)
  have hwL := F32.sub_le_roundMagnitude W (le_of_lt hWpos)
  have hw128 : F32.roundMagnitude W ≤ 2 ^ 100 :=
    F32.roundMagnitude_le_of_le W (2 ^ 100) (le_of_lt hWpos) hW2
      (by
        have := F32.roundMagnitude_grid 1 100 (by norm_num) (by norm_num)
        norm_num at this ⊢
        exact this)
  generalize F32.roundMagnitude W = w at hwU hwL hw128 ⊢
  have hη : (1 : ℚ) / 2 ^ 150 ≤ W * (1 / 2 ^ 50) := by
    have := mul_le_mul_of_nonneg_right hW1 (by norm_num : (0 : ℚ) ≤ 1 / 2 ^ 50)
    norm_num at this ⊢
    linarith
  have hW24 : W / 2 ^ 24 = W * (1 / 2 ^ 24) := by ring
  rw [hW24] at hwU hwL
  have h50 : W * (1 / 2 ^ 50) ≤ W * (1 / 2 ^ 24) :=
    mul_le_mul_of_nonneg_left (by norm_num) (le_of_lt hWpos)
  have h24 : (0 : ℚ) < W * (1 / 2 ^ 24) := mul_pos hWpos (by norm_num)
  have e1 : W * (1 - 1 / 2 ^ 23) = W - 2 * (W * (1 / 2 ^ 24)) := by ring
  have e2 : W * (1 + 1 / 2 ^ 23) = W + 2 * (W * (1 / 2 ^ 24)) := by ring
  have e3 : W * (1 / 2 ^ 24) ≤ W * (1 / 4) :=
    mul_le_mul_of_nonneg_left (by norm_num) (le_of_lt hWpos)
  rw [e1, e2]
  refine ⟨?_, hw128, ?_, ?_⟩
  · linarith
  · linarith
  · linarith

/-- The rounded scale factor `fl(100 / w)` for a rounded width `w` of an exact width `W`
between `2^-100` and `2^100`. -/
theorem F32.rescale_factor (W w : ℚ) (hW1 : 1 / 2 ^ 100 ≤ W) (hW2 : W ≤ 2 ^ 100)
    (hwpos : 0 < w) (hwL : W * (1 - 1 / 2 ^ 23) ≤ w) (hwU : w ≤ W * (1 + 1 / 2 ^ 23)) :
    0 < 100 / w ∧ 100 / w * W * (1 - 1 / 2 ^ 23) ≤ 100 ∧
      100 ≤ 100 / w * W * (1 + 1 / 2 ^ 23) ∧ 100 / w ≤ 2 ^ 107 ∧
      0 ≤ F32.roundMagnitude (100 / w) ∧
      100 / w * (1 - 1 / 2 ^ 23) ≤ F32.roundMagnitude (100 / w) ∧
      F32.roundMagnitude (100 / w) ≤ 100 / w * (1 + 1 / 2 ^ 23) := by
  have hQpos : 0 < 100 / w := div_pos (by norm_num) hwpos
  have hQw : 100 / w * w = 100 := by
    field_simp
  have hfU := F32.roundMagnitude_le_add (100 / w) (le_of_lt hQpos)
  have hfL := F32.sub_le_roundMagnitude (100 / w) (le_of_lt hQpos)
  have hf0 := F32.roundMagnitude_nonneg (100 / w) (le_of_lt hQpos)
  generalize F32.roundMagnitude (100 / w) = f at hfU hfL hf0 ⊢
  generalize 100 / w = Q at hQpos hQw hfU hfL ⊢
  have hA : Q * W * (1 - 1 / 2 ^ 23) ≤ 100 := by
    have := mul_le_mul_of_nonneg_left hwL (le_of_lt hQpos)
    linarith
  have hB : 100 ≤ Q * W * (1 + 1 / 2 ^ 23) := by
    have := mul_le_mul_of_nonneg_left hwU (le_of_lt hQpos)
    linarith
  have hQW1 : Q * (1 / 2 ^ 100) ≤ Q * W := mul_le_mul_of_nonneg_left hW1 (le_of_lt hQpos)
  have hQW2 : Q * W ≤ Q * 2 ^ 100 := mul_le_mul_of_nonneg_left hW2 (le_of_lt hQpos)
  have hQU : Q ≤ 2 ^ 107 := by
    have h1 : Q * (1 / 2 ^ 100) * (1 - 1 / 2 ^ 23) ≤ Q * W * (1 - 1 / 2 ^ 23) :=
      mul_le_mul_of_nonneg_right hQW1 (by norm_num)
    norm_num at h1 hA ⊢
    linarith
  have hQL : 1 / 2 ^ 94 ≤ Q := by
    have h1 : Q * W * (1 + 1 / 2 ^ 23) ≤ Q * 2 ^ 100 * (1 + 1 / 2 ^ 23) :=
      mul_le_mul_of_nonneg_right hQW2 (by norm_num)
    norm_num at h1 hB ⊢
    linarith
  refine ⟨hQpos, hA, hB, hQU, hf0, ?_, ?_⟩
  · norm_num at hfL hQL ⊢
    linarith
  · norm_num at hfU hQL ⊢
    linarith

/-- The final product of a rescale against the exact value `V`. -/
theorem F32.rescale_product (D W Q d f V : ℚ) (hD : 0 ≤ D) (hWpos : 0 < W)
    (hVW : V * W = 100 * D) (hV100 : V ≤ 100)
    (hQpos : 0 < Q) (hA : Q * W * (1 - 1 / 2 ^ 23) ≤ 100)
    (hB : 100 ≤ Q * W * (1 + 1 / 2 ^ 23)) (hQU : Q ≤ 2 ^ 107)
    (hd0 : 0 ≤ d) (hdU : d ≤ D + D / 2 ^ 24 + 1 / 2 ^ 150)
    (hdL : D - D / 2 ^ 24 - 1 / 2 ^ 150 ≤ d)
    (hf0 : 0 ≤ f) (hfL : Q * (1 - 1 / 2 ^ 23) ≤ f) (hfU : f ≤ Q * (1 + 1 / 2 ^ 23)) :
    0 ≤ d * f ∧ d * f ≤ V + 1 / 2 ^ 15 + 1 / 2 ^ 16 ∧ V - 1 / 2 ^ 15 - 1 / 2 ^ 16 ≤ d * f := by
  have hX0 : 0 ≤ D * Q := mul_nonneg hD (le_of_lt hQpos)
  have hXA : D * Q * (1 - 1 / 2 ^ 23) ≤ V := by
    have h1 := mul_le_mul_of_nonneg_left hA hD
    have h2 : D * Q * (1 - 1 / 2 ^ 23) * W ≤ V * W := by
      rw [hVW]
      linarith
    exact le_of_mul_le_mul_right h2 hWpos
  have hXB : V ≤ D * Q * (1 + 1 / 2 ^ 23) := by
    have h1 := mul_le_mul_of_nonneg_left hB hD
    have h2 : V * W ≤ D * Q * (1 + 1 / 2 ^ 23) * W := by
      rw [hVW]
      linarith
    exact le_of_mul_le_mul_right h2 hWpos
  have hdf0 : 0 ≤ d * f := mul_nonneg hd0 hf0
  have hdfU : d * f ≤ D * Q * (1 + 1 / 2 ^ 24) * (1 + 1 / 2 ^ 23)
      + 1 / 2 ^ 150 * Q * (1 + 1 / 2 ^ 23) := by
    have h1 : d * f ≤ d * (Q * (1 + 1 / 2 ^ 23)) := mul_le_mul_of_nonneg_left hfU hd0
    have h2 : d * (Q * (1 + 1 / 2 ^ 23))
        ≤ (D + D / 2 ^ 24 + 1 / 2 ^ 150) * (Q * (1 + 1 / 2 ^ 23)) :=
      mul_le_mul_of_nonneg_right hdU (mul_nonneg (le_of_lt hQpos) (by norm_num))
    have e : (D + D / 2 ^ 24 + 1 / 2 ^ 150) * (Q * (1 + 1 / 2 ^ 23))
        = D * Q * (1 + 1 / 2 ^ 24) * (1 + 1 / 2 ^ 23)
          + 1 / 2 ^ 150 * Q * (1 + 1 / 2 ^ 23) := by ring
    linarith
  have hdfL : D * Q * (1 - 1 / 2 ^ 24) * (1 - 1 / 2 ^ 23)
      - 1 / 2 ^ 150 * Q * (1 - 1 / 2 ^ 23) ≤ d * f := by
    have hq0 : 0 ≤ Q * (1 - 1 / 2 ^ 23) := mul_nonneg (le_of_lt hQpos) (by norm_num)
    have h1 : d * (Q * (1 - 1 / 2 ^ 23)) ≤ d * f := mul_le_mul_of_nonneg_left hfL hd0
    have h2 : (D - D / 2 ^ 24 - 1 / 2 ^ 150) * (Q * (1 - 1 / 2 ^ 23))
        ≤ d * (Q * (1 - 1 / 2 ^ 23)) :=
      mul_le_mul_of_nonneg_right hdL hq0
    have e : (D - D / 2 ^ 24 - 1 / 2 ^ 150) * (Q * (1 - 1 / 2 ^ 23))
        = D * Q * (1 - 1 / 2 ^ 24) * (1 - 1 / 2 ^ 23)
          - 1 / 2 ^ 150 * Q * (1 - 1 / 2 ^ 23) := by ring
    linarith
  generalize d * f = b at hdf0 hdfU hdfL ⊢
  generalize D * Q = X at hX0 hXA hXB hdfU hdfL
  have hX : X ≤ 101 := by
    norm_num at hXA ⊢
    linarith
  refine ⟨hdf0, ?_, ?_⟩
  · norm_num at hdfU hQU hXA ⊢
    linarith
  · norm_num at hdfL hQU hXB ⊢
    linarith

/-- The computed magnitude of a rescale is within `2^-14` of `100 * D / W`, for a width
between `2^-100` and `2^100` and `0 ≤ D ≤ W`; the intermediate values are finite. -/
theorem F32.rescale_error (D W : ℚ) (hD : 0 ≤ D) (hDW : D ≤ W) (hW1 : 1 / 2 ^ 100 ≤ W)
    (hW2 : W ≤ 2 ^ 100) :
    0 < F32.roundMagnitude W ∧ F32.roundMagnitude W < 2 ^ 128 ∧
    F32.roundMagnitude D < 2 ^ 128 ∧
    F32.roundMagnitude (100 / F32.roundMagnitude W) < 2 ^ 128 ∧
    0 ≤ F32.roundMagnitude
      (F32.roundMagnitude D * F32.roundMagnitude (100 / F32.roundMagnitude W)) ∧
    F32.roundMagnitude
      (F32.roundMagnitude D * F32.roundMagnitude (100 / F32.roundMagnitude W)) < 2 ^ 128 ∧
    |F32.roundMagnitude
      (F32.roundMagnitude D * F32.roundMagnitude (100 / F32.roundMagnitude W))
        - 100 * D / W| ≤ 1 / 2 ^ 14 := by
  have hWpos : 0 < W := lt_of_lt_of_le (by norm_num) hW1
  obtain ⟨hwpos, hw100, hwL, hwU⟩ := F32.rescale_width W hW1 hW2
  obtain ⟨hQpos, hA, hB, hQU, hf0, hfL, hfU⟩ :=
    F32.rescale_factor W (F32.roundMagnitude W) hW1 hW2 hwpos hwL hwU
  have hdU := F32.roundMagnitude_le_add D hD
  have hdL := F32.sub_le_roundMagnitude D hD
  have hd0 := F32.roundMagnitude_nonneg D hD
  have hVW : 100 * D / W * W = 100 * D := by
    field_simp
  have hV100 : 100 * D / W ≤ 100 := by
    rw [div_le_iff₀ hWpos]
    linarith
  obtain ⟨hb0, hbU, hbL⟩ := F32.rescale_product D W (100 / F32.roundMagnitude W)
    (F32.roundMagnitude D) (F32.roundMagnitude (100 / F32.roundMagnitude W)) (100 * D / W)
    hD hWpos hVW hV100 hQpos hA hB hQU hd0 hdU hdL hf0 hfL hfU
  have hpU := F32.roundMagnitude_le_add _ hb0
  have hpL := F32.sub_le_roundMagnitude _ hb0
  have hp0 := F32.roundMagnitude_nonneg _ hb0
  have hd128 : F32.roundMagnitude D < 2 ^ 128 := by
    have : D ≤ 2 ^ 100 := le_trans hDW hW2
    norm_num at hdU this ⊢
    linarith
  have hf128 : F32.roundMagnitude (100 / F32.roundMagnitude W) < 2 ^ 128 := by
    norm_num at hfU hQU ⊢
    linarith
  generalize F32.roundMagnitude
    (F32.roundMagnitude D * F32.roundMagnitude (100 / F32.roundMagnitude W)) = p
    at hpU hpL hp0 ⊢
  generalize F32.roundMagnitude D * F32.roundMagnitude (100 / F32.roundMagnitude W) = b
    at hb0 hbU hbL hpU hpL
  generalize 100 * D / W = V at hVW hV100 hbU hbL ⊢
  refine ⟨hwpos, by norm_num at hw100 ⊢; linarith, hd128, hf128, hp0, ?_, ?_⟩
  · norm_num at hpU hbU ⊢
    linarith
  · rw [abs_le]
    constructor
    · norm_num at hpL hbL hbU ⊢
      linarith
    · norm_num at hpU hbU ⊢
      linarith

/-! ### The constants

The binary32 constants above are the values the compiler computes: the decimal literals
rounded to nearest, and the three derived constants evaluated in binary32. -/

/-- The literal `3.141592653f` is `13176795 / 2^22`. -/
theorem piFloat32_eq : F32.ofRat (3141592653 / 1000000000) = piFloat32 := by
  rw [F32.ofRat_of_nonneg _ (by norm_num)]
  have h := F32.roundMagnitude_of_near (3141592653 / 1000000000) 1 13176795 (by norm_num)
    (by norm_num) (by norm_num) (by rw [abs_lt]; norm_num)
  exact F32.round_eq false _ _ (by rw [h]; norm_num) (by norm_num)

/-- The literal `0.01f` is `5368709 / 2^29`. -/
theorem hundredth32_eq : F32.ofRat (1 / 100) = hundredth32 := by
  rw [F32.ofRat_of_nonneg _ (by norm_num)]
  have h := F32.roundMagnitude_of_near (1 / 100) (-7) 10737418 (by norm_num)
    (by norm_num) (by norm_num) (by rw [abs_lt]; norm_num)
  exact F32.round_eq false _ _ (by rw [h]; norm_num) (by norm_num)

/-- The quotient `piFloat / 2.f` is exact. -/
theorem halfPiFloat32_eq : F32.div piFloat32 (F32.fin false 2) = halfPiFloat32 :=
  F32.div_eq_round false false _ 2 _ (by norm_num)
    (by
      rw [show (13176795 / 4194304 : ℚ) / 2 = 13176795 / 8388608 by norm_num]
      exact (F32.representable_of_eq _ 13176795 (-23) (by norm_num) (by norm_num)
        (by norm_num) (by norm_num)).2.1)
    (by norm_num)

/-- The product `piFloat * 2.f` is exact. -/
theorem doublePiFloat32_eq : F32.mul piFloat32 (F32.fin false 2) = doublePiFloat32 :=
  F32.mul_eq_round false false _ 2 _
    (by
      rw [show (13176795 / 4194304 : ℚ) * 2 = 13176795 / 2097152 by norm_num]
      exact (F32.representable_of_eq _ 13176795 (-21) (by norm_num) (by norm_num)
        (by norm_num) (by norm_num)).2.1)
    (by norm_num)

/-- The quotient `1.f / doublePiFloat` rounds to `10680707 / 2^26`. -/
theorem recipricalOfFullCircle32_eq :
    F32.div one32 doublePiFloat32 = recipricalOfFullCircle32 := by
  have h := F32.roundMagnitude_of_near (1 / (13176795 / 2097152)) (-3) 10680707 (by norm_num)
    (by norm_num) (by norm_num) (by rw [abs_lt]; norm_num)
  exact F32.div_eq_round false false 1 _ _ (by norm_num) (by rw [h]; norm_num) (by norm_num)

/-! ## Results in binary32: single-axis calibrated transform -/

theorem F32.lt_nan_right (x : F32) : F32.lt x F32.nan = false := by
  cases x <;> rfl

theorem F32.lt_nan_left (y : F32) : F32.lt F32.nan y = false := by
  cases y <;> rfl

theorem neg_hundred32_eq : F32.neg hundred32 = F32.fin true 100 := rfl

theorem clampAxis32_nan_or_mem (n : F32) :
    clampAxis32 n = F32.nan ∨
      ∃ s m, clampAxis32 n = F32.fin s m ∧ -100 ≤ F32.toRat (F32.fin s m) ∧
        F32.toRat (F32.fin s m) ≤ 100 := by
  have hA : -100 ≤ F32.toRat (F32.fin false 100) ∧ F32.toRat (F32.fin false 100) ≤ 100 := by
    rw [F32.toRat_fin_false]; norm_num
  have hB : -100 ≤ F32.toRat (F32.fin true 100) ∧ F32.toRat (F32.fin true 100) ≤ 100 := by
    rw [F32.toRat_fin_true]; norm_num
  by_cases h1 : F32.lt hundred32 n = true
  · right
    refine ⟨false, 100, ?_, hA⟩
    unfold clampAxis32
    rw [if_pos h1]
    rfl
  by_cases h2 : F32.lt n (F32.neg hundred32) = true
  · right
    refine ⟨true, 100, ?_, hB⟩
    unfold clampAxis32
    rw [if_neg h1, if_pos h2]
    rfl
  have hn : clampAxis32 n = n := by
    unfold clampAxis32
    rw [if_neg h1, if_neg h2]
  rw [hn]
  cases n with
  | nan => left; rfl
  | inf s =>
    exfalso
    cases s
    · exact h1 rfl
    · exact h2 rfl
  | fin s m =>
    right
    refine ⟨s, m, rfl, ?_, ?_⟩
    · rw [neg_hundred32_eq, F32.lt_fin, decide_eq_true_eq, not_lt, F32.toRat_fin_true] at h2
      exact h2
    · have h3 : ¬ F32.lt (F32.fin false 100) (F32.fin s m) = true := h1
      rw [F32.lt_fin, decide_eq_true_eq, not_lt, F32.toRat_fin_false] at h3
      exact h3

theorem clampAxis32_ne_nan (n : F32) (h : n ≠ F32.nan) : clampAxis32 n ≠ F32.nan := by
  unfold clampAxis32
  split_ifs
  · simp [hundred32]
  · simp [hundred32, F32.neg]
  · exact h

theorem clampAxis32_of_mem (s : Bool) (m : ℚ) (h1 : -100 ≤ F32.toRat (F32.fin s m))
    (h2 : F32.toRat (F32.fin s m) ≤ 100) : clampAxis32 (F32.fin s m) = F32.fin s m := by
  have e1 : F32.lt hundred32 (F32.fin s m) = false := by
    show F32.lt (F32.fin false 100) (F32.fin s m) = false
    rw [F32.lt_fin, decide_eq_false_iff_not, not_lt, F32.toRat_fin_false]
    exact h2
  have e2 : F32.lt (F32.fin s m) (F32.neg hundred32) = false := by
    rw [neg_hundred32_eq, F32.lt_fin, decide_eq_false_iff_not, not_lt, F32.toRat_fin_true]
    exact h1
  unfold clampAxis32
  rw [e1, e2]
  rfl

theorem clampAxis32_zero : clampAxis32 zero32 = zero32 :=
  clampAxis32_of_mem false 0 (by rw [F32.toRat_fin_false]; norm_num)
    (by rw [F32.toRat_fin_false]; norm_num)

theorem F32.lt_asymm (x y : F32) (h : F32.lt x y = true) : F32.lt y x = false := by
  cases x with
  | nan => simp [F32.lt] at h
  | inf s =>
    cases y with
    | nan => simp [F32.lt] at h
    | inf t => cases s <;> cases t <;> simp_all [F32.lt]
    | fin t y => cases s <;> simp_all [F32.lt]
  | fin s x =>
    cases y with
    | nan => simp [F32.lt] at h
    | inf t => cases t <;> simp_all [F32.lt]
    | fin t y =>
      simp only [F32.lt_fin, decide_eq_true_eq] at h
      simp only [F32.lt_fin, decide_eq_false_iff_not, not_lt]
      exact le_of_lt h

theorem F32.add_fin_ne_nan (s t : Bool) (x y : ℚ) : F32.add (F32.fin s x) (F32.fin t y) ≠ F32.nan := by
  rw [F32.add_fin_fin]
  split_ifs
  · simp
  · unfold F32.ofRat F32.round
    split_ifs <;> simp

theorem F32.sub_fin_ne_nan (s t : Bool) (x y : ℚ) : F32.sub (F32.fin s x) (F32.fin t y) ≠ F32.nan := by
  rw [F32.sub_fin]
  exact F32.add_fin_ne_nan _ _ _ _

theorem F32.mul_ne_nan (d f : F32) (hd : d ≠ F32.nan) (hf : F32.isFinite f = true)
    (hf0 : F32.toRat f ≠ 0) : F32.mul d f ≠ F32.nan := by
  cases f with
  | nan => simp [F32.isFinite] at hf
  | inf t => simp [F32.isFinite] at hf
  | fin t y =>
    have hy : y ≠ 0 := by
      intro hy
      apply hf0
      cases t <;> simp [F32.toRat, hy]
    cases d with
    | nan => exact absurd rfl hd
    | inf s => simp [F32.mul, hy]
    | fin s x =>
      rw [F32.mul_fin_fin]
      unfold F32.round
      split_ifs <;> simp

/-- C1 (amended): the final clamp bounds every result that is not NaN.  For every
calibration and every raw reading the value returned is NaN or lies in `[-100, 100]`; and
it is not NaN when the computed offset reading `raw - zero`, the computed thresholds
`minPositive - zero` and `minNegative + zero` and the two computed scale factors are finite
and the scale factors are not zero.  Non-degenerate ranges alone do not exclude NaN: a
scale factor can overflow to an infinity and meet a zero difference. -/
theorem calibrate32_nan_or_in_range (a : AxisCalibration32) (raw : F32) :
    (calibrate32 a raw = F32.nan ∨
      ∃ s m, calibrate32 a raw = F32.fin s m ∧ -100 ≤ F32.toRat (F32.fin s m) ∧
        F32.toRat (F32.fin s m) ≤ 100) ∧
    (F32.isFinite (F32.sub raw a.zero) = true →
      F32.isFinite (F32.sub a.minPositive a.zero) = true →
      F32.isFinite (F32.add a.minNegative a.zero) = true →
      F32.isFinite (F32.div hundred32
        (F32.sub (F32.sub a.maxPositive a.zero) (F32.sub a.minPositive a.zero))) = true →
      F32.toRat (F32.div hundred32
        (F32.sub (F32.sub a.maxPositive a.zero) (F32.sub a.minPositive a.zero))) ≠ 0 →
      F32.isFinite (F32.div (F32.neg hundred32)
        (F32.sub (F32.add a.maxNegative a.zero) (F32.add a.minNegative a.zero))) = true →
      F32.toRat (F32.div (F32.neg hundred32)
        (F32.sub (F32.add a.maxNegative a.zero) (F32.add a.minNegative a.zero))) ≠ 0 →
      calibrate32 a raw ≠ F32.nan) := by
  refine ⟨clampAxis32_nan_or_mem _, ?_⟩
  intro hn hp hm hfp hfp0 hfn hfn0
  unfold calibrate32
  apply clampAxis32_ne_nan
  generalize F32.sub raw a.zero = n at hn ⊢
  generalize F32.sub a.minPositive a.zero = p at hp hfp hfp0 ⊢
  generalize F32.add a.minNegative a.zero = q at hm hfn hfn0 ⊢
  cases n with
  | nan => simp [F32.isFinite] at hn
  | inf s => simp [F32.isFinite] at hn
  | fin s x =>
    cases p with
    | nan => simp [F32.isFinite] at hp
    | inf t => simp [F32.isFinite] at hp
    | fin t y =>
      cases q with
      | nan => simp [F32.isFinite] at hm
      | inf u => simp [F32.isFinite] at hm
      | fin u z =>
        split_ifs
        · simp [zero32]
        · exact F32.mul_ne_nan _ _ (F32.sub_fin_ne_nan _ _ _ _) hfp hfp0
        · simp [zero32]
        · exact F32.mul_ne_nan _ _ (F32.sub_fin_ne_nan _ _ _ _) hfn hfn0
        · simp

theorem F32.sub_zero_right (s : Bool) (m : ℚ) (h : F32.Representable m) :
    F32.sub (F32.fin s m) (F32.fin false 0) = F32.fin s m := by
  rcases eq_or_lt_of_le h.1 with h0 | hpos
  · subst h0
    rw [F32.sub_eq_zero s false 0 0 (by cases s <;> simp [F32.toRat])]
    simp
  · exact F32.sub_eq_round s false s m 0 m m (by cases s <;> simp [F32.toRat]) hpos h.2.1 h.2.2

theorem F32.add_zero_right (s : Bool) (m : ℚ) (h : F32.Representable m) (hm : m ≠ 0) :
    F32.add (F32.fin s m) (F32.fin false 0) = F32.fin s m := by
  have hpos : 0 < m := lt_of_le_of_ne h.1 (Ne.symm hm)
  exact F32.add_eq_round s false s m 0 m m (by cases s <;> simp [F32.toRat]) hpos h.2.1 h.2.2

theorem F32.representable_five : F32.Representable 5 := by
  simpa using F32.representable_natCast 5 (by norm_num)

theorem F32.representable_ten : F32.Representable 10 := by
  simpa using F32.representable_natCast 10 (by norm_num)

theorem F32.representable_fifty : F32.Representable 50 := by
  simpa using F32.representable_natCast 50 (by norm_num)

theorem F32.representable_hundred : F32.Representable 100 := by
  simpa using F32.representable_natCast 100 (by norm_num)

theorem F32.representable_one : F32.Representable 1 := by
  simpa using F32.representable_natCast 1 (by norm_num)

/-- The scale factor `100.f / 100.f` of the default calibration. -/
theorem F32.div_hundred_hundred (s t : Bool) :
    F32.div (F32.fin s 100) (F32.fin t 100) = F32.fin (xor s t) 1 :=
  F32.div_eq_round s t 100 100 1 (by norm_num)
    (by rw [show (100 : ℚ) / 100 = 1 by norm_num]; exact F32.representable_one.2.1)
    (by norm_num)

/-- C1, counterexample: a calibration with no degenerate range on which the transform
returns NaN.  The positive range is `[2^-120, 9 * 2^-123]` with `zero = 0` and the raw
reading sits on its lower end: the computed scale factor `100.f / 2^-123` overflows to
infinity and `0 * inf` is NaN, which passes both comparisons of the final clamp. -/
theorem calibrate32_in_range_counterexample :
    calibrate32 { minPositive := F32.fin false (1 / 2 ^ 120),
                  maxPositive := F32.fin false (9 / 2 ^ 123) }
      (F32.fin false (1 / 2 ^ 120)) = F32.nan ∧
    ((1 : ℚ) / 2 ^ 120 - 0 ≠ 9 / 2 ^ 123 - 0) ∧ ((0 : ℚ) + 0 ≠ -100 + 0) := by
  refine ⟨?_, by norm_num, by norm_num⟩
  have hA : F32.Representable (1 / 2 ^ 120) :=
    F32.representable_of_eq _ 1 (-120) (by norm_num) (by norm_num) (by norm_num) (by norm_num)
  have hB : F32.Representable (9 / 2 ^ 123) :=
    F32.representable_of_eq _ 9 (-123) (by norm_num) (by norm_num) (by norm_num) (by norm_num)
  have hC : F32.Representable (1 / 2 ^ 123) :=
    F32.representable_of_eq _ 1 (-123) (by norm_num) (by norm_num) (by norm_num) (by norm_num)
  have hn := F32.sub_zero_right false _ hA
  have hmax := F32.sub_zero_right false _ hB
  have hw : F32.sub (F32.fin false (9 / 2 ^ 123)) (F32.fin false (1 / 2 ^ 120))
      = F32.fin false (1 / 2 ^ 123) :=
    F32.sub_eq_round _ _ false _ _ (1 / 2 ^ 123) _ (by norm_num [F32.toRat]) (by norm_num)
      hC.2.1 hC.2.2
  have hd : F32.sub (F32.fin false (1 / 2 ^ 120)) (F32.fin false (1 / 2 ^ 120))
      = F32.fin false 0 :=
    F32.sub_eq_zero _ _ _ _ (by norm_num [F32.toRat])
  have hf : F32.div hundred32 (F32.fin false (1 / 2 ^ 123)) = F32.inf false := by
    have hg : F32.roundMagnitude (100 / (1 / 2 ^ 123)) = 100 / (1 / 2 ^ 123) := by
      have := F32.roundMagnitude_grid 25 125 (by norm_num) (by norm_num)
      norm_num at this ⊢
      exact this
    apply F32.div_eq_inf false false 100 _ (by norm_num)
    rw [hg]
    norm_num
  simp only [calibrate32, hn, hmax, hw, hd, hf]
  simp [F32.lt, F32.toRat, zero32, F32.mul, clampAxis32, hundred32]

/-- C1, witness: the default calibration and the raw reading 50. -/
theorem calibrate32_nan_or_in_range_witness :
    calibrate32 {} (F32.fin false 50) ≠ F32.nan := by
  have h50 := F32.sub_zero_right false 50 F32.representable_fifty
  have h0 : F32.sub (F32.fin false 0) (F32.fin false 0) = F32.fin false 0 :=
    F32.sub_zero_right false 0 F32.representable_zero
  have h100 := F32.sub_zero_right false 100 F32.representable_hundred
  have hm0 : F32.add (F32.fin false 0) (F32.fin false 0) = F32.fin false 0 :=
    F32.add_eq_zero _ _ _ _ (by norm_num [F32.toRat])
  have hm100 := F32.add_zero_right true 100 F32.representable_hundred (by norm_num)
  have hfp : F32.div hundred32 (F32.fin false 100) = F32.fin false 1 :=
    F32.div_hundred_hundred false false
  have hfn : F32.div (F32.neg hundred32) (F32.fin true 100) = F32.fin false 1 :=
    F32.div_hundred_hundred true true
  refine (calibrate32_nan_or_in_range {} (F32.fin false 50)).2 ?_ ?_ ?_ ?_ ?_ ?_ ?_
  · show F32.isFinite (F32.sub (F32.fin false 50) (F32.fin false 0)) = true
    rw [h50]; rfl
  · show F32.isFinite (F32.sub (F32.fin false 0) (F32.fin false 0)) = true
    rw [h0]; rfl
  · show F32.isFinite (F32.add (F32.fin false 0) (F32.fin false 0)) = true
    rw [hm0]; rfl
  · show F32.isFinite (F32.div hundred32 (F32.sub (F32.sub (F32.fin false 100) (F32.fin false 0))
      (F32.sub (F32.fin false 0) (F32.fin false 0)))) = true
    rw [h100, h0, h100, hfp]; rfl
  · show F32.toRat (F32.div hundred32 (F32.sub (F32.sub (F32.fin false 100) (F32.fin false 0))
      (F32.sub (F32.fin false 0) (F32.fin false 0)))) ≠ 0
    rw [h100, h0, h100, hfp, F32.toRat_fin_false]; norm_num
  · show F32.isFinite (F32.div (F32.neg hundred32)
      (F32.sub (F32.add (F32.fin true 100) (F32.fin false 0))
        (F32.add (F32.fin false 0) (F32.fin false 0)))) = true
    rw [hm100, hm0, F32.sub_zero_right true 100 F32.representable_hundred, hfn]; rfl
  · show F32.toRat (F32.div (F32.neg hundred32)
      (F32.sub (F32.add (F32.fin true 100) (F32.fin false 0))
        (F32.add (F32.fin false 0) (F32.fin false 0)))) ≠ 0
    rw [hm100, hm0, F32.sub_zero_right true 100 F32.representable_hundred, hfn,
      F32.toRat_fin_false]
    norm_num

/-- The sum `10^10 + c` with `0 ≤ c < 512` rounds to `10^10`: the spacing there is 1024. -/
theorem F32.roundMagnitude_absorbed (c : ℚ) (h0 : 0 ≤ c) (h1 : c < 512) :
    F32.roundMagnitude (10000000000 + c) = 10000000000 := by
  have h := F32.roundMagnitude_of_near (10000000000 + c) 33 9765625 (by norm_num)
    (by norm_num; linarith) (by norm_num; linarith)
    (by
      rw [abs_lt]
      norm_num
      constructor <;> linarith)
  rw [h]
  norm_num

/-! ### Operations that do not round -/

theorem F32.denotes_fin (s : Bool) (m : ℚ) (h : F32.Representable m) :
    F32.Denotes (F32.fin s m) (F32.toRat (F32.fin s m)) :=
  ⟨h, rfl⟩

theorem F32.Denotes.exists_eq {x : F32} {q : ℚ} (h : F32.Denotes x q) :
    ∃ s m, x = F32.fin s m ∧ F32.Representable m ∧ F32.toRat (F32.fin s m) = q := by
  cases x with
  | nan => exact absurd h id
  | inf s => exact absurd h id
  | fin s m => exact ⟨s, m, rfl, h.1, h.2⟩

theorem F32.denotes_of_abs (u : Bool) (q : ℚ) (h : F32.Representable |q|)
    (hu : u = decide (q < 0)) : F32.Denotes (F32.fin u |q|) q := by
  refine ⟨h, ?_⟩
  subst hu
  by_cases hq : q < 0
  · simp [hq, abs_of_neg hq]
  · simp [hq, abs_of_nonneg (not_lt.mp hq)]

theorem F32.toRat_fin_decide_abs (q : ℚ) : F32.toRat (F32.fin (decide (q < 0)) |q|) = q := by
  by_cases hq : q < 0
  · simp [F32.toRat, hq, abs_of_neg hq]
  · simp [F32.toRat, hq, abs_of_nonneg (not_lt.mp hq)]

theorem F32.Denotes.add {x y : F32} {a b : ℚ} (hx : F32.Denotes x a) (hy : F32.Denotes y b)
    (h : F32.Representable |a + b|) : F32.Denotes (F32.add x y) (a + b) := by
  obtain ⟨s, m, rfl, _, hm⟩ := hx.exists_eq
  obtain ⟨t, k, rfl, _, hk⟩ := hy.exists_eq
  by_cases h0 : a + b = 0
  · rw [F32.add_eq_zero s t m k (by rw [hm, hk, h0])]
    exact ⟨F32.representable_zero, by simp [h0]⟩
  · have hpos : 0 < |a + b| := abs_pos.mpr h0
    rw [F32.add_eq_round s t (decide (a + b < 0)) m k |a + b| |a + b|
      (by rw [hm, hk, F32.toRat_fin_decide_abs]) hpos h.2.1 h.2.2]
    exact F32.denotes_of_abs _ _ h rfl

theorem F32.Denotes.neg {y : F32} {b : ℚ} (hy : F32.Denotes y b) :
    F32.Denotes (F32.neg y) (-b) := by
  obtain ⟨t, k, rfl, hr, hk⟩ := hy.exists_eq
  refine ⟨hr, ?_⟩
  rw [← hk]
  cases t <;> simp [F32.toRat]

theorem F32.Denotes.sub {x y : F32} {a b : ℚ} (hx : F32.Denotes x a) (hy : F32.Denotes y b)
    (h : F32.Representable |a - b|) : F32.Denotes (F32.sub x y) (a - b) := by
  have := F32.Denotes.add hx hy.neg (by rw [← sub_eq_add_neg]; exact h)
  rw [← sub_eq_add_neg] at this
  exact this

theorem F32.abs_toRat_fin (s : Bool) (m : ℚ) (h : 0 ≤ m) : |F32.toRat (F32.fin s m)| = m := by
  cases s
  · rw [F32.toRat_fin_false, abs_of_nonneg h]
  · rw [F32.toRat_fin_true, abs_neg, abs_of_nonneg h]

theorem F32.toRat_fin_xor_mul (s t : Bool) (m k : ℚ) :
    F32.toRat (F32.fin (xor s t) (m * k)) = F32.toRat (F32.fin s m) * F32.toRat (F32.fin t k) := by
  cases s <;> cases t <;> simp [F32.toRat]

theorem F32.toRat_fin_xor_div (s t : Bool) (m k : ℚ) :
    F32.toRat (F32.fin (xor s t) (m / k)) = F32.toRat (F32.fin s m) / F32.toRat (F32.fin t k) := by
  cases s <;> cases t <;> simp [F32.toRat, neg_div, div_neg]

theorem F32.Denotes.mul {x y : F32} {a b : ℚ} (hx : F32.Denotes x a) (hy : F32.Denotes y b)
    (h : F32.Representable |a * b|) : F32.Denotes (F32.mul x y) (a * b) := by
  obtain ⟨s, m, rfl, hrm, hm⟩ := hx.exists_eq
  obtain ⟨t, k, rfl, hrk, hk⟩ := hy.exists_eq
  have habs : |a * b| = m * k := by
    rw [abs_mul, ← hm, ← hk, F32.abs_toRat_fin s m hrm.1, F32.abs_toRat_fin t k hrk.1]
  rw [habs] at h
  rw [F32.mul_eq_round s t m k (m * k) h.2.1 h.2.2]
  refine ⟨h, ?_⟩
  have := F32.toRat_fin_xor_mul s t m k
  rw [hm, hk] at this
  exact this

theorem F32.Denotes.div {x y : F32} {a b : ℚ} (hx : F32.Denotes x a) (hy : F32.Denotes y b)
    (hb : b ≠ 0) (h : F32.Representable |a / b|) : F32.Denotes (F32.div x y) (a / b) := by
  obtain ⟨s, m, rfl, hrm, hm⟩ := hx.exists_eq
  obtain ⟨t, k, rfl, hrk, hk⟩ := hy.exists_eq
  have hk0 : k ≠ 0 := by
    intro h0
    apply hb
    rw [← hk, h0]
    cases t <;> simp [F32.toRat]
  have habs : |a / b| = m / k := by
    rw [abs_div, ← hm, ← hk, F32.abs_toRat_fin s m hrm.1, F32.abs_toRat_fin t k hrk.1]
  rw [habs] at h
  rw [F32.div_eq_round s t m k (m / k) hk0 h.2.1 h.2.2]
  refine ⟨h, ?_⟩
  have := F32.toRat_fin_xor_div s t m k
  rw [hm, hk] at this
  exact this

theorem F32.Denotes.lt {x y : F32} {a b : ℚ} (hx : F32.Denotes x a) (hy : F32.Denotes y b) :
    F32.lt x y = decide (a < b) := by
  obtain ⟨s, m, rfl, _, hm⟩ := hx.exists_eq
  obtain ⟨t, k, rfl, _, hk⟩ := hy.exists_eq
  rw [F32.lt_fin, hm, hk]

theorem F32.Denotes.clampAxis32 {x : F32} {a : ℚ} (hx : F32.Denotes x a) (h1 : -100 ≤ a)
    (h2 : a ≤ 100) : joystickcontroller.clampAxis32 x = x := by
  obtain ⟨s, m, rfl, _, hm⟩ := hx.exists_eq
  exact clampAxis32_of_mem s m (by rw [hm]; exact h1) (by rw [hm]; exact h2)

theorem F32.Denotes.eq_of_pos {x : F32} {q : ℚ} (hx : F32.Denotes x q) (hq : 0 < q) :
    x = F32.fin false q := by
  obtain ⟨s, m, rfl, hr, hm⟩ := hx.exists_eq
  cases s
  · rw [F32.toRat_fin_false] at hm; rw [hm]
  · rw [F32.toRat_fin_true] at hm
    have := hr.1
    linarith

theorem F32.Denotes.eq_of_neg {x : F32} {q : ℚ} (hx : F32.Denotes x q) (hq : q < 0) :
    x = F32.fin true (-q) := by
  obtain ⟨s, m, rfl, hr, hm⟩ := hx.exists_eq
  cases s
  · rw [F32.toRat_fin_false] at hm
    have := hr.1
    linarith
  · rw [F32.toRat_fin_true] at hm
    rw [← hm, neg_neg]

theorem denotes_zero32 : F32.Denotes zero32 0 :=
  ⟨F32.representable_zero, rfl⟩

theorem denotes_hundred32 : F32.Denotes hundred32 100 :=
  ⟨F32.representable_hundred, rfl⟩

theorem denotes_neg_hundred32 : F32.Denotes (F32.neg hundred32) (-100) :=
  denotes_hundred32.neg

/-- C2 (amended): the positive dead zone is decided on the computed values.  When
the computed offset reading `n = raw - zero` satisfies `0 < n` and `n < minPositive'`, with
`minPositive' = minPositive - zero` as computed, the transform returns `+0` exactly.  In
particular `zero < raw < minPositive` gives `+0` whenever the two offsets `raw - zero` and
`minPositive - zero` are binary32 values, as they are for `zero = 0`; when they round,
they can round to the same value and the reading is then rescaled. -/
theorem calibrate32_positive_dead_zone (a : AxisCalibration32) (raw : F32) :
    (F32.lt zero32 (F32.sub raw a.zero) = true →
      F32.lt (F32.sub raw a.zero) (F32.sub a.minPositive a.zero) = true →
      calibrate32 a raw = zero32) ∧
    (∀ x z p : ℚ, F32.Denotes raw x → F32.Denotes a.zero z → F32.Denotes a.minPositive p →
      F32.Representable |x - z| → F32.Representable |p - z| → z < x → x < p →
      calibrate32 a raw = zero32) := by
  have key : F32.lt zero32 (F32.sub raw a.zero) = true →
      F32.lt (F32.sub raw a.zero) (F32.sub a.minPositive a.zero) = true →
      calibrate32 a raw = zero32 := by
    intro h1 h2
    unfold calibrate32
    simp only [h1, h2, if_true]
    exact clampAxis32_zero
  refine ⟨key, ?_⟩
  intro x z p hraw hzero hmin e1 e2 hzx hxp
  have hn := F32.Denotes.sub hraw hzero e1
  have hp := F32.Denotes.sub hmin hzero e2
  apply key
  · rw [F32.Denotes.lt denotes_zero32 hn, decide_eq_true_eq]
    linarith
  · rw [F32.Denotes.lt hn hp, decide_eq_true_eq]
    linarith

/-- C2, witness: raw = 5, zero = 0, minPositive = 10, maxPositive = 100 gives 0. -/
theorem calibrate32_positive_dead_zone_witness :
    calibrate32 { minPositive := F32.fin false 10 } (F32.fin false 5) = zero32 :=
  (calibrate32_positive_dead_zone { minPositive := F32.fin false 10 } (F32.fin false 5)).2
    5 0 10 ⟨F32.representable_five, rfl⟩ ⟨F32.representable_zero, rfl⟩
    ⟨F32.representable_ten, rfl⟩
    (by rw [sub_zero, abs_of_pos (by norm_num)]; exact F32.representable_five)
    (by rw [sub_zero, abs_of_pos (by norm_num)]; exact F32.representable_ten)
    (by norm_num) (by norm_num)

/-- C2, counterexample: zero = -1e10, minPositive = 10, maxPositive = 100 and
raw = 5, so that `zero < raw < minPositive` and `minPositive < maxPositive`.  The three
offsets `raw - zero`, `minPositive - zero` and `maxPositive - zero` all round to `1e10`:
the dead-zone test `n < minPositive'` fails, the scale factor is `100.f / 0.f = inf`, and
the transform returns `0 * inf`, NaN. -/
theorem calibrate32_positive_dead_zone_counterexample :
    calibrate32 { zero := F32.fin true 10000000000, minPositive := F32.fin false 10,
                  maxPositive := F32.fin false 100 } (F32.fin false 5) = F32.nan ∧
    ((-10000000000 : ℚ) < 5 ∧ (5 : ℚ) < 10 ∧ (10 : ℚ) < 100) := by
  refine ⟨?_, by norm_num⟩
  have hn : F32.sub (F32.fin false 5) (F32.fin true 10000000000)
      = F32.fin false 10000000000 :=
    F32.sub_eq_round _ _ false _ _ (10000000000 + 5) _ (by norm_num [F32.toRat]) (by norm_num)
      (F32.roundMagnitude_absorbed 5 (by norm_num) (by norm_num)) (by norm_num)
  have hmin : F32.sub (F32.fin false 10) (F32.fin true 10000000000)
      = F32.fin false 10000000000 :=
    F32.sub_eq_round _ _ false _ _ (10000000000 + 10) _ (by norm_num [F32.toRat]) (by norm_num)
      (F32.roundMagnitude_absorbed 10 (by norm_num) (by norm_num)) (by norm_num)
  have hmax : F32.sub (F32.fin false 100) (F32.fin true 10000000000)
      = F32.fin false 10000000000 :=
    F32.sub_eq_round _ _ false _ _ (10000000000 + 100) _ (by norm_num [F32.toRat])
      (by norm_num) (F32.roundMagnitude_absorbed 100 (by norm_num) (by norm_num)) (by norm_num)
  have hd : F32.sub (F32.fin false 10000000000) (F32.fin false 10000000000)
      = F32.fin false 0 :=
    F32.sub_eq_zero _ _ _ _ (by norm_num [F32.toRat])
  simp only [calibrate32, hn, hmin, hmax, hd]
  simp [F32.lt, F32.toRat, zero32, F32.mul, F32.div, clampAxis32, hundred32]

/-! ### The positive side -/

/-- The quotient `100.f / 99.f`. -/
theorem F32.roundMagnitude_hundred_div_ninety_nine :
    F32.roundMagnitude (100 / 99) = 8473341 / 8388608 := by
  have h := F32.roundMagnitude_of_near (100 / 99) 0 8473341 (by norm_num) (by norm_num)
    (by norm_num) (by rw [abs_lt]; norm_num)
  rw [h]
  norm_num

/-- The product `99.f * (100.f / 99.f)`. -/
theorem F32.roundMagnitude_ninety_nine_mul :
    F32.roundMagnitude (99 * (8473341 / 8388608)) = 13107199 / 131072 := by
  have h := F32.roundMagnitude_of_near (99 * (8473341 / 8388608)) 6 13107199 (by norm_num)
    (by norm_num) (by norm_num) (by rw [abs_lt]; norm_num)
  rw [h]
  norm_num

theorem F32.representable_ninety_nine : F32.Representable 99 := by
  simpa using F32.representable_natCast 99 (by norm_num)

/-- C15, counterexample: zero = 0, minPositive = 1, maxPositive = 100 and
raw = 100 = maxPositive.  The scale factor `100.f / 99.f` rounds down and so does the
product `99.f * (100.f / 99.f)`: the transform returns `13107199 / 2^17`, about
99.99999237, not 100. -/
theorem calibrate32_positive_rescale_counterexample :
    calibrate32 { minPositive := F32.fin false 1 } (F32.fin false 100)
      = F32.fin false (13107199 / 131072) ∧
    (13107199 / 131072 : ℚ) ≠ (100 - 1) * 100 / (100 - 1) := by
  refine ⟨?_, by norm_num⟩
  have hn := F32.sub_zero_right false 100 F32.representable_hundred
  have hmin := F32.sub_zero_right false 1 F32.representable_one
  have hd : F32.sub (F32.fin false 100) (F32.fin false 1) = F32.fin false 99 :=
    F32.sub_eq_round _ _ false _ _ 99 _ (by norm_num [F32.toRat]) (by norm_num)
      F32.representable_ninety_nine.2.1 (by norm_num)
  have hf : F32.div hundred32 (F32.fin false 99) = F32.fin false (8473341 / 8388608) :=
    F32.div_eq_round false false 100 99 _ (by norm_num)
      F32.roundMagnitude_hundred_div_ninety_nine (by norm_num)
  have hp : F32.mul (F32.fin false 99) (F32.fin false (8473341 / 8388608))
      = F32.fin false (13107199 / 131072) :=
    F32.mul_eq_round false false 99 _ _ F32.roundMagnitude_ninety_nine_mul (by norm_num)
  simp only [calibrate32, hn, hmin, hd, hf, hp]
  have h1 : F32.lt zero32 (F32.fin false 100) = true := by
    show F32.lt (F32.fin false 0) (F32.fin false 100) = true
    rw [F32.lt_fin, F32.toRat_fin_false, F32.toRat_fin_false]; norm_num
  have h2 : F32.lt (F32.fin false 100) (F32.fin false 1) = false := by
    rw [F32.lt_fin, F32.toRat_fin_false, F32.toRat_fin_false]; norm_num
  rw [h1, h2]
  simp only [if_true, Bool.false_eq_true, if_false]
  exact clampAxis32_of_mem false _ (by rw [F32.toRat_fin_false]; norm_num)
    (by rw [F32.toRat_fin_false]; norm_num)

theorem F32.representable_nat (k : ℕ) (q : ℚ) (h : q = (k : ℚ)) (hk : k < 2 ^ 24) :
    F32.Representable q := by
  rw [h]
  exact F32.representable_natCast k hk

/-! ### The negative side -/

/-- C17 (amended): the negative dead zone is decided on the computed values
`n = raw - zero` and `minNegative' = minNegative + zero`.  When `n < 0` and
`minNegative' < n` the transform returns `+0` exactly.  In raw units, when the two offsets
are binary32 values, that is `minNegative + 2 * zero < raw < zero`, which is the claimed
zone `minNegative < raw < zero` only for `zero = 0`. -/
theorem calibrate32_negative_dead_zone (a : AxisCalibration32) (raw : F32) :
    (F32.lt (F32.sub raw a.zero) zero32 = true →
      F32.lt (F32.add a.minNegative a.zero) (F32.sub raw a.zero) = true →
      calibrate32 a raw = zero32) ∧
    (∀ x z q : ℚ, F32.Denotes raw x → F32.Denotes a.zero z → F32.Denotes a.minNegative q →
      F32.Representable |x - z| → F32.Representable |q + z| → x < z → q + 2 * z < x →
      calibrate32 a raw = zero32) := by
  have key : F32.lt (F32.sub raw a.zero) zero32 = true →
      F32.lt (F32.add a.minNegative a.zero) (F32.sub raw a.zero) = true →
      calibrate32 a raw = zero32 := by
    intro h1 h2
    have h0 : F32.lt zero32 (F32.sub raw a.zero) = false := F32.lt_asymm _ _ h1
    unfold calibrate32
    simp only [h0, h1, h2, if_true, Bool.false_eq_true, if_false]
    exact clampAxis32_zero
  refine ⟨key, ?_⟩
  intro x z q hraw hzero hmin e1 e2 hxz hqx
  have hn := F32.Denotes.sub hraw hzero e1
  have hq := F32.Denotes.add hmin hzero e2
  apply key
  · rw [F32.Denotes.lt hn denotes_zero32, decide_eq_true_eq]
    linarith
  · rw [F32.Denotes.lt hq hn, decide_eq_true_eq]
    linarith

theorem F32.representable_twenty : F32.Representable 20 := by
  simpa using F32.representable_natCast 20 (by norm_num)

/-- The offsets of the calibration zero = 10, minNegative = -20, maxNegative = -100. -/
theorem offset_minNegative :
    F32.add (F32.fin true 20) (F32.fin false 10) = F32.fin true 10 :=
  F32.add_eq_round _ _ true _ _ 10 _ (by norm_num [F32.toRat]) (by norm_num)
    F32.representable_ten.2.1 (by norm_num)

theorem offset_maxNegative :
    F32.add (F32.fin true 100) (F32.fin false 10) = F32.fin true 90 :=
  F32.add_eq_round _ _ true _ _ 90 _ (by norm_num [F32.toRat]) (by norm_num)
    (F32.representable_nat 90 _ (by norm_num) (by norm_num)).2.1 (by norm_num)

theorem offset_width :
    F32.sub (F32.fin true 90) (F32.fin true 10) = F32.fin true 80 :=
  F32.sub_eq_round _ _ true _ _ 80 _ (by norm_num [F32.toRat]) (by norm_num)
    (F32.representable_nat 80 _ (by norm_num) (by norm_num)).2.1 (by norm_num)

theorem offset_factor :
    F32.div (F32.neg hundred32) (F32.fin true 80) = F32.fin false (5 / 4) :=
  F32.div_eq_round true true 100 80 _ (by norm_num)
    (by
      rw [show (100 : ℚ) / 80 = 5 / 4 by norm_num]
      exact (F32.representable_of_eq _ 5 (-2) (by norm_num) (by norm_num) (by norm_num)
        (by norm_num)).2.1)
    (by norm_num)

/-- C17, witness: zero = 10, minNegative = -20 and raw = 5, above
`minNegative + 2 * zero = 0` and below `zero`, give 0. -/
theorem calibrate32_negative_dead_zone_witness :
    calibrate32 { zero := F32.fin false 10, minNegative := F32.fin true 20 } (F32.fin false 5)
      = zero32 :=
  (calibrate32_negative_dead_zone { zero := F32.fin false 10, minNegative := F32.fin true 20 }
    (F32.fin false 5)).2 5 10 (-20)
    ⟨F32.representable_five, rfl⟩ ⟨F32.representable_ten, rfl⟩
    ⟨F32.representable_twenty, by norm_num⟩
    (F32.representable_nat 5 _ (by norm_num [abs_of_neg]) (by norm_num))
    (F32.representable_nat 10 _ (by norm_num [abs_of_neg]) (by norm_num))
    (by norm_num) (by norm_num)

/-- C17, counterexample: zero = 10, minNegative = -20, maxNegative = -100 and
raw = -5, so that `maxNegative < minNegative` and `minNegative < raw < zero`.  The computed
offset reading -15 is not above the computed threshold `minNegative + zero = -10`, and the
transform returns `-5 * 1.25 = -6.25`, not 0. -/
theorem calibrate32_negative_dead_zone_counterexample :
    calibrate32 { zero := F32.fin false 10, minNegative := F32.fin true 20,
                  maxNegative := F32.fin true 100 } (F32.fin true 5)
      = F32.fin true (25 / 4) ∧
    ((-100 : ℚ) < -20 ∧ (-20 : ℚ) < -5 ∧ (-5 : ℚ) < 10) := by
  refine ⟨?_, by norm_num⟩
  have hn : F32.sub (F32.fin true 5) (F32.fin false 10) = F32.fin true 15 :=
    F32.sub_eq_round _ _ true _ _ 15 _ (by norm_num [F32.toRat]) (by norm_num)
      (F32.representable_nat 15 _ (by norm_num) (by norm_num)).2.1 (by norm_num)
  have hd : F32.sub (F32.fin true 15) (F32.fin true 10) = F32.fin true 5 :=
    F32.sub_eq_round _ _ true _ _ 5 _ (by norm_num [F32.toRat]) (by norm_num)
      F32.representable_five.2.1 (by norm_num)
  have hp : F32.mul (F32.fin true 5) (F32.fin false (5 / 4)) = F32.fin true (25 / 4) :=
    F32.mul_eq_round true false 5 _ _
      (by
        rw [show (5 : ℚ) * (5 / 4) = 25 / 4 by norm_num]
        exact (F32.representable_of_eq _ 25 (-2) (by norm_num) (by norm_num) (by norm_num)
          (by norm_num)).2.1)
      (by norm_num)
  have c0 : F32.lt zero32 (F32.fin true 15) = false := by
    show F32.lt (F32.fin false 0) (F32.fin true 15) = false
    rw [F32.lt_fin, F32.toRat_fin_false, F32.toRat_fin_true]; norm_num
  have c1 : F32.lt (F32.fin true 15) zero32 = true := by
    show F32.lt (F32.fin true 15) (F32.fin false 0) = true
    rw [F32.lt_fin, F32.toRat_fin_false, F32.toRat_fin_true]; norm_num
  have c2 : F32.lt (F32.fin true 10) (F32.fin true 15) = false := by
    rw [F32.lt_fin, F32.toRat_fin_true, F32.toRat_fin_true]; norm_num
  simp only [calibrate32, hn, offset_minNegative, offset_maxNegative, offset_width,
    offset_factor, hd, hp, c0, c1, c2, if_true, Bool.false_eq_true, if_false]
  exact clampAxis32_of_mem true _ (by rw [F32.toRat_fin_true]; norm_num)
    (by rw [F32.toRat_fin_true]; norm_num)

/-- C16, counterexample: zero = 10, minNegative = -20, maxNegative = -100 and
raw = -20 = minNegative.  The claimed value is 0; the transform works on
`minNegative + zero = -10` and `maxNegative + zero = -90` and returns
`(-30 - -10) * (-100 / -80) = -25`. -/
theorem calibrate32_negative_rescale_counterexample :
    calibrate32 { zero := F32.fin false 10, minNegative := F32.fin true 20,
                  maxNegative := F32.fin true 100 } (F32.fin true 20)
      = F32.fin true 25 ∧
    (-(-20 - -20) * 100 / (-20 - -100) : ℚ) = 0 ∧ ((-100 : ℚ) ≤ -20 ∧ (-20 : ℚ) < 10) := by
  refine ⟨?_, by norm_num, by norm_num⟩
  have hn : F32.sub (F32.fin true 20) (F32.fin false 10) = F32.fin true 30 :=
    F32.sub_eq_round _ _ true _ _ 30 _ (by norm_num [F32.toRat]) (by norm_num)
      (F32.representable_nat 30 _ (by norm_num) (by norm_num)).2.1 (by norm_num)
  have hd : F32.sub (F32.fin true 30) (F32.fin true 10) = F32.fin true 20 :=
    F32.sub_eq_round _ _ true _ _ 20 _ (by norm_num [F32.toRat]) (by norm_num)
      F32.representable_twenty.2.1 (by norm_num)
  have hp : F32.mul (F32.fin true 20) (F32.fin false (5 / 4)) = F32.fin true 25 :=
    F32.mul_eq_round true false 20 _ _
      (by
        rw [show (20 : ℚ) * (5 / 4) = 25 by norm_num]
        exact (F32.representable_nat 25 _ (by norm_num) (by norm_num)).2.1)
      (by norm_num)
  have c0 : F32.lt zero32 (F32.fin true 30) = false := by
    show F32.lt (F32.fin false 0) (F32.fin true 30) = false
    rw [F32.lt_fin, F32.toRat_fin_false, F32.toRat_fin_true]; norm_num
  have c1 : F32.lt (F32.fin true 30) zero32 = true := by
    show F32.lt (F32.fin true 30) (F32.fin false 0) = true
    rw [F32.lt_fin, F32.toRat_fin_false, F32.toRat_fin_true]; norm_num
  have c2 : F32.lt (F32.fin true 10) (F32.fin true 30) = false := by
    rw [F32.lt_fin, F32.toRat_fin_true, F32.toRat_fin_true]; norm_num
  simp only [calibrate32, hn, offset_minNegative, offset_maxNegative, offset_width,
    offset_factor, hd, hp, c0, c1, c2, if_true, Bool.false_eq_true, if_false]
  exact clampAxis32_of_mem true _ (by rw [F32.toRat_fin_true]; norm_num)
    (by rw [F32.toRat_fin_true]; norm_num)

/-! ## Results in binary32: monotonicity of the calibrated transform -/

theorem calibrate32_eq_rescale32 (a : AxisCalibration32) (raw : F32) :
    calibrate32 a raw = clampAxis32 (rescale32 (F32.sub a.minPositive a.zero)
      (F32.add a.minNegative a.zero)
      (F32.div hundred32
        (F32.sub (F32.sub a.maxPositive a.zero) (F32.sub a.minPositive a.zero)))
      (F32.div (F32.neg hundred32)
        (F32.sub (F32.add a.maxNegative a.zero) (F32.add a.minNegative a.zero)))
      (F32.sub raw a.zero)) :=
  rfl

namespace F32

theorem ord_fin (s : Bool) (m : ℚ) : ord (fin s m) = toRat (fin s m) := rfl

theorem ord_round (s : Bool) (q : ℚ) :
    ord (round s q) = if s then -(min (roundMagnitude q) (2 ^ 128))
      else min (roundMagnitude q) (2 ^ 128) := by
  unfold round
  by_cases h : roundMagnitude q < 2 ^ 128
  · rw [if_pos h, min_eq_left (le_of_lt h)]
    rfl
  · rw [if_neg h, min_eq_right (not_lt.mp h)]
    rfl

theorem regular_round (s : Bool) (q : ℚ) (hq : 0 ≤ q) : Regular (round s q) := by
  unfold round
  by_cases h : roundMagnitude q < 2 ^ 128
  · rw [if_pos h]
    exact ⟨roundMagnitude_nonneg q hq, h⟩
  · rw [if_neg h]
    trivial

theorem capped_nonneg (q : ℚ) (hq : 0 ≤ q) : 0 ≤ min (roundMagnitude q) (2 ^ 128) :=
  le_min (roundMagnitude_nonneg q hq) (by norm_num)

theorem capped_mono (q1 q2 : ℚ) (h0 : 0 ≤ q1) (h : q1 ≤ q2) :
    min (roundMagnitude q1) (2 ^ 128) ≤ min (roundMagnitude q2) (2 ^ 128) :=
  min_le_min (roundMagnitude_mono q1 q2 h0 h) (le_refl _)

theorem ord_ofRat (q : ℚ) :
    ord (ofRat q) = if q < 0 then -(min (roundMagnitude (-q)) (2 ^ 128))
      else min (roundMagnitude q) (2 ^ 128) := by
  by_cases h : q < 0
  · rw [ofRat_of_neg q h, ord_round, if_pos h]
    simp
  · rw [ofRat_of_nonneg q (not_lt.mp h), ord_round, if_neg h]
    simp

theorem ord_ofRat_zero : ord (ofRat 0) = 0 := by
  rw [ord_ofRat, if_neg (lt_irrefl _), roundMagnitude_zero]
  norm_num

theorem ord_ofRat_nonneg (q : ℚ) (h : 0 ≤ q) : 0 ≤ ord (ofRat q) := by
  rw [ord_ofRat, if_neg (not_lt.mpr h)]
  exact capped_nonneg q h

theorem ord_ofRat_nonpos (q : ℚ) (h : q ≤ 0) : ord (ofRat q) ≤ 0 := by
  rcases eq_or_lt_of_le h with h0 | hneg
  · rw [h0, ord_ofRat_zero]
  · rw [ord_ofRat, if_pos hneg]
    have := capped_nonneg (-q) (by linarith)
    linarith

/-- Rounding to binary32 is monotone. -/
theorem ord_ofRat_mono (q1 q2 : ℚ) (h : q1 ≤ q2) : ord (ofRat q1) ≤ ord (ofRat q2) := by
  by_cases h1 : q1 < 0
  · by_cases h2 : q2 < 0
    · rw [ord_ofRat, ord_ofRat, if_pos h1, if_pos h2]
      have := capped_mono (-q2) (-q1) (by linarith) (by linarith)
      linarith
    · exact le_trans (ord_ofRat_nonpos q1 (le_of_lt h1)) (ord_ofRat_nonneg q2 (not_lt.mp h2))
  · have h2 : ¬ q2 < 0 := by
      intro hc
      exact h1 (lt_of_le_of_lt h hc)
    rw [ord_ofRat, ord_ofRat, if_neg h1, if_neg h2]
    exact capped_mono q1 q2 (not_lt.mp h1) h

theorem ord_add_fin (s t : Bool) (x y : ℚ) :
    ord (add (fin s x) (fin t y)) = ord (ofRat (toRat (fin s x) + toRat (fin t y))) := by
  rw [add_fin_fin]
  by_cases h : toRat (fin s x) + toRat (fin t y) = 0
  · rw [if_pos h, h, ord_ofRat_zero, ord_fin]
    cases (s && t) <;> simp [toRat]
  · rw [if_neg h]

theorem regular_add_fin (s t : Bool) (x y : ℚ) : Regular (add (fin s x) (fin t y)) := by
  rw [add_fin_fin]
  by_cases h : toRat (fin s x) + toRat (fin t y) = 0
  · rw [if_pos h]
    exact ⟨le_refl _, by norm_num⟩
  · rw [if_neg h]
    exact regular_round _ _ (abs_nonneg _)

theorem regular_of_add_eq_fin (x y : F32) (s : Bool) (m : ℚ) (h : add x y = fin s m) :
    Regular (fin s m) := by
  cases x with
  | nan => exact absurd h (by simp [add])
  | inf u =>
    cases y with
    | nan => exact absurd h (by simp [add])
    | inf v =>
      have : add (inf u) (inf v) = if u = v then inf u else nan := rfl
      rw [this] at h
      split_ifs at h
    | fin v b => exact absurd h (by simp [add])
  | fin u a =>
    cases y with
    | nan => exact absurd h (by simp [add])
    | inf v => exact absurd h (by simp [add])
    | fin v b =>
      rw [← h]
      exact regular_add_fin u v a b

theorem regular_of_sub_eq_fin (x y : F32) (s : Bool) (m : ℚ) (h : sub x y = fin s m) :
    Regular (fin s m) :=
  regular_of_add_eq_fin x (neg y) s m h

theorem ord_mul_fin (s : Bool) (x f : ℚ) (hx : 0 ≤ x) (hf : 0 ≤ f) :
    ord (mul (fin s x) (fin false f)) = ord (ofRat (toRat (fin s x) * f)) := by
  rw [mul_fin_fin, xor_false_right]
  have hxf : 0 ≤ x * f := mul_nonneg hx hf
  cases s
  · rw [toRat_fin_false, ofRat_of_nonneg _ hxf]
  · rw [toRat_fin_true]
    rcases eq_or_lt_of_le hxf with h0 | hpos
    · rw [neg_mul, ← h0, neg_zero, ord_ofRat_zero, ord_round, roundMagnitude_zero]
      norm_num
    · rw [ofRat_of_neg _ (by linarith), neg_mul, neg_neg]

theorem regular_mul_fin (s t : Bool) (x f : ℚ) (hx : 0 ≤ x) (hf : 0 ≤ f) :
    Regular (mul (fin s x) (fin t f)) := by
  rw [mul_fin_fin]
  exact regular_round _ _ (mul_nonneg hx hf)

theorem Regular.ord_le {x : F32} (h : Regular x) : ord x ≤ 2 ^ 128 := by
  cases x with
  | nan => exact absurd h id
  | inf s => cases s <;> simp [ord]
  | fin s m =>
    obtain ⟨h0, h1⟩ := h
    cases s
    · show m ≤ 2 ^ 128
      exact le_of_lt h1
    · show -m ≤ 2 ^ 128
      linarith

theorem Regular.neg_le_ord {x : F32} (h : Regular x) : -(2 ^ 128) ≤ ord x := by
  cases x with
  | nan => exact absurd h id
  | inf s => cases s <;> simp [ord]
  | fin s m =>
    obtain ⟨h0, h1⟩ := h
    cases s
    · show -(2 ^ 128) ≤ m
      linarith
    · show -(2 ^ 128) ≤ -m
      linarith

theorem Regular.ord_fin_lt {s : Bool} {m : ℚ} (h : Regular (fin s m)) :
    ord (fin s m) < 2 ^ 128 ∧ -(2 ^ 128) < ord (fin s m) := by
  obtain ⟨h0, h1⟩ := h
  cases s
  · exact ⟨h1, by show -(2 ^ 128) < m; linarith⟩
  · exact ⟨by show -m < 2 ^ 128; linarith, by show -(2 ^ 128) < -m; linarith⟩

theorem ord_inf_false : ord (inf false) = 2 ^ 128 := by
  simp [ord]

theorem ord_inf_true : ord (inf true) = -(2 ^ 128) := by
  simp [ord]

/-- On regular values the comparison is the comparison of the positions. -/
theorem Regular.lt_eq {x y : F32} (hx : Regular x) (hy : Regular y) :
    lt x y = decide (ord x < ord y) := by
  cases x with
  | nan => exact absurd hx id
  | inf s =>
    cases y with
    | nan => exact absurd hy id
    | inf t => cases s <;> cases t <;> simp [lt, ord]
    | fin t b =>
      obtain ⟨h1, h2⟩ := hy.ord_fin_lt
      cases s
      · rw [ord_inf_false]
        show false = _
        rw [eq_comm, decide_eq_false_iff_not]
        linarith
      · rw [ord_inf_true]
        show true = _
        rw [eq_comm, decide_eq_true_eq]
        exact h2
  | fin s a =>
    cases y with
    | nan => exact absurd hy id
    | inf t =>
      obtain ⟨h1, h2⟩ := hx.ord_fin_lt
      cases t
      · rw [ord_inf_false]
        show true = _
        rw [eq_comm, decide_eq_true_eq]
        exact h1
      · rw [ord_inf_true]
        show false = _
        rw [eq_comm, decide_eq_false_iff_not]
        linarith
    | fin t b => rfl

/-- A map that is monotone on the finite regular values, sends them to regular values and
fixes the infinities is monotone on all regular values. -/
theorem Regular.mono_of_fin (g : F32 → F32)
    (hreg : ∀ s m, Regular (fin s m) → Regular (g (fin s m)))
    (hinf : ∀ s, g (inf s) = inf s)
    (hfin : ∀ s1 m1 s2 m2, Regular (fin s1 m1) → Regular (fin s2 m2) →
      ord (fin s1 m1) ≤ ord (fin s2 m2) → ord (g (fin s1 m1)) ≤ ord (g (fin s2 m2)))
    (x y : F32) (hx : Regular x) (hy : Regular y) (h : ord x ≤ ord y) :
    ord (g x) ≤ ord (g y) := by
  cases x with
  | nan => exact absurd hx id
  | inf s =>
    cases s
    · cases y with
      | nan => exact absurd hy id
      | inf t =>
        cases t
        · exact le_refl _
        · rw [ord_inf_false, ord_inf_true] at h
          norm_num at h
      | fin t b =>
        have := hy.ord_fin_lt.1
        rw [ord_inf_false] at h
        linarith
    · rw [hinf true, ord_inf_true]
      cases y with
      | nan => exact absurd hy id
      | inf t => rw [hinf t]; cases t <;> simp [ord]
      | fin t b => exact (hreg t b hy).neg_le_ord
  | fin s a =>
    cases y with
    | nan => exact absurd hy id
    | inf t =>
      cases t
      · rw [hinf false, ord_inf_false]
        exact (hreg s a hx).ord_le
      · have := hx.ord_fin_lt.2
        rw [ord_inf_true] at h
        linarith
    | fin t b => exact hfin s a t b hx hy h

theorem sub_inf_fin (s t : Bool) (y : ℚ) : sub (inf s) (fin t y) = inf s := rfl

theorem Regular.sub_regular {x : F32} (hx : Regular x) (t : Bool) (y : ℚ) :
    Regular (sub x (fin t y)) := by
  cases x with
  | nan => exact absurd hx id
  | inf s => trivial
  | fin s a => exact regular_add_fin _ _ _ _

theorem ord_sub_fin (s t : Bool) (x y : ℚ) :
    ord (sub (fin s x) (fin t y)) = ord (ofRat (toRat (fin s x) - toRat (fin t y))) := by
  rw [sub_fin, ord_add_fin]
  have : toRat (fin (!t) y) = -toRat (fin t y) := toRat_neg (fin t y)
  rw [this, sub_eq_add_neg]

/-- Subtracting a fixed finite value is monotone. -/
theorem Regular.sub_mono (t : Bool) (c : ℚ) (x y : F32) (hx : Regular x) (hy : Regular y)
    (h : ord x ≤ ord y) : ord (sub x (fin t c)) ≤ ord (sub y (fin t c)) := by
  apply Regular.mono_of_fin (fun v => sub v (fin t c)) _ _ _ x y hx hy h
  · intro s m _
    exact regular_add_fin _ _ _ _
  · intro s
    rfl
  · intro s1 m1 s2 m2 _ _ h12
    show ord (sub (fin s1 m1) (fin t c)) ≤ ord (sub (fin s2 m2) (fin t c))
    rw [ord_sub_fin, ord_sub_fin]
    apply ord_ofRat_mono
    rw [ord_fin, ord_fin] at h12
    linarith

theorem mul_inf_fin (s : Bool) (f : ℚ) (hf : f ≠ 0) : mul (inf s) (fin false f) = inf s := by
  show (if f = 0 then nan else inf (xor s false)) = inf s
  rw [if_neg hf, xor_false_right]

theorem Regular.mul_pos {x : F32} (hx : Regular x) (f : ℚ) (hf : 0 < f) :
    Regular (mul x (fin false f)) := by
  cases x with
  | nan => exact absurd hx id
  | inf s =>
    rw [mul_inf_fin s f (ne_of_gt hf)]
    trivial
  | fin s a => exact regular_mul_fin s false a f hx.1 (le_of_lt hf)

/-- Multiplying by a fixed positive finite value is monotone. -/
theorem Regular.mul_mono (f : ℚ) (hf : 0 < f) (x y : F32) (hx : Regular x) (hy : Regular y)
    (h : ord x ≤ ord y) : ord (mul x (fin false f)) ≤ ord (mul y (fin false f)) := by
  apply Regular.mono_of_fin (fun v => mul v (fin false f)) _ _ _ x y hx hy h
  · intro s m hm
    exact regular_mul_fin s false m f hm.1 (le_of_lt hf)
  · intro s
    exact mul_inf_fin s f (ne_of_gt hf)
  · intro s1 m1 s2 m2 h1 h2 h12
    show ord (mul (fin s1 m1) (fin false f)) ≤ ord (mul (fin s2 m2) (fin false f))
    rw [ord_mul_fin s1 m1 f h1.1 (le_of_lt hf), ord_mul_fin s2 m2 f h2.1 (le_of_lt hf)]
    apply ord_ofRat_mono
    rw [ord_fin, ord_fin] at h12
    exact mul_le_mul_of_nonneg_right h12 (le_of_lt hf)

theorem regular_zero : Regular (fin false 0) :=
  ⟨le_refl _, by norm_num⟩

theorem ord_mul_zero (f : ℚ) (hf : 0 < f) : ord (mul (fin false 0) (fin false f)) = 0 := by
  rw [ord_mul_fin false 0 f (le_refl _) (le_of_lt hf), toRat_fin_false, zero_mul,
    ord_ofRat_zero]

theorem Regular.ord_mul_nonneg {x : F32} (hx : Regular x) (f : ℚ) (hf : 0 < f)
    (h : 0 ≤ ord x) : 0 ≤ ord (mul x (fin false f)) := by
  have := Regular.mul_mono f hf (fin false 0) x regular_zero hx
    (by rw [ord_fin, toRat_fin_false]; exact h)
  rw [ord_mul_zero f hf] at this
  exact this

theorem Regular.ord_mul_nonpos {x : F32} (hx : Regular x) (f : ℚ) (hf : 0 < f)
    (h : ord x ≤ 0) : ord (mul x (fin false f)) ≤ 0 := by
  have := Regular.mul_mono f hf x (fin false 0) hx regular_zero
    (by rw [ord_fin, toRat_fin_false]; exact h)
  rw [ord_mul_zero f hf] at this
  exact this

theorem ord_sub_self (t : Bool) (c : ℚ) : ord (sub (fin t c) (fin t c)) = 0 := by
  rw [ord_sub_fin, sub_self, ord_ofRat_zero]

end F32

theorem rescale32_pos_dead (p q fp fn n : F32) (h1 : F32.lt zero32 n = true)
    (h2 : F32.lt n p = true) : rescale32 p q fp fn n = zero32 := by
  unfold rescale32
  rw [if_pos h1, if_pos h2]

theorem rescale32_pos (p q fp fn n : F32) (h1 : F32.lt zero32 n = true)
    (h2 : F32.lt n p = false) : rescale32 p q fp fn n = F32.mul (F32.sub n p) fp := by
  unfold rescale32
  rw [if_pos h1, h2]
  simp

theorem rescale32_neg_dead (p q fp fn n : F32) (h0 : F32.lt zero32 n = false)
    (h1 : F32.lt n zero32 = true) (h2 : F32.lt q n = true) :
    rescale32 p q fp fn n = zero32 := by
  unfold rescale32
  rw [h0, if_pos h1, if_pos h2]
  simp

theorem rescale32_neg (p q fp fn n : F32) (h0 : F32.lt zero32 n = false)
    (h1 : F32.lt n zero32 = true) (h2 : F32.lt q n = false) :
    rescale32 p q fp fn n = F32.mul (F32.sub n q) fn := by
  unfold rescale32
  rw [h0, if_pos h1, h2]
  simp

theorem rescale32_zero (p q fp fn n : F32) (h0 : F32.lt zero32 n = false)
    (h1 : F32.lt n zero32 = false) : rescale32 p q fp fn n = n := by
  unfold rescale32
  rw [h0, h1]
  simp

theorem ord_zero32 : F32.ord zero32 = 0 := rfl

theorem regular_zero32 : F32.Regular zero32 := F32.regular_zero

/-- With finite thresholds and finite positive scale factors the rescaled value is regular
and has the sign of the offset reading. -/
theorem rescale32_sign (sp sn : Bool) (p m fp fn : ℚ) (hp : F32.Regular (F32.fin sp p))
    (hm : F32.Regular (F32.fin sn m)) (hfp : 0 < fp) (hfn : 0 < fn) (n : F32)
    (hn : F32.Regular n) :
    F32.Regular (rescale32 (F32.fin sp p) (F32.fin sn m) (F32.fin false fp) (F32.fin false fn) n)
      ∧ (0 ≤ F32.ord n → 0 ≤ F32.ord
          (rescale32 (F32.fin sp p) (F32.fin sn m) (F32.fin false fp) (F32.fin false fn) n))
      ∧ (F32.ord n ≤ 0 → F32.ord
          (rescale32 (F32.fin sp p) (F32.fin sn m) (F32.fin false fp) (F32.fin false fn) n)
            ≤ 0) := by
  have l0 := F32.Regular.lt_eq regular_zero32 hn
  have l1 := F32.Regular.lt_eq hn regular_zero32
  have lp := F32.Regular.lt_eq hn hp
  have lm := F32.Regular.lt_eq hm hn
  rw [ord_zero32] at l0 l1
  by_cases hpos : 0 < F32.ord n
  · have c1 : F32.lt zero32 n = true := by rw [l0, decide_eq_true_eq]; exact hpos
    by_cases hdead : F32.ord n < F32.ord (F32.fin sp p)
    · rw [rescale32_pos_dead _ _ _ _ _ c1 (by rw [lp, decide_eq_true_eq]; exact hdead)]
      exact ⟨regular_zero32, fun _ => le_of_eq ord_zero32.symm, fun _ => le_of_eq ord_zero32⟩
    · rw [rescale32_pos _ _ _ _ _ c1 (by rw [lp, decide_eq_false_iff_not]; exact hdead)]
      have hd : F32.Regular (F32.sub n (F32.fin sp p)) := hn.sub_regular sp p
      have hd0 : 0 ≤ F32.ord (F32.sub n (F32.fin sp p)) := by
        have := F32.Regular.sub_mono sp p (F32.fin sp p) n hp hn (not_lt.mp hdead)
        rw [F32.ord_sub_self] at this
        exact this
      refine ⟨hd.mul_pos fp hfp, fun _ => hd.ord_mul_nonneg fp hfp hd0, fun h => ?_⟩
      linarith
  · by_cases hneg : F32.ord n < 0
    · have c0 : F32.lt zero32 n = false := by rw [l0, decide_eq_false_iff_not]; exact hpos
      have c1 : F32.lt n zero32 = true := by rw [l1, decide_eq_true_eq]; exact hneg
      by_cases hdead : F32.ord (F32.fin sn m) < F32.ord n
      · rw [rescale32_neg_dead _ _ _ _ _ c0 c1 (by rw [lm, decide_eq_true_eq]; exact hdead)]
        exact ⟨regular_zero32, fun _ => le_of_eq ord_zero32.symm, fun _ => le_of_eq ord_zero32⟩
      · rw [rescale32_neg _ _ _ _ _ c0 c1 (by rw [lm, decide_eq_false_iff_not]; exact hdead)]
        have hd : F32.Regular (F32.sub n (F32.fin sn m)) := hn.sub_regular sn m
        have hd0 : F32.ord (F32.sub n (F32.fin sn m)) ≤ 0 := by
          have := F32.Regular.sub_mono sn m n (F32.fin sn m) hn hm (not_lt.mp hdead)
          rw [F32.ord_sub_self] at this
          exact this
        refine ⟨hd.mul_pos fn hfn, fun h => ?_, fun _ => hd.ord_mul_nonpos fn hfn hd0⟩
        linarith
    · have c0 : F32.lt zero32 n = false := by rw [l0, decide_eq_false_iff_not]; exact hpos
      have c1 : F32.lt n zero32 = false := by rw [l1, decide_eq_false_iff_not]; exact hneg
      rw [rescale32_zero _ _ _ _ _ c0 c1]
      exact ⟨hn, fun h => h, fun h => h⟩

/-- With finite thresholds and finite positive scale factors the rescaled value is a
monotone function of the offset reading. -/
theorem rescale32_mono (sp sn : Bool) (p m fp fn : ℚ) (hp : F32.Regular (F32.fin sp p))
    (hm : F32.Regular (F32.fin sn m)) (hfp : 0 < fp) (hfn : 0 < fn) (n1 n2 : F32)
    (h1 : F32.Regular n1) (h2 : F32.Regular n2) (h12 : F32.ord n1 ≤ F32.ord n2) :
    F32.ord (rescale32 (F32.fin sp p) (F32.fin sn m) (F32.fin false fp) (F32.fin false fn) n1)
      ≤ F32.ord
        (rescale32 (F32.fin sp p) (F32.fin sn m) (F32.fin false fp) (F32.fin false fn) n2) := by
  obtain ⟨_, s1a, s1b⟩ := rescale32_sign sp sn p m fp fn hp hm hfp hfn n1 h1
  obtain ⟨_, s2a, s2b⟩ := rescale32_sign sp sn p m fp fn hp hm hfp hfn n2 h2
  by_cases hpos : 0 < F32.ord n1
  · have hpos2 : 0 < F32.ord n2 := lt_of_lt_of_le hpos h12
    have c1 : F32.lt zero32 n1 = true := by
      rw [F32.Regular.lt_eq regular_zero32 h1, ord_zero32, decide_eq_true_eq]; exact hpos
    have c2 : F32.lt zero32 n2 = true := by
      rw [F32.Regular.lt_eq regular_zero32 h2, ord_zero32, decide_eq_true_eq]; exact hpos2
    by_cases hdead : F32.ord n1 < F32.ord (F32.fin sp p)
    · rw [rescale32_pos_dead _ _ _ _ n1 c1
        (by rw [F32.Regular.lt_eq h1 hp, decide_eq_true_eq]; exact hdead), ord_zero32]
      exact s2a (le_of_lt hpos2)
    · have hdead2 : ¬ F32.ord n2 < F32.ord (F32.fin sp p) := by
        intro hc
        exact hdead (lt_of_le_of_lt h12 hc)
      rw [rescale32_pos _ _ _ _ n1 c1
          (by rw [F32.Regular.lt_eq h1 hp, decide_eq_false_iff_not]; exact hdead),
        rescale32_pos _ _ _ _ n2 c2
          (by rw [F32.Regular.lt_eq h2 hp, decide_eq_false_iff_not]; exact hdead2)]
      exact F32.Regular.mul_mono fp hfp _ _ (h1.sub_regular sp p) (h2.sub_regular sp p)
        (F32.Regular.sub_mono sp p n1 n2 h1 h2 h12)
  · by_cases hneg : F32.ord n2 < 0
    · have hneg1 : F32.ord n1 < 0 := lt_of_le_of_lt h12 hneg
      have a1 : F32.lt zero32 n1 = false := by
        rw [F32.Regular.lt_eq regular_zero32 h1, ord_zero32, decide_eq_false_iff_not]
        exact hpos
      have a2 : F32.lt zero32 n2 = false := by
        rw [F32.Regular.lt_eq regular_zero32 h2, ord_zero32, decide_eq_false_iff_not]
        linarith
      have c1 : F32.lt n1 zero32 = true := by
        rw [F32.Regular.lt_eq h1 regular_zero32, ord_zero32, decide_eq_true_eq]; exact hneg1
      have c2 : F32.lt n2 zero32 = true := by
        rw [F32.Regular.lt_eq h2 regular_zero32, ord_zero32, decide_eq_true_eq]; exact hneg
      by_cases hdead : F32.ord (F32.fin sn m) < F32.ord n2
      · rw [rescale32_neg_dead _ _ _ _ n2 a2 c2
          (by rw [F32.Regular.lt_eq hm h2, decide_eq_true_eq]; exact hdead), ord_zero32]
        exact s1b (le_of_lt hneg1)
      · have hdead1 : ¬ F32.ord (F32.fin sn m) < F32.ord n1 := by
          intro hc
          exact hdead (lt_of_lt_of_le hc h12)
        rw [rescale32_neg _ _ _ _ n1 a1 c1
            (by rw [F32.Regular.lt_eq hm h1, decide_eq_false_iff_not]; exact hdead1),
          rescale32_neg _ _ _ _ n2 a2 c2
            (by rw [F32.Regular.lt_eq hm h2, decide_eq_false_iff_not]; exact hdead)]
        exact F32.Regular.mul_mono fn hfn _ _ (h1.sub_regular sn m) (h2.sub_regular sn m)
          (F32.Regular.sub_mono sn m n1 n2 h1 h2 h12)
    · exact le_trans (s1b (not_lt.mp hpos)) (s2a (not_lt.mp hneg))

/-- The final clamp of a regular value is finite, at the position clamped to
`[-100, 100]`. -/
theorem clampAxis32_regular (y : F32) (hy : F32.Regular y) :
    ∃ s v, clampAxis32 y = F32.fin s v ∧
      F32.toRat (F32.fin s v) = max (-100) (min (F32.ord y) 100) := by
  cases y with
  | nan => exact absurd hy id
  | inf t =>
    cases t
    · refine ⟨false, 100, rfl, ?_⟩
      rw [F32.ord_inf_false, F32.toRat_fin_false]
      norm_num
    · refine ⟨true, 100, rfl, ?_⟩
      rw [F32.ord_inf_true, F32.toRat_fin_true]
      norm_num
  | fin t b =>
    rw [F32.ord_fin]
    by_cases h1 : 100 < F32.toRat (F32.fin t b)
    · refine ⟨false, 100, ?_, ?_⟩
      · have e : F32.lt hundred32 (F32.fin t b) = true := by
          show F32.lt (F32.fin false 100) (F32.fin t b) = true
          rw [F32.lt_fin, F32.toRat_fin_false, decide_eq_true_eq]
          exact h1
        unfold clampAxis32
        rw [if_pos e]
        rfl
      · rw [F32.toRat_fin_false, min_eq_right (le_of_lt h1)]
        norm_num
    · by_cases h2 : F32.toRat (F32.fin t b) < -100
      · refine ⟨true, 100, ?_, ?_⟩
        · have e1 : F32.lt hundred32 (F32.fin t b) = false := by
            show F32.lt (F32.fin false 100) (F32.fin t b) = false
            rw [F32.lt_fin, F32.toRat_fin_false, decide_eq_false_iff_not]
            exact h1
          have e2 : F32.lt (F32.fin t b) (F32.neg hundred32) = true := by
            rw [neg_hundred32_eq, F32.lt_fin, F32.toRat_fin_true, decide_eq_true_eq]
            exact h2
          unfold clampAxis32
          rw [e1, if_pos e2]
          rfl
        · rw [F32.toRat_fin_true, min_eq_left (by linarith), max_eq_left (le_of_lt h2)]
      · refine ⟨t, b, clampAxis32_of_mem t b (not_lt.mp h2) (not_lt.mp h1), ?_⟩
        rw [min_eq_left (not_lt.mp h1), max_eq_right (not_lt.mp h2)]

/-- C19 (amended): the calibrated transform is monotone, and has the sign of
`raw - zero`, when the computed thresholds `minPositive - zero` and `minNegative + zero`
are finite and the two computed scale factors `100.f / (maxPositive' - minPositive')` and
`-100.f / (maxNegative' - minNegative')` are finite and positive.  Then for finite raw
readings `r1 ≤ r2` both results are finite and the first is at most the second; the result
is `≥ 0` for `raw ≥ zero` and `≤ 0` for `raw ≤ zero`.  The order of the fields alone does
not give this: a computed range can collapse to zero width, its scale factor is then an
infinity of either sign. -/
theorem calibrate32_monotone (a : AxisCalibration32) (s1 s2 sz sp sn : Bool)
    (x1 x2 z p m fp fn : ℚ)
    (hz : a.zero = F32.fin sz z)
    (hP : F32.sub a.minPositive a.zero = F32.fin sp p)
    (hN : F32.add a.minNegative a.zero = F32.fin sn m)
    (hfP : F32.div hundred32
      (F32.sub (F32.sub a.maxPositive a.zero) (F32.sub a.minPositive a.zero))
        = F32.fin false fp)
    (hfp : 0 < fp)
    (hfN : F32.div (F32.neg hundred32)
      (F32.sub (F32.add a.maxNegative a.zero) (F32.add a.minNegative a.zero))
        = F32.fin false fn)
    (hfn : 0 < fn)
    (h12 : F32.toRat (F32.fin s1 x1) ≤ F32.toRat (F32.fin s2 x2)) :
    ∃ t1 v1 t2 v2, calibrate32 a (F32.fin s1 x1) = F32.fin t1 v1 ∧
      calibrate32 a (F32.fin s2 x2) = F32.fin t2 v2 ∧
      F32.toRat (F32.fin t1 v1) ≤ F32.toRat (F32.fin t2 v2) ∧
      (F32.toRat (F32.fin sz z) ≤ F32.toRat (F32.fin s1 x1) → 0 ≤ F32.toRat (F32.fin t1 v1)) ∧
      (F32.toRat (F32.fin s1 x1) ≤ F32.toRat (F32.fin sz z) → F32.toRat (F32.fin t1 v1) ≤ 0) := by
  have hp : F32.Regular (F32.fin sp p) := F32.regular_of_sub_eq_fin _ _ _ _ hP
  have hm : F32.Regular (F32.fin sn m) := F32.regular_of_add_eq_fin _ _ _ _ hN
  have hn1 : F32.Regular (F32.sub (F32.fin s1 x1) (F32.fin sz z)) := F32.regular_add_fin _ _ _ _
  have hn2 : F32.Regular (F32.sub (F32.fin s2 x2) (F32.fin sz z)) := F32.regular_add_fin _ _ _ _
  have hord : F32.ord (F32.sub (F32.fin s1 x1) (F32.fin sz z))
      ≤ F32.ord (F32.sub (F32.fin s2 x2) (F32.fin sz z)) := by
    rw [F32.ord_sub_fin, F32.ord_sub_fin]
    apply F32.ord_ofRat_mono
    linarith
  obtain ⟨r1, sa, sb⟩ := rescale32_sign sp sn p m fp fn hp hm hfp hfn _ hn1
  obtain ⟨r2, _, _⟩ := rescale32_sign sp sn p m fp fn hp hm hfp hfn _ hn2
  have hmono := rescale32_mono sp sn p m fp fn hp hm hfp hfn _ _ hn1 hn2 hord
  obtain ⟨t1, v1, e1, w1⟩ := clampAxis32_regular _ r1
  obtain ⟨t2, v2, e2, w2⟩ := clampAxis32_regular _ r2
  refine ⟨t1, v1, t2, v2, ?_, ?_, ?_, ?_, ?_⟩
  · rw [calibrate32_eq_rescale32, hfP, hfN, hP, hN, hz]
    exact e1
  · rw [calibrate32_eq_rescale32, hfP, hfN, hP, hN, hz]
    exact e2
  · rw [w1, w2]
    exact max_le_max (le_refl _) (min_le_min hmono (le_refl _))
  · intro h
    have h0 : 0 ≤ F32.ord (F32.sub (F32.fin s1 x1) (F32.fin sz z)) := by
      rw [F32.ord_sub_fin]
      exact F32.ord_ofRat_nonneg _ (by linarith)
    rw [w1]
    exact le_max_of_le_right (le_min (sa h0) (by norm_num))
  · intro h
    have h0 : F32.ord (F32.sub (F32.fin s1 x1) (F32.fin sz z)) ≤ 0 := by
      rw [F32.ord_sub_fin]
      exact F32.ord_ofRat_nonpos _ (by linarith)
    rw [w1]
    exact max_le (by norm_num) (le_trans (min_le_left _ _) (sb h0))

theorem F32.representable_hundred_ten : F32.Representable 110 := by
  simpa using F32.representable_natCast 110 (by norm_num)

/-- C19, witness: zero = 0, minPositive = 10, maxPositive = 110 and the default
negative side (both scale factors are `1.f`), with the raw readings 20 and 60. -/
theorem calibrate32_monotone_witness :
    ∃ t1 v1 t2 v2,
      calibrate32 { minPositive := F32.fin false 10, maxPositive := F32.fin false 110 }
        (F32.fin false 20) = F32.fin t1 v1 ∧
      calibrate32 { minPositive := F32.fin false 10, maxPositive := F32.fin false 110 }
        (F32.fin false 60) = F32.fin t2 v2 ∧
      F32.toRat (F32.fin t1 v1) ≤ F32.toRat (F32.fin t2 v2) ∧
      (F32.toRat (F32.fin false 0) ≤ F32.toRat (F32.fin false 20) →
        0 ≤ F32.toRat (F32.fin t1 v1)) ∧
      (F32.toRat (F32.fin false 20) ≤ F32.toRat (F32.fin false 0) →
        F32.toRat (F32.fin t1 v1) ≤ 0) := by
  have hP : F32.sub (F32.fin false 10) (F32.fin false 0) = F32.fin false 10 :=
    F32.sub_zero_right false 10 F32.representable_ten
  have hN : F32.add (F32.fin false 0) (F32.fin false 0) = F32.fin false 0 :=
    F32.add_eq_zero _ _ _ _ (by norm_num [F32.toRat])
  have hmaxP : F32.sub (F32.fin false 110) (F32.fin false 0) = F32.fin false 110 :=
    F32.sub_zero_right false 110 F32.representable_hundred_ten
  have hw : F32.sub (F32.fin false 110) (F32.fin false 10) = F32.fin false 100 :=
    F32.sub_eq_round _ _ false _ _ 100 _ (by norm_num [F32.toRat]) (by norm_num)
      F32.representable_hundred.2.1 (by norm_num)
  have hmaxN : F32.add (F32.fin true 100) (F32.fin false 0) = F32.fin true 100 :=
    F32.add_zero_right true 100 F32.representable_hundred (by norm_num)
  have hwn : F32.sub (F32.fin true 100) (F32.fin false 0) = F32.fin true 100 :=
    F32.sub_zero_right true 100 F32.representable_hundred
  exact calibrate32_monotone
    { minPositive := F32.fin false 10, maxPositive := F32.fin false 110 }
    false false false false false 20 60 0 10 0 1 1 rfl hP hN
    (by
      show F32.div hundred32 (F32.sub (F32.sub (F32.fin false 110) (F32.fin false 0))
        (F32.sub (F32.fin false 10) (F32.fin false 0))) = F32.fin false 1
      rw [hmaxP, hP, hw]
      exact F32.div_hundred_hundred false false)
    (by norm_num)
    (by
      show F32.div (F32.neg hundred32) (F32.sub (F32.add (F32.fin true 100) (F32.fin false 0))
        (F32.add (F32.fin false 0) (F32.fin false 0))) = F32.fin false 1
      rw [hmaxN, hN, hwn]
      exact F32.div_hundred_hundred true true)
    (by norm_num)
    (by rw [F32.toRat_fin_false, F32.toRat_fin_false]; norm_num)

/-- The difference `10^10 - c` with `0 ≤ c < 512` rounds to `10^10`. -/
theorem F32.roundMagnitude_absorbed_sub (c : ℚ) (h0 : 0 ≤ c) (h1 : c < 512) :
    F32.roundMagnitude (10000000000 - c) = 10000000000 := by
  have h := F32.roundMagnitude_of_near (10000000000 - c) 33 9765625 (by norm_num)
    (by norm_num; linarith) (by norm_num; linarith)
    (by
      rw [abs_lt]
      norm_num
      constructor <;> linarith)
  rw [h]
  norm_num

theorem F32.representable_ten_pow_ten : F32.Representable 10000000000 :=
  F32.representable_of_eq _ 9765625 10 (by norm_num) (by norm_num) (by norm_num) (by norm_num)

/-- C19, counterexample: zero = 1e10 with the default bounds (`minPositive = 0 <
maxPositive = 100`, `maxNegative = -100 < minNegative = 0`).  Both negative thresholds
`minNegative + zero` and `maxNegative + zero` round to `1e10`, the negative range has width
0 and its scale factor is `-100.f / 0.f = -inf`.  The raw reading -50, below zero, gives
`-2e10 * -inf = +inf`, clamped to +100, while the larger raw reading 1e10 gives 0. -/
theorem calibrate32_monotone_counterexample :
    calibrate32 { zero := F32.fin false 10000000000 } (F32.fin true 50) = hundred32 ∧
    calibrate32 { zero := F32.fin false 10000000000 } (F32.fin false 10000000000) = zero32 ∧
    ((-50 : ℚ) ≤ 10000000000 ∧ (0 : ℚ) < 100 ∧ (-100 : ℚ) < 0) := by
  have hminN : F32.add (F32.fin false 0) (F32.fin false 10000000000)
      = F32.fin false 10000000000 :=
    F32.add_eq_round _ _ false _ _ 10000000000 _ (by norm_num [F32.toRat]) (by norm_num)
      F32.representable_ten_pow_ten.2.1 (by norm_num)
  have hmaxN : F32.add (F32.fin true 100) (F32.fin false 10000000000)
      = F32.fin false 10000000000 :=
    F32.add_eq_round _ _ false _ _ (10000000000 - 100) _ (by norm_num [F32.toRat])
      (by norm_num) (F32.roundMagnitude_absorbed_sub 100 (by norm_num) (by norm_num))
      (by norm_num)
  have hw : F32.sub (F32.fin false 10000000000) (F32.fin false 10000000000)
      = F32.fin false 0 :=
    F32.sub_eq_zero _ _ _ _ (by norm_num [F32.toRat])
  refine ⟨?_, ?_, by norm_num⟩
  · have hn : F32.sub (F32.fin true 50) (F32.fin false 10000000000)
        = F32.fin true 10000000000 :=
      F32.sub_eq_round _ _ true _ _ (10000000000 + 50) _ (by norm_num [F32.toRat])
        (by norm_num) (F32.roundMagnitude_absorbed 50 (by norm_num) (by norm_num))
        (by norm_num)
    have hd : F32.sub (F32.fin true 10000000000) (F32.fin false 10000000000)
        = F32.fin true 20000000000 :=
      F32.sub_eq_round _ _ true _ _ 20000000000 _ (by norm_num [F32.toRat]) (by norm_num)
        (F32.representable_of_eq _ 9765625 11 (by norm_num) (by norm_num) (by norm_num)
          (by norm_num)).2.1
        (by norm_num)
    have hfn : F32.div (F32.neg hundred32) (F32.fin false 0) = F32.inf true := by
      show (if (0 : ℚ) = 0 then (if (100 : ℚ) = 0 then F32.nan else F32.inf (xor true false))
        else F32.round (xor true false) (100 / 0)) = F32.inf true
      rw [if_pos rfl, if_neg (by norm_num)]
      rfl
    have hmul : F32.mul (F32.fin true 20000000000) (F32.inf true) = F32.inf false := by
      show (if (20000000000 : ℚ) = 0 then F32.nan else F32.inf (xor true true)) = F32.inf false
      rw [if_neg (by norm_num)]
      rfl
    have c0 : F32.lt zero32 (F32.fin true 10000000000) = false := by
      show F32.lt (F32.fin false 0) (F32.fin true 10000000000) = false
      rw [F32.lt_fin, F32.toRat_fin_false, F32.toRat_fin_true, decide_eq_false_iff_not]
      norm_num
    have c1 : F32.lt (F32.fin true 10000000000) zero32 = true := by
      rw [F32.lt_zero32_fin, F32.toRat_fin_true, decide_eq_true_eq]
      norm_num
    have c2 : F32.lt (F32.fin false 10000000000) (F32.fin true 10000000000) = false := by
      rw [F32.lt_fin, F32.toRat_fin_false, F32.toRat_fin_true, decide_eq_false_iff_not]
      norm_num
    rw [calibrate32_eq_rescale32]
    show clampAxis32 (rescale32 _ (F32.add (F32.fin false 0) (F32.fin false 10000000000)) _
      (F32.div (F32.neg hundred32)
        (F32.sub (F32.add (F32.fin true 100) (F32.fin false 10000000000))
          (F32.add (F32.fin false 0) (F32.fin false 10000000000))))
      (F32.sub (F32.fin true 50) (F32.fin false 10000000000))) = hundred32
    rw [hn, hminN, hmaxN, hw, hfn, rescale32_neg _ _ _ _ _ c0 c1 c2, hd, hmul]
    rfl
  · have c0 : F32.lt zero32 (F32.fin false 0) = false := by
      show F32.lt (F32.fin false 0) (F32.fin false 0) = false
      rw [F32.lt_fin, decide_eq_false_iff_not]
      exact lt_irrefl _
    have c1 : F32.lt (F32.fin false 0) zero32 = false := c0
    rw [calibrate32_eq_rescale32]
    show clampAxis32 (rescale32 _ _ _ _
      (F32.sub (F32.fin false 10000000000) (F32.fin false 10000000000))) = zero32
    rw [hw, rescale32_zero _ _ _ _ _ c0 c1]
    exact clampAxis32_zero

/-! ### Rescale: the computed value against the formula -/

theorem F32.toRat_fin_sign (s : Bool) (m : ℚ) :
    F32.toRat (F32.fin s m) = (if s then -1 else 1) * m := by
  cases s <;> simp [F32.toRat]

theorem F32.sign_xor (s t : Bool) :
    (if xor s t then (-1 : ℚ) else 1) = (if s then -1 else 1) * (if t then -1 else 1) := by
  cases s <;> cases t <;> simp

/-- The difference of two finite values is the rounded exact difference, with its sign. -/
theorem F32.Denotes.sub_rounded {x y : F32} {a b : ℚ} (hx : F32.Denotes x a)
    (hy : F32.Denotes y b) (h : F32.roundMagnitude |a - b| < 2 ^ 128) :
    ∃ u, F32.sub x y = F32.fin u (F32.roundMagnitude |a - b|) ∧
      (if u then -1 else 1) * |a - b| = a - b := by
  obtain ⟨s, m, rfl, _, hm⟩ := hx.exists_eq
  obtain ⟨t, k, rfl, _, hk⟩ := hy.exists_eq
  by_cases h0 : a - b = 0
  · refine ⟨s && !t, ?_, ?_⟩
    · rw [F32.sub_eq_zero s t m k (by rw [hm, hk, h0]), h0, abs_zero, F32.roundMagnitude_zero]
    · rw [h0, abs_zero, mul_zero]
  · have hpos : 0 < |a - b| := abs_pos.mpr h0
    refine ⟨decide (a - b < 0), ?_, ?_⟩
    · exact F32.sub_eq_round s t (decide (a - b < 0)) m k |a - b| _
        (by rw [hm, hk, F32.toRat_fin_decide_abs]) hpos rfl h
    · rw [← F32.toRat_fin_sign, F32.toRat_fin_decide_abs]

/-- The clamp keeps a finite value as close to a value of `[-100, 100]` as it was. -/
theorem clampAxis32_error (s : Bool) (p V ε : ℚ) (hp : F32.Regular (F32.fin s p))
    (h1 : -100 ≤ V) (h2 : V ≤ 100) (h : |F32.toRat (F32.fin s p) - V| ≤ ε) :
    ∃ t v, clampAxis32 (F32.fin s p) = F32.fin t v ∧ |F32.toRat (F32.fin t v) - V| ≤ ε := by
  obtain ⟨t, v, hc, hv⟩ := clampAxis32_regular _ hp
  refine ⟨t, v, hc, ?_⟩
  rw [hv, F32.ord_fin]
  generalize F32.toRat (F32.fin s p) = r at h
  rw [abs_le] at h ⊢
  rcases le_total r 100 with hr | hr
  · rw [min_eq_left hr]
    rcases le_total (-100) r with hl | hl
    · rw [max_eq_right hl]
      exact h
    · rw [max_eq_left hl]
      constructor <;> linarith
  · rw [min_eq_right hr, max_eq_right (by norm_num)]
    constructor <;> linarith

/-- The rescale `(n - lo) * (c / (hi - lo))` of either side, for finite operands and
`c = ±100`: when the width `|hi - lo|` is between `2^-100` and `2^100` and `n - lo` is no
larger than it, the computed value is finite and within `2^-14` of the exact one. -/
theorem F32.Denotes.rescale_within {n lo hi c : F32} {vn vlo vhi vc : ℚ}
    (hn : F32.Denotes n vn) (hlo : F32.Denotes lo vlo) (hhi : F32.Denotes hi vhi)
    (hc : F32.Denotes c vc) (hvc : |vc| = 100) (hDW : |vn - vlo| ≤ |vhi - vlo|)
    (hW1 : 1 / 2 ^ 100 ≤ |vhi - vlo|) (hW2 : |vhi - vlo| ≤ 2 ^ 100) :
    ∃ s p, F32.mul (F32.sub n lo) (F32.div c (F32.sub hi lo)) = F32.fin s p ∧
      F32.Regular (F32.fin s p) ∧
      |F32.toRat (F32.fin s p) - (vn - vlo) * vc / (vhi - vlo)| ≤ 1 / 2 ^ 14 := by
  obtain ⟨hwpos, hw128, hd128, hf128, hp0, hp128, herr⟩ :=
    F32.rescale_error |vn - vlo| |vhi - vlo| (abs_nonneg _) hDW hW1 hW2
  obtain ⟨sd, hd, hsd⟩ := F32.Denotes.sub_rounded hn hlo hd128
  obtain ⟨sw, hw, hsw⟩ := F32.Denotes.sub_rounded hhi hlo hw128
  obtain ⟨sc, mc, rfl, hrc, hmc⟩ := hc.exists_eq
  have hmc100 : mc = 100 := by
    rw [← F32.abs_toRat_fin sc mc hrc.1, hmc, hvc]
  subst hmc100
  have hsc : (if sc then -1 else 1) * (100 : ℚ) = vc := by
    rw [← F32.toRat_fin_sign, hmc]
  rw [hd, hw, F32.div_eq_round sc sw 100 _ _ (ne_of_gt hwpos) rfl hf128,
    F32.mul_eq_round sd (xor sc sw) _ _ _ rfl hp128]
  refine ⟨_, _, rfl, ⟨hp0, hp128⟩, ?_⟩
  generalize F32.roundMagnitude (F32.roundMagnitude |vn - vlo| *
    F32.roundMagnitude (100 / F32.roundMagnitude |vhi - vlo|)) = p at herr ⊢
  rw [F32.toRat_fin_sign, F32.sign_xor, F32.sign_xor, ← hsd, ← hsw, ← hsc]
  have hWne : |vhi - vlo| ≠ 0 := ne_of_gt (lt_of_lt_of_le (by norm_num) hW1)
  generalize |vhi - vlo| = W at herr hWne ⊢
  generalize |vn - vlo| = D at herr ⊢
  have key : ∀ σd σc σw : ℚ, σd * σd = 1 → σc * σc = 1 → σw * σw = 1 →
      |σd * (σc * σw) * p - σd * D * (σc * 100) / (σw * W)| = |p - 100 * D / W| := by
    intro σd σc σw hd1 hc1 hw1
    have hσw : σw ≠ 0 := by
      intro h0
      rw [h0] at hw1
      norm_num at hw1
    have e : σd * (σc * σw) * p - σd * D * (σc * 100) / (σw * W)
        = σd * (σc * σw) * (p - 100 * D / W) := by
      have e2 : σd * D * (σc * 100) / (σw * W) = σd * σc * (σw * σw) * (100 * D) / (σw * W) := by
        rw [hw1]
        ring
      rw [e2]
      field_simp
      ring
    rw [e, abs_mul]
    have h1 : |σd * (σc * σw)| = 1 := by
      have hsq : (σd * (σc * σw)) * (σd * (σc * σw)) = 1 := by
        have : (σd * (σc * σw)) * (σd * (σc * σw)) = (σd * σd) * (σc * σc) * (σw * σw) := by
          ring
        rw [this, hd1, hc1, hw1]
        norm_num
      have := abs_mul_abs_self (σd * (σc * σw))
      rw [hsq] at this
      have hnn := abs_nonneg (σd * (σc * σw))
      nlinarith
    rw [h1, one_mul]
  rw [key _ _ _ (by cases sd <;> norm_num) (by cases sc <;> norm_num)
    (by cases sw <;> norm_num)]
  exact herr

/-- C15 (amended): the positive-side rescale in binary32.  For finite `raw`, `zero`,
`minPositive < maxPositive` with `raw > zero` and `minPositive ≤ raw ≤ maxPositive`, whose
three offsets `raw - zero`, `minPositive - zero`, `maxPositive - zero` are binary32 values
(as they are for `zero = 0`): when the width `maxPositive - minPositive` is between `2^-100`
and `2^100` the result is finite and within `2^-14` of
`(raw - minPositive) * 100 / (maxPositive - minPositive)`; it is that value exactly when
the two differences, the scale factor and the product are binary32 values too, and
otherwise it can fall short of it, as at `raw = maxPositive`. -/
theorem calibrate32_positive_rescale (a : AxisCalibration32) (raw : F32) (x z p1 p2 : ℚ)
    (hraw : F32.Denotes raw x) (hzero : F32.Denotes a.zero z)
    (hmin : F32.Denotes a.minPositive p1) (hmax : F32.Denotes a.maxPositive p2)
    (hlt : p1 < p2) (hpos : z < x) (h1 : p1 ≤ x) (h2 : x ≤ p2)
    (e1 : F32.Representable |x - z|) (e2 : F32.Representable |p1 - z|)
    (e3 : F32.Representable |p2 - z|) :
    (1 / 2 ^ 100 ≤ p2 - p1 → p2 - p1 ≤ 2 ^ 100 →
      ∃ s v, calibrate32 a raw = F32.fin s v ∧
        |F32.toRat (F32.fin s v) - (x - p1) * 100 / (p2 - p1)| ≤ 1 / 2 ^ 14) ∧
    (F32.Representable |x - p1| → F32.Representable |p2 - p1| →
      F32.Representable |100 / (p2 - p1)| →
      F32.Representable |(x - p1) * (100 / (p2 - p1))| →
      F32.Denotes (calibrate32 a raw) ((x - p1) * 100 / (p2 - p1))) := by
  have hn := F32.Denotes.sub hraw hzero e1
  have hp1 := F32.Denotes.sub hmin hzero e2
  have hp2 := F32.Denotes.sub hmax hzero e3
  have ed : x - z - (p1 - z) = x - p1 := by ring
  have ew : p2 - z - (p1 - z) = p2 - p1 := by ring
  have c1 : F32.lt zero32 (F32.sub raw a.zero) = true := by
    rw [F32.Denotes.lt denotes_zero32 hn, decide_eq_true_eq]; linarith
  have c2 : F32.lt (F32.sub raw a.zero) (F32.sub a.minPositive a.zero) = false := by
    rw [F32.Denotes.lt hn hp1, decide_eq_false_iff_not]; linarith
  have hwpos : 0 < p2 - p1 := by linarith
  have hge : 0 ≤ (x - p1) * 100 / (p2 - p1) :=
    div_nonneg (mul_nonneg (by linarith) (by norm_num)) (le_of_lt hwpos)
  have hle : (x - p1) * 100 / (p2 - p1) ≤ 100 := by
    rw [div_le_iff₀ hwpos]
    nlinarith
  have hcal : calibrate32 a raw
      = clampAxis32 (F32.mul (F32.sub (F32.sub raw a.zero) (F32.sub a.minPositive a.zero))
          (F32.div hundred32
            (F32.sub (F32.sub a.maxPositive a.zero) (F32.sub a.minPositive a.zero)))) := by
    unfold calibrate32
    simp only [c1, c2, if_true, Bool.false_eq_true, if_false]
  constructor
  · intro hW1 hW2
    obtain ⟨s, p, hm, hreg, herr⟩ := F32.Denotes.rescale_within hn hp1 hp2 denotes_hundred32
      (by norm_num)
      (by rw [ed, ew, abs_of_nonneg (by linarith), abs_of_pos hwpos]; linarith)
      (by rw [ew, abs_of_pos hwpos]; exact hW1)
      (by rw [ew, abs_of_pos hwpos]; exact hW2)
    rw [ed, ew] at herr
    rw [hcal, hm]
    exact clampAxis32_error s p _ _ hreg (by linarith) hle herr
  · intro e4 e5 e6 e7
    have hd := F32.Denotes.sub hn hp1 (by rw [ed]; exact e4)
    have hw := F32.Denotes.sub hp2 hp1 (by rw [ew]; exact e5)
    rw [ed] at hd
    rw [ew] at hw
    have hf := F32.Denotes.div denotes_hundred32 hw (ne_of_gt hwpos) e6
    have hr := F32.Denotes.mul hd hf e7
    have hval : (x - p1) * (100 / (p2 - p1)) = (x - p1) * 100 / (p2 - p1) := by ring
    rw [hval] at hr
    rw [hcal, F32.Denotes.clampAxis32 hr (by linarith) hle]
    exact hr

/-- C15, witness: zero = 5, minPositive = 10, maxPositive = 60 and raw = 35 give 50,
within the bound and exactly. -/
theorem calibrate32_positive_rescale_witness :
    (∃ s v, calibrate32 { zero := F32.fin false 5, minPositive := F32.fin false 10,
                          maxPositive := F32.fin false 60 } (F32.fin false 35) = F32.fin s v ∧
        |F32.toRat (F32.fin s v) - (35 - 10) * 100 / (60 - 10)| ≤ 1 / 2 ^ 14) ∧
    F32.Denotes
      (calibrate32 { zero := F32.fin false 5, minPositive := F32.fin false 10,
                     maxPositive := F32.fin false 60 } (F32.fin false 35))
      ((35 - 10) * 100 / (60 - 10)) :=
  have h := calibrate32_positive_rescale
    { zero := F32.fin false 5, minPositive := F32.fin false 10,
      maxPositive := F32.fin false 60 } (F32.fin false 35) 35 5 10 60
    ⟨F32.representable_nat 35 _ (by norm_num) (by norm_num), rfl⟩
    ⟨F32.representable_nat 5 _ (by norm_num) (by norm_num), rfl⟩
    ⟨F32.representable_nat 10 _ (by norm_num) (by norm_num), rfl⟩
    ⟨F32.representable_nat 60 _ (by norm_num) (by norm_num), rfl⟩
    (by norm_num) (by norm_num) (by norm_num) (by norm_num)
    (F32.representable_nat 30 _ (by norm_num [abs_of_pos]) (by norm_num))
    (F32.representable_nat 5 _ (by norm_num [abs_of_pos]) (by norm_num))
    (F32.representable_nat 55 _ (by norm_num [abs_of_pos]) (by norm_num))
  ⟨h.1 (by norm_num) (by norm_num),
    h.2 (F32.representable_nat 25 _ (by norm_num [abs_of_pos]) (by norm_num))
      (F32.representable_nat 50 _ (by norm_num [abs_of_pos]) (by norm_num))
      (F32.representable_nat 2 _ (by norm_num [abs_of_pos]) (by norm_num))
      (F32.representable_nat 50 _ (by norm_num [abs_of_pos]) (by norm_num))⟩

/-- C16 (amended): the negative-side rescale in binary32 works on the thresholds
`minNegative + zero` and `maxNegative + zero`, so in raw units its value is
`-(minNegative + 2 * zero - raw) * 100 / (minNegative - maxNegative)`, which depends on
`zero` and is the claimed value only for `zero = 0`.  For finite `raw`, `zero`,
`maxNegative < minNegative` with `raw < zero` and
`maxNegative + 2 * zero ≤ raw ≤ minNegative + 2 * zero`, whose three offsets `raw - zero`,
`minNegative + zero`, `maxNegative + zero` are binary32 values: when the width
`minNegative - maxNegative` is between `2^-100` and `2^100` the result is finite and within
`2^-14` of that value; it is that value exactly when the two differences, the scale factor
and the product are binary32 values too. -/
theorem calibrate32_negative_rescale (a : AxisCalibration32) (raw : F32) (x z q1 q2 : ℚ)
    (hraw : F32.Denotes raw x) (hzero : F32.Denotes a.zero z)
    (hmin : F32.Denotes a.minNegative q1) (hmax : F32.Denotes a.maxNegative q2)
    (hlt : q2 < q1) (hneg : x < z) (h1 : x ≤ q1 + 2 * z) (h2 : q2 + 2 * z ≤ x)
    (e1 : F32.Representable |x - z|) (e2 : F32.Representable |q1 + z|)
    (e3 : F32.Representable |q2 + z|) :
    (1 / 2 ^ 100 ≤ q1 - q2 → q1 - q2 ≤ 2 ^ 100 →
      ∃ s v, calibrate32 a raw = F32.fin s v ∧
        |F32.toRat (F32.fin s v) - -(q1 + 2 * z - x) * 100 / (q1 - q2)| ≤ 1 / 2 ^ 14) ∧
    (F32.Representable |q1 + 2 * z - x| → F32.Representable |q1 - q2| →
      F32.Representable |100 / (q1 - q2)| →
      F32.Representable |(q1 + 2 * z - x) * (100 / (q1 - q2))| →
      F32.Denotes (calibrate32 a raw) (-(q1 + 2 * z - x) * 100 / (q1 - q2))) := by
  have hn := F32.Denotes.sub hraw hzero e1
  have hq1 := F32.Denotes.add hmin hzero e2
  have hq2 := F32.Denotes.add hmax hzero e3
  have ed : x - z - (q1 + z) = -(q1 + 2 * z - x) := by ring
  have ew : q2 + z - (q1 + z) = -(q1 - q2) := by ring
  have c0 : F32.lt zero32 (F32.sub raw a.zero) = false := by
    rw [F32.Denotes.lt denotes_zero32 hn, decide_eq_false_iff_not]; linarith
  have c1 : F32.lt (F32.sub raw a.zero) zero32 = true := by
    rw [F32.Denotes.lt hn denotes_zero32, decide_eq_true_eq]; linarith
  have c2 : F32.lt (F32.add a.minNegative a.zero) (F32.sub raw a.zero) = false := by
    rw [F32.Denotes.lt hq1 hn, decide_eq_false_iff_not]; linarith
  have hwpos : 0 < q1 - q2 := by linarith
  have hle : -(q1 + 2 * z - x) * 100 / (q1 - q2) ≤ 0 :=
    div_nonpos_of_nonpos_of_nonneg (by nlinarith) (le_of_lt hwpos)
  have hge : -100 ≤ -(q1 + 2 * z - x) * 100 / (q1 - q2) := by
    rw [le_div_iff₀ hwpos]
    nlinarith
  have hcal : calibrate32 a raw
      = clampAxis32 (F32.mul (F32.sub (F32.sub raw a.zero) (F32.add a.minNegative a.zero))
          (F32.div (F32.neg hundred32)
            (F32.sub (F32.add a.maxNegative a.zero) (F32.add a.minNegative a.zero)))) := by
    unfold calibrate32
    simp only [c0, c1, c2, if_true, Bool.false_eq_true, if_false]
  constructor
  · intro hW1 hW2
    obtain ⟨s, p, hm, hreg, herr⟩ := F32.Denotes.rescale_within hn hq1 hq2
      denotes_neg_hundred32 (by norm_num)
      (by rw [ed, ew, abs_neg, abs_neg, abs_of_nonneg (by linarith), abs_of_pos hwpos]
          linarith)
      (by rw [ew, abs_neg, abs_of_pos hwpos]; exact hW1)
      (by rw [ew, abs_neg, abs_of_pos hwpos]; exact hW2)
    have ev : (x - z - (q1 + z)) * -100 / (q2 + z - (q1 + z))
        = -(q1 + 2 * z - x) * 100 / (q1 - q2) := by
      rw [ed, ew, div_eq_div_iff (neg_ne_zero.mpr (ne_of_gt hwpos)) (ne_of_gt hwpos)]
      ring
    rw [ev] at herr
    rw [hcal, hm]
    exact clampAxis32_error s p _ _ hreg hge (by linarith) herr
  · intro e4 e5 e6 e7
    have hd := F32.Denotes.sub hn hq1 (by rw [ed, abs_neg]; exact e4)
    have hw := F32.Denotes.sub hq2 hq1 (by rw [ew, abs_neg]; exact e5)
    rw [ed] at hd
    rw [ew] at hw
    have hw0 : -(q1 - q2) ≠ 0 := by
      intro h
      linarith
    have hf := F32.Denotes.div denotes_neg_hundred32 hw hw0
      (by rw [neg_div_neg_eq]; exact e6)
    rw [neg_div_neg_eq] at hf
    have hr := F32.Denotes.mul hd hf (by rw [neg_mul, abs_neg]; exact e7)
    have hval : -(q1 + 2 * z - x) * (100 / (q1 - q2))
        = -(q1 + 2 * z - x) * 100 / (q1 - q2) := by
      ring
    rw [hval] at hr
    rw [hcal, F32.Denotes.clampAxis32 hr hge (by linarith)]
    exact hr

/-- C16, witness: zero = 10, minNegative = -20, maxNegative = -100 and raw = -50
give `-(-20 + 20 + 50) * 100 / 80 = -62.5`, within the bound and exactly. -/
theorem calibrate32_negative_rescale_witness :
    (∃ s v, calibrate32 { zero := F32.fin false 10, minNegative := F32.fin true 20,
                          maxNegative := F32.fin true 100 } (F32.fin true 50) = F32.fin s v ∧
        |F32.toRat (F32.fin s v) - -(-20 + 2 * 10 - -50) * 100 / (-20 - -100)| ≤ 1 / 2 ^ 14) ∧
    F32.Denotes
      (calibrate32 { zero := F32.fin false 10, minNegative := F32.fin true 20,
                     maxNegative := F32.fin true 100 } (F32.fin true 50))
      (-(-20 + 2 * 10 - -50) * 100 / (-20 - -100)) :=
  have h := calibrate32_negative_rescale
    { zero := F32.fin false 10, minNegative := F32.fin true 20,
      maxNegative := F32.fin true 100 } (F32.fin true 50) (-50) 10 (-20) (-100)
    ⟨F32.representable_nat 50 _ (by norm_num) (by norm_num), by norm_num⟩
    ⟨F32.representable_nat 10 _ (by norm_num) (by norm_num), rfl⟩
    ⟨F32.representable_nat 20 _ (by norm_num) (by norm_num), by norm_num⟩
    ⟨F32.representable_nat 100 _ (by norm_num) (by norm_num), by norm_num⟩
    (by norm_num) (by norm_num) (by norm_num) (by norm_num)
    (F32.representable_nat 60 _ (by norm_num [abs_of_neg]) (by norm_num))
    (F32.representable_nat 10 _ (by norm_num [abs_of_neg]) (by norm_num))
    (F32.representable_nat 90 _ (by norm_num [abs_of_neg]) (by norm_num))
  ⟨h.1 (by norm_num) (by norm_num),
    h.2 (F32.representable_nat 50 _ (by norm_num [abs_of_pos]) (by norm_num))
      (F32.representable_nat 80 _ (by norm_num [abs_of_pos]) (by norm_num))
      (F32.representable_of_eq _ 5 (-2) (by norm_num [abs_of_pos]) (by norm_num) (by norm_num)
        (by norm_num))
      (F32.representable_of_eq _ 125 (-1) (by norm_num [abs_of_pos]) (by norm_num)
        (by norm_num) (by norm_num))⟩

/-! ## Results in binary32: the extra one half after rounding -/

theorem F32.roundf_fin (s : Bool) (m : ℚ) :
    F32.roundf (F32.fin s m) = F32.fin s ((⌊m + 1 / 2⌋ : ℤ) : ℚ) :=
  rfl

theorem F32.representable_half : F32.Representable (1 / 2) :=
  F32.representable_of_eq _ 1 (-1) (by norm_num) (by norm_num) (by norm_num) (by norm_num)

/-- Below `2^23` a natural number plus one half is a binary32 value. -/
theorem F32.roundMagnitude_nat_add_half (r : ℕ) (h : r < 2 ^ 23) :
    F32.roundMagnitude ((r : ℚ) + 1 / 2) = (r : ℚ) + 1 / 2 := by
  have h1 := F32.roundMagnitude_grid (2 * r + 1) (-1) (by omega) (by norm_num)
  have h2 : (((2 * r + 1 : ℕ) : ℚ)) * (2 : ℚ) ^ (-1 : ℤ) = (r : ℚ) + 1 / 2 := by
    push_cast
    norm_num
    ring
  rw [h2] at h1
  exact h1

/-- The tie `2^23 + 0.5f` goes to the even neighbour `2^23`. -/
theorem F32.roundMagnitude_two_pow_add_half :
    F32.roundMagnitude (8388608 + 1 / 2) = 8388608 := by
  have h := F32.roundMagnitude_eq (8388608 + 1 / 2) 23 8388608 (by norm_num) (by norm_num)
    (by norm_num)
    (F32.roundHalfEven_tie_down _ 8388608 (by norm_num) (by norm_num))
  rw [h]
  norm_num

/-- The tie `8388609 + 0.5f` goes to the even neighbour `8388610`. -/
theorem F32.roundMagnitude_odd_add_half :
    F32.roundMagnitude (8388609 + 1 / 2) = 8388610 := by
  have h := F32.roundMagnitude_eq (8388609 + 1 / 2) 23 8388610 (by norm_num) (by norm_num)
    (by norm_num)
    (F32.roundHalfEven_tie_up _ 8388610 (by norm_num) (by norm_num))
  rw [h]
  norm_num

theorem F32.toSizeT_fin_false (v : ℚ) (h : v < 2 ^ 64) :
    F32.toSizeT (F32.fin false v) = some (⌊v⌋ : ℤ).toNat := by
  show (if v < 2 ^ 64 then some (⌊v⌋ : ℤ).toNat else none) = some (⌊v⌋ : ℤ).toNat
  rw [if_pos h]

/-- For a natural number `r ≤ 2^23` the sum `r + 0.5f` truncates to `r`. -/
theorem F32.toSizeT_add_half (r : ℕ) (h : r ≤ 2 ^ 23) :
    F32.toSizeT (F32.add (F32.fin false (r : ℚ)) half32) = some r := by
  have hpos : (0 : ℚ) < (r : ℚ) + 1 / 2 := by positivity
  have hsum : F32.toRat (F32.fin false (r : ℚ)) + F32.toRat (F32.fin false (1 / 2))
      = F32.toRat (F32.fin false ((r : ℚ) + 1 / 2)) := by
    simp [F32.toRat]
  have hr : (r : ℚ) ≤ 8388608 := by exact_mod_cast h
  rcases Nat.lt_or_ge r (2 ^ 23) with hlt | hge
  · have e : F32.add (F32.fin false (r : ℚ)) half32 = F32.fin false ((r : ℚ) + 1 / 2) :=
      F32.add_eq_round false false false _ _ _ _ hsum hpos
        (F32.roundMagnitude_nat_add_half r hlt) (by norm_num; linarith)
    rw [e, F32.toSizeT_fin_false _ (by norm_num; linarith)]
    have : ⌊(r : ℚ) + 1 / 2⌋ = (r : ℤ) := by
      rw [Int.floor_eq_iff]
      push_cast
      constructor <;> linarith
    rw [this]
    simp
  · have hr2 : r = 8388608 := by omega
    subst hr2
    have e : F32.add (F32.fin false ((8388608 : ℕ) : ℚ)) half32 = F32.fin false 8388608 :=
      F32.add_eq_round false false false _ _ _ _ hsum hpos
        (by push_cast; exact F32.roundMagnitude_two_pow_add_half) (by norm_num)
    rw [e, F32.toSizeT_fin_false _ (by norm_num)]
    have : ⌊(8388608 : ℚ)⌋ = (8388608 : ℤ) := by
      rw [Int.floor_eq_iff]
      norm_num
    rw [this]
    rfl

/-- The source's `round(x) + 0.5f`, truncated, and a single round-half-up agree on every
non-negative finite value whose rounding is at most `2^23` (a negative zero included). -/
theorem toSizeT_roundf_add_half32 (s : Bool) (v : ℚ) (hv : 0 ≤ v) (hs : s = true → v = 0)
    (hb : ⌊v + 1 / 2⌋ ≤ 2 ^ 23) :
    F32.toSizeT (F32.add (F32.roundf (F32.fin s v)) half32) = some (⌊v + 1 / 2⌋ : ℤ).toNat ∧
      roundHalfUp32 (F32.fin s v) = some (⌊v + 1 / 2⌋ : ℤ).toNat := by
  have hfl : 0 ≤ ⌊v + 1 / 2⌋ := Int.floor_nonneg.mpr (by linarith)
  cases s
  · refine ⟨?_, rfl⟩
    rw [F32.roundf_fin]
    have hcast : ((⌊v + 1 / 2⌋ : ℤ) : ℚ) = (((⌊v + 1 / 2⌋ : ℤ).toNat : ℕ) : ℚ) := by
      have : ((⌊v + 1 / 2⌋.toNat : ℕ) : ℤ) = ⌊v + 1 / 2⌋ := Int.toNat_of_nonneg hfl
      exact_mod_cast this.symm
    rw [hcast]
    exact F32.toSizeT_add_half _ (by omega)
  · have h0 : v = 0 := hs rfl
    subst h0
    have hfl0 : ⌊(0 : ℚ) + 1 / 2⌋ = 0 := by
      rw [Int.floor_eq_iff]
      norm_num
    rw [F32.roundf_fin, hfl0]
    refine ⟨?_, ?_⟩
    · have e : F32.add (F32.fin true ((0 : ℤ) : ℚ)) half32 = F32.fin false (1 / 2) :=
        F32.add_eq_round true false false _ _ (1 / 2) _ (by simp [F32.toRat]) (by norm_num)
          F32.representable_half.2.1 (by norm_num)
      rw [e, F32.toSizeT_fin_false _ (by norm_num)]
      have : ⌊(1 / 2 : ℚ)⌋ = 0 := by
        rw [Int.floor_eq_iff]
        norm_num
      rw [this]
    · simp [roundHalfUp32]

/-- The product of a finite value and the conversion of a natural number below `2^24`. -/
theorem F32.mul_ofNat_eq (s : Bool) (x : ℚ) (n : ℕ) (hx : 0 ≤ x) (h1 : x ≤ 1)
    (hn : n < 2 ^ 24) :
    F32.mul (F32.fin s x) (F32.ofNat n) = F32.fin s (F32.roundMagnitude (x * n)) ∧
      0 ≤ F32.roundMagnitude (x * n) ∧ F32.roundMagnitude (x * n) ≤ n := by
  have hn0 : (0 : ℚ) ≤ (n : ℚ) := by positivity
  have hle : F32.roundMagnitude (x * n) ≤ n :=
    F32.roundMagnitude_le_of_le _ _ (mul_nonneg hx hn0) (by nlinarith)
      (F32.representable_natCast n hn).2.1
  have hlt : F32.roundMagnitude (x * n) < 2 ^ 128 :=
    lt_of_le_of_lt hle (F32.representable_natCast n hn).2.2
  refine ⟨?_, F32.roundMagnitude_nonneg _ (mul_nonneg hx hn0), hle⟩
  rw [F32.ofNat_of_lt n hn, F32.mul_eq_round s false x n _ rfl hlt, F32.xor_false_right]

/-- The strength index of a strength in `[0, 1]`, for at most `2^23 + 1` steps: the literal
computation and the single rounding give the same index, which is at most
`numberOfSteps - 1`. -/
theorem strengthIndexOfStrength32_eq (s : Bool) (x : ℚ) (numberOfSteps : ℕ) (hx : 0 ≤ x)
    (hs : s = true → x = 0) (h1 : x ≤ 1) (hN : numberOfSteps ≤ 2 ^ 23 + 1) :
    ∃ i : ℕ, strengthIndexOfStrength32 (F32.fin s x) numberOfSteps = some i ∧
      strengthIndexSingleRound32 (F32.fin s x) numberOfSteps = some i ∧
      i ≤ numberOfSteps - 1 ∧
      i = (⌊F32.roundMagnitude (x * ((numberOfSteps - 1 : ℕ) : ℚ)) + 1 / 2⌋ : ℤ).toNat := by
  obtain ⟨hmul, hv0, hvn⟩ := F32.mul_ofNat_eq s x (numberOfSteps - 1) hx h1 (by omega)
  set v := F32.roundMagnitude (x * ((numberOfSteps - 1 : ℕ) : ℚ)) with hvdef
  have hfl : ⌊v + 1 / 2⌋ ≤ ((numberOfSteps - 1 : ℕ) : ℤ) := by
    have : ⌊v + 1 / 2⌋ < ((numberOfSteps - 1 : ℕ) : ℤ) + 1 := by
      rw [Int.floor_lt]
      push_cast
      linarith
    omega
  have hfl0 : 0 ≤ ⌊v + 1 / 2⌋ := Int.floor_nonneg.mpr (by linarith)
  have hsv : s = true → v = 0 := by
    intro h
    rw [hvdef, hs h, zero_mul, F32.roundMagnitude_zero]
  obtain ⟨e1, e2⟩ := toSizeT_roundf_add_half32 s v hv0 hsv (by omega)
  refine ⟨(⌊v + 1 / 2⌋ : ℤ).toNat, ?_, ?_, by omega, rfl⟩
  · unfold strengthIndexOfStrength32
    rw [hmul]
    exact e1
  · unfold strengthIndexSingleRound32
    rw [hmul]
    exact e2

/-! ## Results in binary32: strength -/

theorem lt_one32_zero32 : F32.lt one32 zero32 = false := by
  show F32.lt one32 (F32.fin false 0) = false
  rw [F32.lt_one32_fin, F32.toRat_fin_false]
  simp

theorem lt_one32_one32 : F32.lt one32 one32 = false := by
  show F32.lt one32 (F32.fin false 1) = false
  rw [F32.lt_one32_fin, F32.toRat_fin_false]
  simp

/-- The two saturating tests of `getAxis2dStrengthCustomAxisPair` applied to a product
`p`: the result is NaN (for a NaN product), `0.f`, `1.f`, or the product itself when that is
finite and in `[0, 1]`. -/
theorem unitClamp32_cases (p : F32) :
    (if F32.lt one32 (if F32.lt p zero32 then zero32 else p) then one32
      else (if F32.lt p zero32 then zero32 else p)) = F32.nan ∧ p = F32.nan ∨
    (if F32.lt one32 (if F32.lt p zero32 then zero32 else p) then one32
      else (if F32.lt p zero32 then zero32 else p)) = zero32 ∨
    (if F32.lt one32 (if F32.lt p zero32 then zero32 else p) then one32
      else (if F32.lt p zero32 then zero32 else p)) = one32 ∨
    ((if F32.lt one32 (if F32.lt p zero32 then zero32 else p) then one32
      else (if F32.lt p zero32 then zero32 else p)) = p ∧
      ∃ s m, p = F32.fin s m ∧ 0 ≤ F32.toRat (F32.fin s m) ∧ F32.toRat (F32.fin s m) ≤ 1) := by
  by_cases h1 : F32.lt p zero32 = true
  · right; left
    rw [if_pos h1, lt_one32_zero32]
    simp
  rw [if_neg h1]
  by_cases h2 : F32.lt one32 p = true
  · right; right; left
    rw [if_pos h2]
  rw [if_neg h2]
  cases p with
  | nan => left; exact ⟨rfl, rfl⟩
  | inf s =>
    exfalso
    cases s
    · exact h2 rfl
    · exact h1 rfl
  | fin s m =>
    right; right; right
    refine ⟨rfl, s, m, rfl, ?_, ?_⟩
    · rw [F32.lt_zero32_fin, decide_eq_true_eq, not_lt] at h1
      exact h1
    · rw [F32.lt_one32_fin, decide_eq_true_eq, not_lt] at h2
      exact h2

theorem toRat_zero32 : F32.toRat zero32 = 0 := rfl

theorem toRat_one32 : F32.toRat one32 = 1 := rfl

/-- The product `100.f * 0.01f` rounds to `1.f`. -/
theorem F32.roundMagnitude_hundred_mul_hundredth :
    F32.roundMagnitude (100 * (5368709 / 536870912)) = 1 := by
  have h := F32.roundMagnitude_of_near (100 * (5368709 / 536870912)) (-1) 16777216
    (by norm_num) (by norm_num) (by norm_num) (by rw [abs_lt]; norm_num)
  rw [h]
  norm_num

theorem mul_zero32_zero32 : F32.mul zero32 zero32 = zero32 := by
  show F32.mul (F32.fin false 0) (F32.fin false 0) = F32.fin false 0
  exact F32.mul_eq_round false false 0 0 0 (by rw [mul_zero]; exact F32.roundMagnitude_zero)
    (by norm_num)

theorem unitClamp32_of_one_le (v : ℚ) (hv : 1 ≤ v) :
    (if F32.lt one32 (if F32.lt (F32.fin false v) zero32 then zero32 else F32.fin false v)
      then one32
      else (if F32.lt (F32.fin false v) zero32 then zero32 else F32.fin false v)) = one32 := by
  have h1 : F32.lt (F32.fin false v) zero32 = false := by
    rw [F32.lt_zero32_fin, F32.toRat_fin_false, decide_eq_false_iff_not]
    linarith
  rw [h1]
  simp only [Bool.false_eq_true, if_false]
  rcases eq_or_lt_of_le hv with heq | hgt
  · rw [← heq]
    show (if F32.lt one32 one32 = true then one32 else one32) = one32
    simp
  · have h2 : F32.lt one32 (F32.fin false v) = true := by
      rw [F32.lt_one32_fin, F32.toRat_fin_false, decide_eq_true_eq]
      exact hgt
    rw [h2]
    simp

theorem unitClamp32_inf :
    (if F32.lt one32 (if F32.lt (F32.inf false) zero32 then zero32 else F32.inf false)
      then one32
      else (if F32.lt (F32.inf false) zero32 then zero32 else F32.inf false)) = one32 := by
  have h1 : F32.lt (F32.inf false) zero32 = false := rfl
  have h2 : F32.lt one32 (F32.inf false) = true := rfl
  rw [h1]
  simp only [Bool.false_eq_true, if_false]
  rw [h2]
  simp

/-- A computed root of at least 100 saturates the strength to `1.f`. -/
theorem strengthOfPosition32_saturated (sqrt : F32 → F32) (px py : F32) (r : ℚ)
    (hroot : sqrt (F32.add (F32.mul px px) (F32.mul py py)) = F32.fin false r)
    (hr : 100 ≤ r) : strengthOfPosition32 sqrt px py = one32 := by
  have hq : (100 : ℚ) * (5368709 / 536870912) ≤ r * (5368709 / 536870912) := by
    nlinarith
  have hv : 1 ≤ F32.roundMagnitude (r * (5368709 / 536870912)) := by
    have := F32.roundMagnitude_mono _ _ (by norm_num) hq
    rw [F32.roundMagnitude_hundred_mul_hundredth] at this
    exact this
  unfold strengthOfPosition32
  simp only [hroot]
  have hp : F32.mul (F32.fin false r) hundredth32
      = F32.round false (r * (5368709 / 536870912)) := rfl
  rw [hp]
  by_cases hfin : F32.roundMagnitude (r * (5368709 / 536870912)) < 2 ^ 128
  · rw [F32.round_eq false _ _ rfl hfin]
    exact unitClamp32_of_one_le _ hv
  · rw [F32.round_eq_inf false _ (not_lt.mp hfin)]
    exact unitClamp32_inf

theorem heronSqrt_of_sq (k : ℕ) (hk : 0 < k) : heronSqrt ((k : ℚ) * (k : ℚ)) = (k : ℚ) := by
  have hkq : (0 : ℚ) < (k : ℚ) := by exact_mod_cast hk
  have h1 : ⌊(k : ℚ) * (k : ℚ)⌋ = ((k * k : ℕ) : ℤ) := by
    rw [Int.floor_eq_iff]
    push_cast
    constructor <;> linarith
  have h2 : ((1 : ℚ) ≤ (k : ℚ)) := by exact_mod_cast hk
  unfold heronSqrt
  rw [if_neg (not_le.mpr (by positivity))]
  simp only []
  rw [h1, Int.toNat_natCast, Nat.sqrt_eq, max_eq_right h2]
  field_simp

theorem sampleSqrt32_fin_false (m : ℚ) (hm : m ≠ 0) :
    sampleSqrt32 (F32.fin false m) = F32.ofRat (heronSqrt m) := by
  show (if m = 0 then F32.fin false 0
    else if false = true then F32.nan else F32.ofRat (heronSqrt m)) = _
  rw [if_neg hm]
  simp

/-- On the square of a natural number below `2^24` the sample square root is exact. -/
theorem sampleSqrt32_of_sq (k : ℕ) (q : ℚ) (hq : q = (k : ℚ) * (k : ℚ)) (hk : 0 < k)
    (hk2 : k < 2 ^ 24) : sampleSqrt32 (F32.fin false q) = F32.fin false (k : ℚ) := by
  have hkq : (0 : ℚ) < (k : ℚ) := by exact_mod_cast hk
  rw [sampleSqrt32_fin_false q (by rw [hq]; positivity), hq, heronSqrt_of_sq k hk,
    F32.ofRat_of_nonneg _ (le_of_lt hkq)]
  exact F32.round_of_representable false _ (F32.representable_natCast k hk2)

/-- The sample square root returns well-formed values. -/
theorem sampleSqrt32_magnitude_nonneg (y : F32) (s : Bool) (m : ℚ)
    (h : sampleSqrt32 y = F32.fin s m) : 0 ≤ m := by
  cases y with
  | nan => exact absurd h (by simp [sampleSqrt32])
  | inf t => cases t <;> exact absurd h (by simp [sampleSqrt32])
  | fin t x =>
    by_cases hx : x = 0
    · have e : sampleSqrt32 (F32.fin t x) = F32.fin t 0 := by
        show (if x = 0 then F32.fin t 0
          else if t = true then F32.nan else F32.ofRat (heronSqrt x)) = _
        rw [if_pos hx]
      rw [e] at h
      injection h with _ h2
      rw [← h2]
    · cases t
      · rw [sampleSqrt32_fin_false x hx] at h
        unfold F32.ofRat F32.round at h
        split_ifs at h
        injection h with _ h2
        rw [← h2]
        exact F32.roundMagnitude_nonneg _ (abs_nonneg _)
      · have e : sampleSqrt32 (F32.fin true x) = F32.nan := by
          show (if x = 0 then F32.fin true 0
            else if true = true then F32.nan else F32.ofRat (heronSqrt x)) = _
          rw [if_neg hx]
          simp
        rw [e] at h
        exact absurd h (by simp)

/-! ### Strength: counterexample and witness -/

theorem F32.mul_hundred_hundred :
    F32.mul (F32.fin false 100) (F32.fin false 100) = F32.fin false 10000 :=
  F32.mul_eq_round false false 100 100 10000
    (by
      rw [show (100 : ℚ) * 100 = 10000 by norm_num]
      exact (F32.representable_nat 10000 _ (by norm_num) (by norm_num)).2.1)
    (by norm_num)

/-- The root computed for the pair (100, 0) is 100. -/
theorem sampleSqrt32_full_deflection :
    sampleSqrt32 (F32.add (F32.mul (F32.fin false 100) (F32.fin false 100))
      (F32.mul zero32 zero32)) = F32.fin false 100 := by
  have h2 : F32.add (F32.fin false 10000) zero32 = F32.fin false 10000 :=
    F32.add_zero_right false 10000 (F32.representable_nat 10000 _ (by norm_num) (by norm_num))
      (by norm_num)
  rw [F32.mul_hundred_hundred, mul_zero32_zero32, h2]
  have := sampleSqrt32_of_sq 100 10000 (by norm_num) (by norm_num) (by norm_num)
  simpa using this

/-- With a well-formed `std::sqrt` the strength is NaN or a well-formed value in `[0, 1]`. -/
theorem strengthOfPosition32_wellFormed (sqrt : F32 → F32) (px py : F32)
    (hsqrt : ∀ y s m, sqrt y = F32.fin s m → 0 ≤ m) :
    strengthOfPosition32 sqrt px py = F32.nan ∨
      ∃ s x, strengthOfPosition32 sqrt px py = F32.fin s x ∧ 0 ≤ x ∧ (s = true → x = 0) ∧
        x ≤ 1 := by
  unfold strengthOfPosition32
  simp only []
  rcases unitClamp32_cases
    (F32.mul (sqrt (F32.add (F32.mul px px) (F32.mul py py))) hundredth32) with
    h | h | h | h
  · left; exact h.1
  · right
    exact ⟨false, 0, h, le_refl _, fun _ => rfl, by norm_num⟩
  · right
    exact ⟨false, 1, h, by norm_num, fun hs => absurd hs (by simp), le_refl _⟩
  · right
    obtain ⟨h1, s, m, hp, h2, h3⟩ := h
    have hm : 0 ≤ m := by
      generalize hroot : sqrt (F32.add (F32.mul px px) (F32.mul py py)) = root at hp
      cases root with
      | nan => exact absurd hp (by simp [F32.mul])
      | inf t =>
        have : F32.mul (F32.inf t) hundredth32 = F32.inf (xor t false) := by
          show (if (5368709 / 536870912 : ℚ) = 0 then F32.nan else F32.inf (xor t false)) = _
          rw [if_neg (by norm_num)]
        rw [this] at hp
        exact absurd hp (by simp)
      | fin t r =>
        have hr : 0 ≤ r := hsqrt _ t r hroot
        have e : F32.mul (F32.fin t r) hundredth32
            = F32.round (xor t false) (r * (5368709 / 536870912)) := rfl
        rw [e] at hp
        unfold F32.round at hp
        split_ifs at hp
        injection hp with _ h5
        rw [← h5]
        exact F32.roundMagnitude_nonneg _ (mul_nonneg hr (by norm_num))
    refine ⟨s, m, h1.trans hp, hm, ?_, ?_⟩
    · intro hs
      subst hs
      rw [F32.toRat_fin_true] at h2
      linarith
    · cases s
      · rw [F32.toRat_fin_false] at h3
        exact h3
      · rw [F32.toRat_fin_true] at h2
        linarith

/-- C12 (amended): for `2 ≤ numberOfSteps ≤ 2^23 + 1` and a well-formed `std::sqrt`,
the strength of every pair is NaN (and the conversion to `std::size_t` is then undefined) or
the strength index lies in `[0, numberOfSteps - 1]`, is 0 when the strength is 0 and is
`numberOfSteps - 1` when the strength is `1.f`.  Beyond `2^23 + 1` steps the sum
`round(x) + 0.5f` can round up past `numberOfSteps - 1`. -/
theorem strengthIndexOfPosition32_range (sqrt : F32 → F32) (px py : F32) (numberOfSteps : ℕ)
    (hsqrt : ∀ y s m, sqrt y = F32.fin s m → 0 ≤ m)
    (h2 : 2 ≤ numberOfSteps) (hN : numberOfSteps ≤ 2 ^ 23 + 1) :
    strengthOfPosition32 sqrt px py = F32.nan ∨
      ∃ i, strengthIndexOfPosition32 sqrt px py numberOfSteps = some i ∧
        i ≤ numberOfSteps - 1 ∧
        (F32.toRat (strengthOfPosition32 sqrt px py) = 0 → i = 0) ∧
        (strengthOfPosition32 sqrt px py = one32 → i = numberOfSteps - 1) := by
  rcases strengthOfPosition32_wellFormed sqrt px py hsqrt with h | ⟨s, x, hx, hx0, hs, hx1⟩
  · left; exact h
  right
  obtain ⟨i, hi, _, hle, hval⟩ := strengthIndexOfStrength32_eq s x numberOfSteps hx0 hs hx1 hN
  refine ⟨i, ?_, hle, ?_, ?_⟩
  · unfold strengthIndexOfPosition32
    rw [if_pos (by omega), hx]
    exact hi
  · intro hz
    rw [hx] at hz
    have hxz : x = 0 := by
      cases s
      · rw [F32.toRat_fin_false] at hz; exact hz
      · exact hs rfl
    rw [hval, hxz, zero_mul, F32.roundMagnitude_zero]
    have : ⌊(0 : ℚ) + 1 / 2⌋ = 0 := by
      rw [Int.floor_eq_iff]
      norm_num
    rw [this]
    rfl
  · intro hone
    rw [hx] at hone
    have hs1 : x = 1 := by
      have : F32.fin s x = F32.fin false 1 := hone
      injection this
    rw [hval, hs1, one_mul, (F32.representable_natCast (numberOfSteps - 1) (by omega)).2.1]
    have : ⌊((numberOfSteps - 1 : ℕ) : ℚ) + 1 / 2⌋ = ((numberOfSteps - 1 : ℕ) : ℤ) := by
      rw [Int.floor_eq_iff]
      push_cast
      constructor <;> linarith
    rw [this]
    simp

/-- C12, witness: the sample square root, the pair (100, 0) and three steps. -/
theorem strengthIndexOfPosition32_range_witness :
    strengthOfPosition32 sampleSqrt32 (F32.fin false 100) zero32 = F32.nan ∨
      ∃ i, strengthIndexOfPosition32 sampleSqrt32 (F32.fin false 100) zero32 3 = some i ∧
        i ≤ 3 - 1 ∧
        (F32.toRat (strengthOfPosition32 sampleSqrt32 (F32.fin false 100) zero32) = 0 → i = 0) ∧
        (strengthOfPosition32 sampleSqrt32 (F32.fin false 100) zero32 = one32 → i = 3 - 1) :=
  strengthIndexOfPosition32_range sampleSqrt32 (F32.fin false 100) zero32 3
    sampleSqrt32_magnitude_nonneg (by norm_num) (by norm_num)

/-- The strength index of full strength for 8388610 steps. -/
theorem strengthIndexOfStrength32_large :
    strengthIndexOfStrength32 one32 8388610 = some 8388610 := by
  have h1 : F32.ofNat (8388610 - 1) = F32.fin false 8388609 := by
    have := F32.ofNat_of_lt 8388609 (by norm_num)
    simpa using this
  have h2 : F32.mul one32 (F32.fin false 8388609) = F32.fin false 8388609 :=
    F32.mul_eq_round false false 1 8388609 8388609
      (by
        rw [one_mul]
        exact (F32.representable_nat 8388609 _ (by norm_num) (by norm_num)).2.1)
      (by norm_num)
  have h3 : F32.roundf (F32.fin false 8388609) = F32.fin false 8388609 := by
    rw [F32.roundf_fin]
    have : ⌊(8388609 : ℚ) + 1 / 2⌋ = 8388609 := by
      rw [Int.floor_eq_iff]
      norm_num
    rw [this]
    norm_num
  have h4 : F32.add (F32.fin false 8388609) half32 = F32.fin false 8388610 :=
    F32.add_eq_round false false false _ _ (8388609 + 1 / 2) _ (by simp [F32.toRat])
      (by norm_num) F32.roundMagnitude_odd_add_half (by norm_num)
  unfold strengthIndexOfStrength32
  rw [h1, h2, h3, h4, F32.toSizeT_fin_false _ (by norm_num)]
  have : ⌊(8388610 : ℚ)⌋ = 8388610 := by
    rw [Int.floor_eq_iff]
    norm_num
  rw [this]
  rfl

/-- C12, counterexample: 8388610 steps and the pair (100, 0), of strength `1.f`.
The product is 8388609, and `8388609 + 0.5f` is a tie that rounds to the even 8388610: the
index returned is 8388610, one past `numberOfSteps - 1`. -/
theorem strengthIndexOfPosition32_range_counterexample :
    strengthIndexOfPosition32 sampleSqrt32 (F32.fin false 100) zero32 8388610
      = some 8388610 ∧
    ¬ (8388610 ≤ 8388610 - 1) := by
  refine ⟨?_, by norm_num⟩
  unfold strengthIndexOfPosition32
  rw [if_pos (by norm_num),
    strengthOfPosition32_saturated sampleSqrt32 (F32.fin false 100) zero32 100
      sampleSqrt32_full_deflection (le_refl _)]
  exact strengthIndexOfStrength32_large

/-! ## Results in binary32: the two index computations against a single rounding -/

theorem F32.ofNat_mul_recip (numberOfSegments : ℕ) (hS : numberOfSegments ≤ 2 ^ 20) :
    F32.mul (F32.ofNat numberOfSegments) recipricalOfFullCircle32
      = F32.fin false (F32.roundMagnitude ((numberOfSegments : ℚ) * (10680707 / 67108864))) ∧
    0 ≤ F32.roundMagnitude ((numberOfSegments : ℚ) * (10680707 / 67108864)) ∧
    F32.roundMagnitude ((numberOfSegments : ℚ) * (10680707 / 67108864)) ≤ 262144 := by
  have hS' : (numberOfSegments : ℚ) ≤ 1048576 := by exact_mod_cast hS
  have hS0 : (0 : ℚ) ≤ (numberOfSegments : ℚ) := by positivity
  have hle : F32.roundMagnitude ((numberOfSegments : ℚ) * (10680707 / 67108864)) ≤ 262144 :=
    F32.roundMagnitude_le_of_le _ _ (by positivity) (by linarith)
      (F32.representable_nat 262144 _ (by norm_num) (by norm_num)).2.1
  refine ⟨?_, F32.roundMagnitude_nonneg _ (by positivity), hle⟩
  rw [F32.ofNat_of_lt numberOfSegments (by omega)]
  exact F32.mul_eq_round false false _ _ _ rfl (by linarith)

/-- The scaled angle of `getAxis2dDirectionIndexCustomAxisPair` for a normalised angle and
at most `2^20` segments: a well-formed value of at most `2^21`. -/
theorem scaledAngle32_eq (s : Bool) (θ : ℚ) (numberOfSegments : ℕ) (h0 : 0 ≤ θ)
    (hs : s = true → θ = 0) (h1 : θ ≤ 13176795 / 2097152) (hS : numberOfSegments ≤ 2 ^ 20) :
    ∃ v, F32.mul (F32.fin s θ) (F32.mul (F32.ofNat numberOfSegments) recipricalOfFullCircle32)
        = F32.fin s v ∧ 0 ≤ v ∧ (s = true → v = 0) ∧ v ≤ 2097152 ∧
      v = F32.roundMagnitude
        (θ * F32.roundMagnitude ((numberOfSegments : ℚ) * (10680707 / 67108864))) := by
  obtain ⟨hc, hc0, hc1⟩ := F32.ofNat_mul_recip numberOfSegments hS
  set c := F32.roundMagnitude ((numberOfSegments : ℚ) * (10680707 / 67108864)) with hcdef
  have hle : F32.roundMagnitude (θ * c) ≤ 2097152 :=
    F32.roundMagnitude_le_of_le _ _ (mul_nonneg h0 hc0) (by nlinarith)
      (F32.representable_nat 2097152 _ (by norm_num) (by norm_num)).2.1
  refine ⟨F32.roundMagnitude (θ * c), ?_, F32.roundMagnitude_nonneg _ (mul_nonneg h0 hc0), ?_,
    hle, rfl⟩
  · rw [hc, F32.mul_eq_round s false θ c _ rfl (by linarith), F32.xor_false_right]
  · intro h
    rw [hs h, zero_mul, F32.roundMagnitude_zero]

theorem floor_add_half_le (v : ℚ) (b : ℤ) (h : v ≤ (b : ℚ)) : ⌊v + 1 / 2⌋ ≤ b := by
  have : ⌊v + 1 / 2⌋ < b + 1 := by
    rw [Int.floor_lt]
    push_cast
    linarith
  omega

/-- C22 (amended): the extra `+ 0.5f` is redundant only while `round(x)` is at most
`2^23`.  For every finite `x ≥ 0` with `round(x) ≤ 2^23`, truncating `round(x) + 0.5f`
gives `⌊x + 1/2⌋`, a single round-half-up; hence the literal strength index equals the
single-rounding one for at most `2^23 + 1` steps, and the literal direction index equals
the single-rounding one for a normalised angle and at most `2^20` segments.  Above `2^23`
the sum `round(x) + 0.5f` is itself rounded and can add one. -/
theorem plus_half_redundant32 :
    (∀ v : ℚ, 0 ≤ v → ⌊v + 1 / 2⌋ ≤ 2 ^ 23 →
      F32.toSizeT (F32.add (F32.roundf (F32.fin false v)) half32)
        = roundHalfUp32 (F32.fin false v)) ∧
    (∀ (s : Bool) (x : ℚ) (numberOfSteps : ℕ), 0 ≤ x → (s = true → x = 0) → x ≤ 1 →
      numberOfSteps ≤ 2 ^ 23 + 1 →
      strengthIndexOfStrength32 (F32.fin s x) numberOfSteps
        = strengthIndexSingleRound32 (F32.fin s x) numberOfSteps) ∧
    (∀ (s : Bool) (θ : ℚ) (numberOfSegments : ℕ), 0 ≤ θ → (s = true → θ = 0) →
      θ ≤ 13176795 / 2097152 → numberOfSegments ≤ 2 ^ 20 →
      directionIndexOfNormalised32 (F32.fin s θ) numberOfSegments
        = directionIndexSingleRound32 (F32.fin s θ) numberOfSegments) := by
  refine ⟨?_, ?_, ?_⟩
  · intro v hv hb
    obtain ⟨e1, e2⟩ := toSizeT_roundf_add_half32 false v hv (fun h => absurd h (by simp)) hb
    rw [e1, e2]
  · intro s x n hx hs h1 hN
    obtain ⟨i, e1, e2, _, _⟩ := strengthIndexOfStrength32_eq s x n hx hs h1 hN
    rw [e1, e2]
  · intro s θ n h0 hs h1 hS
    obtain ⟨v, hv, hv0, hvs, hvle, _⟩ := scaledAngle32_eq s θ n h0 hs h1 hS
    obtain ⟨e1, e2⟩ := toSizeT_roundf_add_half32 s v hv0 hvs
      (le_trans (floor_add_half_le v 2097152 (by exact_mod_cast hvle)) (by norm_num))
    unfold directionIndexOfNormalised32 directionIndexSingleRound32
    simp only [hv, e1, e2]

/-- C22, witness: `x = 2.5`, where both computations give 3. -/
theorem plus_half_redundant32_witness :
    F32.toSizeT (F32.add (F32.roundf (F32.fin false (5 / 2))) half32)
      = roundHalfUp32 (F32.fin false (5 / 2)) :=
  plus_half_redundant32.1 (5 / 2) (by norm_num)
    (le_trans (floor_add_half_le (5 / 2) 3 (by norm_num)) (by norm_num))

/-- C22, counterexample: `x = 8388609`.  `round(x) = 8388609` and `8388609 + 0.5f`
is a tie that rounds to the even 8388610, so the truncation gives 8388610 while a single
round-half-up gives 8388609. -/
theorem plus_half_redundant32_counterexample :
    F32.toSizeT (F32.add (F32.roundf (F32.fin false 8388609)) half32) = some 8388610 ∧
    roundHalfUp32 (F32.fin false 8388609) = some 8388609 := by
  have hfl : ⌊(8388609 : ℚ) + 1 / 2⌋ = 8388609 := by
    rw [Int.floor_eq_iff]
    norm_num
  have h3 : F32.roundf (F32.fin false 8388609) = F32.fin false 8388609 := by
    rw [F32.roundf_fin, hfl]
    norm_num
  have h4 : F32.add (F32.fin false 8388609) half32 = F32.fin false 8388610 :=
    F32.add_eq_round false false false _ _ (8388609 + 1 / 2) _ (by simp [F32.toRat])
      (by norm_num) F32.roundMagnitude_odd_add_half (by norm_num)
  refine ⟨?_, ?_⟩
  · rw [h3, h4, F32.toSizeT_fin_false _ (by norm_num)]
    have : ⌊(8388610 : ℚ)⌋ = 8388610 := by
      rw [Int.floor_eq_iff]
      norm_num
    rw [this]
    rfl
  · show some (⌊(8388609 : ℚ) + 1 / 2⌋ : ℤ).toNat = some 8388609
    rw [hfl]
    rfl

/-! ## Results in binary32: the angle normalisation -/

theorem toRat_doublePiFloat32 : F32.toRat doublePiFloat32 = 13176795 / 2097152 := rfl

theorem toRat_halfPiFloat32 : F32.toRat halfPiFloat32 = 13176795 / 8388608 := rfl

theorem F32.representable_doublePi : F32.Representable (13176795 / 2097152) :=
  F32.representable_of_eq _ 13176795 (-21) (by norm_num) (by norm_num) (by norm_num)
    (by norm_num)

theorem F32.representable_halfPi : F32.Representable (13176795 / 8388608) :=
  F32.representable_of_eq _ 13176795 (-23) (by norm_num) (by norm_num) (by norm_num)
    (by norm_num)

theorem subtractTurns32_of_not_lt (fuel : ℕ) (angle : F32)
    (h : F32.lt doublePiFloat32 angle = false) :
    subtractTurns32 (fuel + 1) angle = some angle := by
  show (if F32.lt doublePiFloat32 angle = true
    then subtractTurns32 fuel (F32.sub angle doublePiFloat32) else some angle) = some angle
  rw [h]
  simp

theorem subtractTurns32_of_lt (fuel : ℕ) (angle : F32)
    (h : F32.lt doublePiFloat32 angle = true) :
    subtractTurns32 (fuel + 1) angle = subtractTurns32 fuel (F32.sub angle doublePiFloat32) := by
  show (if F32.lt doublePiFloat32 angle = true
    then subtractTurns32 fuel (F32.sub angle doublePiFloat32) else some angle) = _
  rw [if_pos h]

theorem addTurns32_of_not_lt (fuel : ℕ) (angle : F32)
    (h : F32.lt angle zero32 = false) :
    addTurns32 (fuel + 1) angle = some angle := by
  show (if F32.lt angle zero32 = true
    then addTurns32 fuel (F32.add angle doublePiFloat32) else some angle) = some angle
  rw [h]
  simp

theorem addTurns32_of_lt (fuel : ℕ) (angle : F32)
    (h : F32.lt angle zero32 = true) :
    addTurns32 (fuel + 1) angle = addTurns32 fuel (F32.add angle doublePiFloat32) := by
  show (if F32.lt angle zero32 = true
    then addTurns32 fuel (F32.add angle doublePiFloat32) else some angle) = _
  rw [if_pos h]

theorem normaliseAngle32_of_subtract (fuel : ℕ) (angle a : F32)
    (h : subtractTurns32 fuel angle = some a) :
    normaliseAngle32 fuel angle = addTurns32 fuel a := by
  unfold normaliseAngle32
  rw [h]

theorem F32.lt_doublePi_fin (s : Bool) (m : ℚ) :
    F32.lt doublePiFloat32 (F32.fin s m)
      = decide (13176795 / 2097152 < F32.toRat (F32.fin s m)) := by
  show F32.lt (F32.fin false (13176795 / 2097152)) (F32.fin s m) = _
  rw [F32.lt_fin, F32.toRat_fin_false]

/-- C21 (amended): for every finite angle between `-doublePiFloat` and
`doublePiFloat`, which covers every value the function can start from (the direction plus a
quarter turn lies between `-piFloat` and `piFloat`), the two loops end within two tests
each and leave a finite angle `a` with `0 ≤ a ≤ doublePiFloat`: the upper bound is attained,
the interval is closed.  For large magnitudes the loops need not end at all. -/
theorem normaliseAngle32_range (s : Bool) (θ : ℚ) (fuel : ℕ) (h0 : 0 ≤ θ)
    (h1 : θ ≤ F32.toRat doublePiFloat32) :
    ∃ t v, normaliseAngle32 (fuel + 2) (F32.fin s θ) = some (F32.fin t v) ∧
      0 ≤ F32.toRat (F32.fin t v) ∧ F32.toRat (F32.fin t v) ≤ F32.toRat doublePiFloat32 := by
  rw [toRat_doublePiFloat32] at h1 ⊢
  have hle : F32.toRat (F32.fin s θ) ≤ 13176795 / 2097152 := by
    cases s
    · rw [F32.toRat_fin_false]; exact h1
    · rw [F32.toRat_fin_true]; linarith
  have hsub : subtractTurns32 (fuel + 2) (F32.fin s θ) = some (F32.fin s θ) :=
    subtractTurns32_of_not_lt _ _
      (by rw [F32.lt_doublePi_fin, decide_eq_false_iff_not, not_lt]; exact hle)
  rw [normaliseAngle32_of_subtract _ _ _ hsub]
  by_cases hneg : F32.toRat (F32.fin s θ) < 0
  · have hs : s = true := by
      cases s
      · rw [F32.toRat_fin_false] at hneg; linarith
      · rfl
    subst hs
    rw [F32.toRat_fin_true] at hneg
    have hθ : 0 < θ := by linarith
    rw [addTurns32_of_lt _ _
      (by rw [F32.lt_zero32_fin, F32.toRat_fin_true, decide_eq_true_eq]; linarith)]
    have key : ∃ v, F32.add (F32.fin true θ) doublePiFloat32 = F32.fin false v ∧ 0 ≤ v ∧
        v ≤ 13176795 / 2097152 := by
      rcases eq_or_lt_of_le h1 with heq | hlt
      · refine ⟨0, ?_, le_refl _, by norm_num⟩
        have := F32.add_eq_zero true false θ (13176795 / 2097152)
          (by rw [F32.toRat_fin_true, F32.toRat_fin_false, heq]; ring)
        simpa using this
      · have hpos : 0 < 13176795 / 2097152 - θ := by linarith
        have hr : F32.roundMagnitude (13176795 / 2097152 - θ) ≤ 13176795 / 2097152 :=
          F32.roundMagnitude_le_of_le _ _ (le_of_lt hpos) (by linarith)
            F32.representable_doublePi.2.1
        refine ⟨F32.roundMagnitude (13176795 / 2097152 - θ), ?_,
          F32.roundMagnitude_nonneg _ (le_of_lt hpos), hr⟩
        exact F32.add_eq_round true false false θ (13176795 / 2097152) _ _
          (by rw [F32.toRat_fin_true, F32.toRat_fin_false, F32.toRat_fin_false]; ring) hpos rfl
          (lt_of_le_of_lt hr (by norm_num))
    obtain ⟨v, hv, hv0, hv1⟩ := key
    rw [hv]
    refine ⟨false, v, ?_, by rw [F32.toRat_fin_false]; exact hv0,
      by rw [F32.toRat_fin_false]; exact hv1⟩
    exact addTurns32_of_not_lt _ _
      (by rw [F32.lt_zero32_fin, F32.toRat_fin_false, decide_eq_false_iff_not, not_lt]
          exact hv0)
  · refine ⟨s, θ, ?_, not_lt.mp hneg, hle⟩
    exact addTurns32_of_not_lt _ _
      (by rw [F32.lt_zero32_fin, decide_eq_false_iff_not]; exact hneg)

/-- C21, witness: the angle `-halfPiFloat`. -/
theorem normaliseAngle32_range_witness :
    ∃ t v, normaliseAngle32 (0 + 2) (F32.fin true (13176795 / 8388608)) = some (F32.fin t v) ∧
      0 ≤ F32.toRat (F32.fin t v) ∧ F32.toRat (F32.fin t v) ≤ F32.toRat doublePiFloat32 :=
  normaliseAngle32_range true (13176795 / 8388608) 0 (by norm_num)
    (by rw [toRat_doublePiFloat32]; norm_num)

/-- The sum `doublePiFloat - 2^-23` rounds back to `doublePiFloat`. -/
theorem F32.roundMagnitude_doublePi_sub_tiny :
    F32.roundMagnitude (13176795 / 2097152 - 1 / 8388608) = 13176795 / 2097152 := by
  have h := F32.roundMagnitude_of_near (13176795 / 2097152 - 1 / 8388608) 2 13176795
    (by norm_num) (by norm_num) (by norm_num) (by rw [abs_lt]; norm_num)
  rw [h]
  norm_num

/-- The difference `2^30 - doublePiFloat` rounds back to `2^30`: the spacing there is 64. -/
theorem F32.roundMagnitude_large_sub_doublePi :
    F32.roundMagnitude (1073741824 - 13176795 / 2097152) = 1073741824 := by
  have h := F32.roundMagnitude_of_near (1073741824 - 13176795 / 2097152) 29 16777216
    (by norm_num) (by norm_num) (by norm_num) (by rw [abs_lt]; norm_num)
  rw [h]
  norm_num

/-- The sum `halfPiFloat + t` for `2^-24 < t < 3 * 2^-24` rounds to `halfPiFloat + 2^-23`. -/
theorem F32.roundMagnitude_halfPi_add (t : ℚ) (h1 : 1 / 16777216 < t) (h2 : t < 3 / 16777216) :
    F32.roundMagnitude (13176795 / 8388608 + t) = 13176796 / 8388608 := by
  have h := F32.roundMagnitude_of_near (13176795 / 8388608 + t) 0 13176796
    (by norm_num) (by norm_num; linarith) (by norm_num; linarith)
    (by
      rw [abs_lt]
      norm_num
      constructor <;> linarith)
  rw [h]
  norm_num

/-- C21, counterexample.  A pair such as (-1e-5, -100) has
`std::atan2(position.x, position.y)` about `-1e-7`, between `-3 * 2^-24` and `-2^-24`; for
every such value the direction plus a quarter turn is `-2^-23`.  From that angle the second
loop adds `doublePiFloat` once and the sum rounds to `doublePiFloat` itself, so the angle
left is `doublePiFloat`, not below it.  And from the angle `2^30` the first loop never
ends: `2^30 - doublePiFloat` rounds back to `2^30`. -/
theorem normaliseAngle32_counterexample :
    (∀ t : ℚ, 1 / 16777216 < t → t < 3 / 16777216 →
      F32.add (F32.sub (F32.fin true t) halfPiFloat32) halfPiFloat32
        = F32.fin true (1 / 8388608)) ∧
    (∀ fuel, normaliseAngle32 (fuel + 2) (F32.fin true (1 / 8388608)) = some doublePiFloat32) ∧
    (∀ fuel, subtractTurns32 fuel (F32.fin false 1073741824) = none) := by
  refine ⟨?_, ?_, ?_⟩
  · intro t h1 h2
    have e1 : F32.sub (F32.fin true t) halfPiFloat32 = F32.fin true (13176796 / 8388608) :=
      F32.sub_eq_round true false true t (13176795 / 8388608) (13176795 / 8388608 + t) _
        (by rw [F32.toRat_fin_true, F32.toRat_fin_false, F32.toRat_fin_true]; ring)
        (by linarith) (F32.roundMagnitude_halfPi_add t h1 h2) (by norm_num)
    rw [e1]
    exact F32.add_eq_round true false true _ (13176795 / 8388608) (1 / 8388608) _
      (by rw [F32.toRat_fin_true, F32.toRat_fin_false, F32.toRat_fin_true]; norm_num)
      (by norm_num)
      (F32.representable_of_eq _ 1 (-23) (by norm_num) (by norm_num) (by norm_num)
        (by norm_num)).2.1
      (by norm_num)
  · intro fuel
    have hsub : subtractTurns32 (fuel + 2) (F32.fin true (1 / 8388608))
        = some (F32.fin true (1 / 8388608)) :=
      subtractTurns32_of_not_lt _ _
        (by rw [F32.lt_doublePi_fin, F32.toRat_fin_true, decide_eq_false_iff_not]; norm_num)
    have hadd : F32.add (F32.fin true (1 / 8388608)) doublePiFloat32 = doublePiFloat32 :=
      F32.add_eq_round true false false _ (13176795 / 2097152)
        (13176795 / 2097152 - 1 / 8388608) _
        (by rw [F32.toRat_fin_true, F32.toRat_fin_false, F32.toRat_fin_false]; ring)
        (by norm_num) F32.roundMagnitude_doublePi_sub_tiny (by norm_num)
    rw [normaliseAngle32_of_subtract _ _ _ hsub,
      addTurns32_of_lt _ _
        (by rw [F32.lt_zero32_fin, F32.toRat_fin_true, decide_eq_true_eq]; norm_num),
      hadd]
    exact addTurns32_of_not_lt _ _
      (by
        show F32.lt (F32.fin false (13176795 / 2097152)) zero32 = false
        rw [F32.lt_zero32_fin, F32.toRat_fin_false, decide_eq_false_iff_not]
        norm_num)
  · intro fuel
    induction fuel with
    | zero => rfl
    | succ n ih =>
      have hsub : F32.sub (F32.fin false 1073741824) doublePiFloat32
          = F32.fin false 1073741824 :=
        F32.sub_eq_round false false false _ (13176795 / 2097152)
          (1073741824 - 13176795 / 2097152) _
          (by rw [F32.toRat_fin_false, F32.toRat_fin_false, F32.toRat_fin_false])
          (by norm_num) F32.roundMagnitude_large_sub_doublePi (by norm_num)
      rw [subtractTurns32_of_lt _ _
        (by rw [F32.lt_doublePi_fin, F32.toRat_fin_false, decide_eq_true_eq]; norm_num),
        hsub]
      exact ih

/-! ## Results in binary32: nearest-segment quantisation -/

theorem floor_add_half_eq (v : ℚ) (k : ℕ) (h1 : (k : ℚ) - 1 / 2 ≤ v) (h2 : v < (k : ℚ) + 1 / 2) :
    (⌊v + 1 / 2⌋ : ℤ).toNat = k := by
  have : ⌊v + 1 / 2⌋ = (k : ℤ) := by
    rw [Int.floor_eq_iff]
    push_cast
    constructor <;> linarith
  rw [this]
  simp

/-- The direction index of a normalised angle is the integer nearest to the computed
scaled angle, wrapped once at `numberOfSegments`. -/
theorem directionIndexOfNormalised32_eq (s : Bool) (θ : ℚ) (numberOfSegments : ℕ) (h0 : 0 ≤ θ)
    (hs : s = true → θ = 0) (h1 : θ ≤ 13176795 / 2097152) (hS : numberOfSegments ≤ 2 ^ 20) :
    ∃ v, F32.mul (F32.fin s θ) (F32.mul (F32.ofNat numberOfSegments) recipricalOfFullCircle32)
        = F32.fin s v ∧ 0 ≤ v ∧
      directionIndexOfNormalised32 (F32.fin s θ) numberOfSegments
        = some (if (⌊v + 1 / 2⌋ : ℤ).toNat ≥ numberOfSegments
            then (⌊v + 1 / 2⌋ : ℤ).toNat - numberOfSegments else (⌊v + 1 / 2⌋ : ℤ).toNat) := by
  obtain ⟨v, hv, hv0, hvs, hvle, _⟩ := scaledAngle32_eq s θ numberOfSegments h0 hs h1 hS
  obtain ⟨e1, _⟩ := toSizeT_roundf_add_half32 s v hv0 hvs
    (le_trans (floor_add_half_le v 2097152 (by exact_mod_cast hvle)) (by norm_num))
  refine ⟨v, hv, hv0, ?_⟩
  unfold directionIndexOfNormalised32
  simp only [hv, e1]

/-- The factor `6 * recipricalOfFullCircle` is a tie and goes to the even `4005265 / 2^22`. -/
theorem F32.roundMagnitude_six_mul_recip :
    F32.roundMagnitude (6 * (10680707 / 67108864)) = 4005265 / 4194304 := by
  have h := F32.roundMagnitude_eq (6 * (10680707 / 67108864)) (-1) 16021060 (by norm_num)
    (by norm_num) (by norm_num)
    (F32.roundHalfEven_tie_down _ 16021060 (by norm_num) (by norm_num))
  rw [h]
  norm_num

/-- The product `halfPiFloat * fl(6 * recipricalOfFullCircle)` rounds to just below 1.5. -/
theorem F32.roundMagnitude_quarter_turn_scaled :
    F32.roundMagnitude (13176795 / 8388608 * (4005265 / 4194304)) = 12582911 / 8388608 := by
  have h := F32.roundMagnitude_of_near (13176795 / 8388608 * (4005265 / 4194304)) 0 12582911
    (by norm_num) (by norm_num) (by norm_num) (by rw [abs_lt]; norm_num)
  rw [h]
  norm_num

theorem scaledAngle32_quarter_turn :
    F32.mul halfPiFloat32 (F32.mul (F32.ofNat 6) recipricalOfFullCircle32)
      = F32.fin false (12582911 / 8388608) := by
  have h1 : F32.ofNat 6 = F32.fin false 6 := by
    have := F32.ofNat_of_lt 6 (by norm_num)
    simpa using this
  have h2 : F32.mul (F32.fin false 6) recipricalOfFullCircle32
      = F32.fin false (4005265 / 4194304) :=
    F32.mul_eq_round false false 6 _ _ F32.roundMagnitude_six_mul_recip (by norm_num)
  rw [h1, h2]
  exact F32.mul_eq_round false false _ _ _ F32.roundMagnitude_quarter_turn_scaled (by norm_num)

/-- C20, counterexample: six segments and the pair (100, 0), pointing right.
`std::atan2(100.f, -0.f)` is `halfPiFloat`, the direction is 0 and the angle is
`halfPiFloat = doublePiFloat / 4`, exactly the lower end `(2 - 1/2) * doublePiFloat / 6` of
the interval of `k = 2`.  The computed scaled angle is `12582911 / 2^23`, just below 1.5, and
the direction index is 1, not 2. -/
theorem directionIndexOfAngle32_counterexample :
    F32.add (F32.sub halfPiFloat32 halfPiFloat32) halfPiFloat32 = halfPiFloat32 ∧
    directionIndexOfAngle32 2 halfPiFloat32 6 = some 1 ∧
    ((2 - 1 / 2 : ℚ) * F32.toRat doublePiFloat32 / 6 ≤ F32.toRat halfPiFloat32 ∧
      F32.toRat halfPiFloat32 < (2 + 1 / 2 : ℚ) * F32.toRat doublePiFloat32 / 6) := by
  refine ⟨?_, ?_, ?_⟩
  · have e1 : F32.sub halfPiFloat32 halfPiFloat32 = F32.fin false 0 :=
      F32.sub_eq_zero false false _ _ (by simp)
    rw [e1]
    exact F32.add_eq_round false false false 0 (13176795 / 8388608) (13176795 / 8388608) _
      (by simp [F32.toRat]) (by norm_num) F32.representable_halfPi.2.1 (by norm_num)
  · have hsub : subtractTurns32 2 halfPiFloat32 = some halfPiFloat32 :=
      subtractTurns32_of_not_lt _ _
        (by
          show F32.lt doublePiFloat32 (F32.fin false (13176795 / 8388608)) = false
          rw [F32.lt_doublePi_fin, F32.toRat_fin_false, decide_eq_false_iff_not]
          norm_num)
    have hadd : addTurns32 2 halfPiFloat32 = some halfPiFloat32 :=
      addTurns32_of_not_lt _ _
        (by
          show F32.lt (F32.fin false (13176795 / 8388608)) zero32 = false
          rw [F32.lt_zero32_fin, F32.toRat_fin_false, decide_eq_false_iff_not]
          norm_num)
    have hfl : ⌊(12582911 / 8388608 : ℚ) + 1 / 2⌋ = 1 := by
      rw [Int.floor_eq_iff]
      norm_num
    have h3 : F32.roundf (F32.fin false (12582911 / 8388608)) = F32.fin false 1 := by
      rw [F32.roundf_fin, hfl]
      norm_num
    have h4 : F32.toSizeT (F32.add (F32.fin false 1) half32) = some 1 := by
      have := F32.toSizeT_add_half 1 (by norm_num)
      simpa using this
    unfold directionIndexOfAngle32
    rw [normaliseAngle32_of_subtract _ _ _ hsub, hadd]
    unfold directionIndexOfNormalised32
    simp only [scaledAngle32_quarter_turn, h3, h4]
    norm_num
  · rw [toRat_doublePiFloat32, toRat_halfPiFloat32]
    norm_num

/-- The computed scaled angle against the exact `theta * S / doublePiFloat`: the three
roundings (of the reciprocal, of its product with `S`, and of the final product) move it by
less than `S / 2^22`. -/
theorem scaledAngle32_error (θ : ℚ) (numberOfSegments : ℕ) (h0 : 0 ≤ θ)
    (h1 : θ ≤ 13176795 / 2097152) (hS : 1 ≤ numberOfSegments) :
    θ * numberOfSegments / (13176795 / 2097152) - (numberOfSegments : ℚ) / 2 ^ 22
        ≤ F32.roundMagnitude
          (θ * F32.roundMagnitude ((numberOfSegments : ℚ) * (10680707 / 67108864))) ∧
      F32.roundMagnitude
          (θ * F32.roundMagnitude ((numberOfSegments : ℚ) * (10680707 / 67108864)))
        < θ * numberOfSegments / (13176795 / 2097152) + (numberOfSegments : ℚ) / 2 ^ 22 := by
  have hS1 : (1 : ℚ) ≤ (numberOfSegments : ℚ) := by exact_mod_cast hS
  generalize (numberOfSegments : ℚ) = S at hS1 ⊢
  have ha0 : 0 ≤ S * (10680707 / 67108864) := by positivity
  have hc0 := F32.roundMagnitude_nonneg _ ha0
  have hcU := F32.roundMagnitude_le_add _ ha0
  have hcL := F32.sub_le_roundMagnitude _ ha0
  generalize F32.roundMagnitude (S * (10680707 / 67108864)) = c at hc0 hcU hcL ⊢
  have hb0 : 0 ≤ θ * c := mul_nonneg h0 hc0
  have hvU := F32.roundMagnitude_le_add _ hb0
  have hvL := F32.sub_le_roundMagnitude _ hb0
  generalize F32.roundMagnitude (θ * c) = v at hvU hvL ⊢
  have hη0 : (0 : ℚ) < 1 / 2 ^ 150 := by positivity
  have hη1 : 10 * ((1 : ℚ) / 2 ^ 150) ≤ 1 / 2 ^ 25 := by norm_num
  generalize (1 : ℚ) / 2 ^ 150 = η at hcU hcL hvU hvL hη0 hη1
  have hT0 : 0 ≤ θ * S / (13176795 / 2097152) := by positivity
  have hTS : θ * S / (13176795 / 2097152) ≤ S := by
    rw [div_le_iff₀ (by norm_num)]
    have := mul_le_mul_of_nonneg_right h1 (by linarith : (0 : ℚ) ≤ S)
    linarith
  have hθa : θ * (S * (10680707 / 67108864))
      = θ * S / (13176795 / 2097152) * (140737486594065 / 140737488355328) := by
    field_simp
    ring
  generalize θ * S / (13176795 / 2097152) = T at hT0 hTS hθa ⊢
  have h8 : θ * η ≤ 8 * η := mul_le_mul_of_nonneg_right (by linarith) (le_of_lt hη0)
  have hθη0 : 0 ≤ θ * η := mul_nonneg h0 (le_of_lt hη0)
  have hbU : θ * c ≤ T * (140737486594065 / 140737488355328) * (1 + 1 / 2 ^ 24) + 8 * η := by
    have h := mul_le_mul_of_nonneg_left hcU h0
    have e : θ * (S * (10680707 / 67108864) + S * (10680707 / 67108864) / 2 ^ 24 + η)
        = θ * (S * (10680707 / 67108864)) * (1 + 1 / 2 ^ 24) + θ * η := by ring
    rw [e, hθa] at h
    linarith
  have hbL : T * (140737486594065 / 140737488355328) * (1 - 1 / 2 ^ 24) - 8 * η ≤ θ * c := by
    have h := mul_le_mul_of_nonneg_left hcL h0
    have e : θ * (S * (10680707 / 67108864) - S * (10680707 / 67108864) / 2 ^ 24 - η)
        = θ * (S * (10680707 / 67108864)) * (1 - 1 / 2 ^ 24) - θ * η := by ring
    rw [e, hθa] at h
    linarith
  generalize θ * c = b at hb0 hvU hvL hbU hbL
  have hKL : T * (1 - 3 / 2 ^ 24)
      ≤ T * (140737486594065 / 140737488355328) * (1 - 1 / 2 ^ 24) * (1 - 1 / 2 ^ 24) := by
    have hk : (1 - 3 / 2 ^ 24 : ℚ)
        ≤ 140737486594065 / 140737488355328 * (1 - 1 / 2 ^ 24) * (1 - 1 / 2 ^ 24) := by
      norm_num
    have := mul_le_mul_of_nonneg_left hk hT0
    linarith
  have hKU : T * (140737486594065 / 140737488355328) * (1 + 1 / 2 ^ 24) * (1 + 1 / 2 ^ 24)
      ≤ T * (1 + 1 / 2 ^ 23) := by
    have hk : (140737486594065 / 140737488355328 * (1 + 1 / 2 ^ 24) * (1 + 1 / 2 ^ 24) : ℚ)
        ≤ 1 + 1 / 2 ^ 23 := by
      norm_num
    have := mul_le_mul_of_nonneg_left hk hT0
    linarith
  constructor
  · have hv2 := mul_le_mul_of_nonneg_right hbL (by norm_num : (0 : ℚ) ≤ 1 - 1 / 2 ^ 24)
    linarith
  · have hv2 := mul_le_mul_of_nonneg_right hbU (by norm_num : (0 : ℚ) ≤ 1 + 1 / 2 ^ 24)
    linarith

/-- C20 (amended): nearest-segment quantisation holds away from the segment
boundaries.  Let `theta` be the angle left by the two loops, a value of
`[0, doublePiFloat]`, and take `2 ≤ S ≤ 2^20` segments and any `k`.  If `theta` lies in the
interval of `k` and at least `doublePiFloat / 2^22` (about 1.5e-6 radians) inside it, that is
`(k - 1/2) * 2*pi/S + 2*pi/2^22 ≤ theta ≤ (k + 1/2) * 2*pi/S - 2*pi/2^22` with
`2*pi = doublePiFloat`, then the direction index is `k` (or `k - S`, that is 0, for
`k = S`).  Closer to a boundary the three roundings of the scaled angle decide, and an
angle exactly on a boundary can fall into the segment below. -/
theorem directionIndexOfAngle32_nearest (angle : F32) (s : Bool) (θ : ℚ)
    (numberOfSegments k fuel : ℕ)
    (hnorm : normaliseAngle32 fuel angle = some (F32.fin s θ))
    (h0 : 0 ≤ θ) (hs : s = true → θ = 0) (h1 : θ ≤ F32.toRat doublePiFloat32)
    (hS2 : 2 ≤ numberOfSegments) (hS : numberOfSegments ≤ 2 ^ 20)
    (hk1 : ((k : ℚ) - 1 / 2) * F32.toRat doublePiFloat32 / numberOfSegments
      + F32.toRat doublePiFloat32 / 2 ^ 22 ≤ θ)
    (hk2 : θ ≤ ((k : ℚ) + 1 / 2) * F32.toRat doublePiFloat32 / numberOfSegments
      - F32.toRat doublePiFloat32 / 2 ^ 22) :
    directionIndexOfAngle32 fuel angle numberOfSegments
      = some (if k ≥ numberOfSegments then k - numberOfSegments else k) := by
  rw [toRat_doublePiFloat32] at h1 hk1 hk2
  have hdir : directionIndexOfAngle32 fuel angle numberOfSegments
      = directionIndexOfNormalised32 (F32.fin s θ) numberOfSegments := by
    unfold directionIndexOfAngle32
    rw [hnorm]
  rw [hdir]
  obtain ⟨v, hv, hv0, hidx⟩ := directionIndexOfNormalised32_eq s θ numberOfSegments h0 hs h1 hS
  obtain ⟨w, hw, _, _, _, hwval⟩ := scaledAngle32_eq s θ numberOfSegments h0 hs h1 hS
  have hvw : v = w := by
    rw [hv] at hw
    injection hw
  obtain ⟨eL, eU⟩ := scaledAngle32_error θ numberOfSegments h0 h1 (by omega)
  rw [← hwval, ← hvw] at eL eU
  have hSpos : (0 : ℚ) < (numberOfSegments : ℚ) := by
    have : 0 < numberOfSegments := by omega
    exact_mod_cast this
  have hT1 : (k : ℚ) - 1 / 2 + (numberOfSegments : ℚ) / 2 ^ 22
      ≤ θ * numberOfSegments / (13176795 / 2097152) := by
    rw [le_div_iff₀ (by norm_num)]
    have := mul_le_mul_of_nonneg_right hk1 (le_of_lt hSpos)
    have e : (((k : ℚ) - 1 / 2) * (13176795 / 2097152) / numberOfSegments
        + 13176795 / 2097152 / 2 ^ 22) * numberOfSegments
        = ((k : ℚ) - 1 / 2 + (numberOfSegments : ℚ) / 2 ^ 22) * (13176795 / 2097152) := by
      field_simp
      ring
    rw [e] at this
    exact this
  have hT2 : θ * numberOfSegments / (13176795 / 2097152)
      ≤ (k : ℚ) + 1 / 2 - (numberOfSegments : ℚ) / 2 ^ 22 := by
    rw [div_le_iff₀ (by norm_num)]
    have := mul_le_mul_of_nonneg_right hk2 (le_of_lt hSpos)
    have e : (((k : ℚ) + 1 / 2) * (13176795 / 2097152) / numberOfSegments
        - 13176795 / 2097152 / 2 ^ 22) * numberOfSegments
        = ((k : ℚ) + 1 / 2 - (numberOfSegments : ℚ) / 2 ^ 22) * (13176795 / 2097152) := by
      field_simp
      ring
    rw [e] at this
    exact this
  rw [hidx, floor_add_half_eq v k (by linarith) (by linarith)]

/-- The sum `-halfPiFloat + doublePiFloat`, three quarters of a turn. -/
theorem F32.roundMagnitude_three_quarter_turn :
    F32.roundMagnitude (39530385 / 8388608) = 2470649 / 524288 := by
  have h := F32.roundMagnitude_of_near (39530385 / 8388608) 2 9882596
    (by norm_num) (by norm_num) (by norm_num) (by rw [abs_lt]; norm_num)
  rw [h]
  norm_num

/-- The two loops on the angle `-halfPiFloat`: one turn is added. -/
theorem normaliseAngle32_neg_halfPi :
    normaliseAngle32 2 (F32.fin true (13176795 / 8388608))
      = some (F32.fin false (2470649 / 524288)) := by
  have hsub : subtractTurns32 (1 + 1) (F32.fin true (13176795 / 8388608))
      = some (F32.fin true (13176795 / 8388608)) :=
    subtractTurns32_of_not_lt _ _
      (by rw [F32.lt_doublePi_fin, decide_eq_false_iff_not, F32.toRat_fin_true]; norm_num)
  have hadd : F32.add (F32.fin true (13176795 / 8388608)) doublePiFloat32
      = F32.fin false (2470649 / 524288) :=
    F32.add_eq_round true false false _ _ (39530385 / 8388608) _
      (by rw [F32.toRat_fin_true, F32.toRat_fin_false, F32.toRat_fin_false]; norm_num)
      (by norm_num) F32.roundMagnitude_three_quarter_turn (by norm_num)
  rw [normaliseAngle32_of_subtract _ _ _ hsub,
    addTurns32_of_lt 1 _
      (by rw [F32.lt_zero32_fin, decide_eq_true_eq, F32.toRat_fin_true]; norm_num),
    hadd]
  exact addTurns32_of_not_lt 0 _
    (by rw [F32.lt_zero32_fin, decide_eq_false_iff_not, F32.toRat_fin_false]; norm_num)

/-- C20, witness: eight segments and the initial angle `-halfPiFloat`,
which the loops turn into three quarters of a turn, well inside the interval of
`k = 6`. -/
theorem directionIndexOfAngle32_nearest_witness :
    directionIndexOfAngle32 2 (F32.fin true (13176795 / 8388608)) 8
      = some (if 6 ≥ 8 then 6 - 8 else 6) :=
  directionIndexOfAngle32_nearest (F32.fin true (13176795 / 8388608)) false
    (2470649 / 524288) 8 6 2 normaliseAngle32_neg_halfPi (by norm_num) (by simp)
    (by rw [toRat_doublePiFloat32]; norm_num) (by norm_num) (by norm_num)
    (by rw [toRat_doublePiFloat32]; norm_num) (by rw [toRat_doublePiFloat32]; norm_num)

end joystickcontroller
